import Mathlib

/-!
# Command-line argument parser (`arg::Parser`): embedding and verification

The development embeds the parsing engine of `arg/parser.hpp` together with the
adapters of `arg/adapters.hpp` and the diagnostics of `arg/errors.hpp`.

* `std::string` / `std::string_view` are lists of characters (`Str`).
* The shared storage cell of a declaration is held inside its adapter; a pointer
  to an adapter returned by `findOption` is the adapter's index in `_options`
  together with the adapter found there.
* `read<T>` is a per-declaration reader `Str → Option V`, where `V` is the type of
  stored values (the sum of all the `T` in use).
* A failed `assert`, a thrown `std::logic_error` and a null dereference are the
  three values of `Fault`; functions that can reach one return `Except Fault _`.
* Printing (`print`, `printHelp`) and `std::exit` are not modelled: `parse`
  returns the outcome it would exit with.
-/

namespace arg

/-- A `std::string`. -/
abbrev Str := List Char

namespace err

/-- The variant `arg::err::Error` of `errors.hpp`. -/
inductive Error where
  | InvalidValueGiven (keys value : Str)
  | RequiredOptionNotSet (keys : Str)
  | RequiredOptionValueNotGiven (key : Str)
  | UnexpectedArgument (argument : Str)
  | UnexpectedOptionValueGiven (key value : Str)
deriving DecidableEq, Repr

end err

open err

/-- Abnormal terminations of the engine. -/
inductive Fault where
  /-- A failed `assert(...)`. -/
  | assertion
  /-- A thrown `std::logic_error` ("... must not be called"). -/
  | logicError
  /-- A member call through the null pointer `findOption` returned. -/
  | nullDeref
deriving DecidableEq, Repr

/-- Embeds `Parser::Config`, with its default member initialisers. -/
structure Config where
  allowKeyValueSyntax : Bool := true
  keyValueSeparator : Str := ['=']
  allowArgumentPacking : Bool := true
  packPrefix : Str := ['-']
  allowUnspecifiedArguments : Bool := false
deriving DecidableEq, Repr

/-- The four keyed adapters of `adapters.hpp`, each holding the data of the
declaration it wraps (`Flag::Data`, `MultiFlag::Data`, `Option<T>::Data`,
`MultiOption<T>::Data`) and, for the argument-bearing ones, the reader `read<T>`. -/
inductive KeyAdapter (V : Type) where
  | FlagAdapter (keys : List Str) (help : Str) (value : Bool)
  | MultiFlagAdapter (keys : List Str) (help : Str) (count : Nat)
  | OptionAdapter (keys : List Str) (help metavar : Str) (required : Bool)
      (value : V) (isSet : Bool) (read : Str → Option V)
  | MultiOptionAdapter (keys : List Str) (help metavar : Str) (values : List V)
      (read : Str → Option V)

namespace KeyAdapter

variable {V : Type}

/-- Embeds `KeyAdapter::keys`. -/
def keys : KeyAdapter V → List Str
  | FlagAdapter ks _ _ => ks
  | MultiFlagAdapter ks _ _ => ks
  | OptionAdapter ks _ _ _ _ _ _ => ks
  | MultiOptionAdapter ks _ _ _ _ => ks

/-- Embeds `KeyAdapter::hasArgument`. -/
def hasArgument : KeyAdapter V → Bool
  | FlagAdapter _ _ _ => false
  | MultiFlagAdapter _ _ _ => false
  | OptionAdapter _ _ _ _ _ _ _ => true
  | MultiOptionAdapter _ _ _ _ _ => true

/-- Embeds `KeyAdapter::isRequired`. -/
def isRequired : KeyAdapter V → Bool
  | FlagAdapter _ _ _ => false
  | MultiFlagAdapter _ _ _ => false
  | OptionAdapter _ _ _ required _ _ _ => required
  | MultiOptionAdapter _ _ _ _ _ => false

/-- Embeds `KeyAdapter::isSet`: only `OptionAdapter` answers, the others throw. -/
def isSet : KeyAdapter V → Except Fault Bool
  | FlagAdapter _ _ _ => .error .logicError
  | MultiFlagAdapter _ _ _ => .error .logicError
  | OptionAdapter _ _ _ _ _ set _ => .ok set
  | MultiOptionAdapter _ _ _ _ _ => .error .logicError

/-- Embeds `KeyAdapter::raise`: `_flag = true` for a flag, `_multiFlag = true` for a
multi-flag (`MultiFlag::operator=(size_t)` applied to `true`, that is, to 1); the
argument-bearing adapters throw. -/
def raise : KeyAdapter V → Except Fault (KeyAdapter V)
  | FlagAdapter ks h _ => .ok (FlagAdapter ks h true)
  | MultiFlagAdapter ks h _ => .ok (MultiFlagAdapter ks h 1)
  | OptionAdapter _ _ _ _ _ _ _ => .error .logicError
  | MultiOptionAdapter _ _ _ _ _ => .error .logicError

/-- Embeds `KeyAdapter::addValue`: the adapter after the call and the returned `bool`.
`Option<T>::operator=` stores the value and sets `isSet`; `MultiOption<T>::push`
appends; the flag adapters throw. -/
def addValue : KeyAdapter V → Str → Except Fault (KeyAdapter V × Bool)
  | FlagAdapter _ _ _, _ => .error .logicError
  | MultiFlagAdapter _ _ _, _ => .error .logicError
  | OptionAdapter ks h m r v set rd, s =>
    match rd s with
    | some x => .ok (OptionAdapter ks h m r x true rd, true)
    | none => .ok (OptionAdapter ks h m r v set rd, false)
  | MultiOptionAdapter ks h m vs rd, s =>
    match rd s with
    | some x => .ok (MultiOptionAdapter ks h m (vs ++ [x]) rd, true)
    | none => .ok (MultiOptionAdapter ks h m vs rd, false)

/-- Embeds `KeyAdapter::keyString`: the keys joined by `", "`. -/
def keyString (d : KeyAdapter V) : Str :=
  match d.keys with
  | [] => []
  | k :: ks => ks.foldl (fun stream key => stream ++ [',', ' '] ++ key) k

/-- Embeds `KeyAdapter::hasKey`. -/
def hasKey (d : KeyAdapter V) (s : Str) : Bool :=
  decide (s ∈ d.keys)

end KeyAdapter

/-- The two positional adapters of `adapters.hpp`. `MultiValue<T>` declares neither
`isRequired` nor `metavar`, which `MultiValueAdapter` calls: `metavar` is the
`metavar` member of `MultiValue::Data`, and `required` is taken as a parameter. -/
inductive ArgumentAdapter (V : Type) where
  | ValueAdapter (help metavar : Str) (required : Bool) (value : V) (isSet : Bool)
      (read : Str → Option V)
  | MultiValueAdapter (help metavar : Str) (required : Bool) (values : List V)
      (read : Str → Option V)

namespace ArgumentAdapter

variable {V : Type}

/-- Embeds `ArgumentAdapter::isRequired`. -/
def isRequired : ArgumentAdapter V → Bool
  | ValueAdapter _ _ required _ _ _ => required
  | MultiValueAdapter _ _ required _ _ => required

/-- Embeds `ArgumentAdapter::isSet`: `MultiValueAdapter` throws. -/
def isSet : ArgumentAdapter V → Except Fault Bool
  | ValueAdapter _ _ _ _ set _ => .ok set
  | MultiValueAdapter _ _ _ _ _ => .error .logicError

/-- Embeds `ArgumentAdapter::metavar`. -/
def metavar : ArgumentAdapter V → Str
  | ValueAdapter _ m _ _ _ _ => m
  | MultiValueAdapter _ m _ _ _ => m

/-- Embeds `ArgumentAdapter::multi`. -/
def multi : ArgumentAdapter V → Bool
  | ValueAdapter _ _ _ _ _ _ => false
  | MultiValueAdapter _ _ _ _ _ => true

/-- Embeds `ArgumentAdapter::addValue`: the adapter after the call and the returned
`bool`. -/
def addValue : ArgumentAdapter V → Str → ArgumentAdapter V × Bool
  | ValueAdapter h m r v set rd, s =>
    match rd s with
    | some x => (ValueAdapter h m r x true rd, true)
    | none => (ValueAdapter h m r v set rd, false)
  | MultiValueAdapter h m r vs rd, s =>
    match rd s with
    | some x => (MultiValueAdapter h m r (vs ++ [x]) rd, true)
    | none => (MultiValueAdapter h m r vs rd, false)

end ArgumentAdapter

/-- The data members of `Parser` that `parse` reads or writes (`_programName` is
only printed). -/
structure Parser (V : Type) where
  config : Config := {}
  options : List (KeyAdapter V) := []
  arguments : List (ArgumentAdapter V) := []
  position : Nat := 0
  leftovers : List Str := []
  helpKeys : List Str := []

/-- Embeds `Parser::KeyValuePair`. -/
structure KeyValuePair where
  key : Str
  value : Str
deriving DecidableEq, Repr

/-- Embeds `Parser::KeyPack`. -/
structure KeyPack where
  keys : List Str
  leftover : Str
deriving DecidableEq, Repr

/-- Search of `pat` in `s` from its head, `pos` being the index of the head:
the loop behind `std::string_view::find`. -/
def findAt (pat : Str) : Str → Nat → Option Nat
  | [], pos => if pat.isPrefixOf [] then some pos else none
  | c :: t, pos => if pat.isPrefixOf (c :: t) then some pos else findAt pat t (pos + 1)

/-- Embeds `s.find(pat)`: the index of the first occurrence of `pat` in `s`, `none` for
`npos`. -/
def find (s pat : Str) : Option Nat :=
  findAt pat s 0

section Engine

variable {V : Type}

/-- The reverse iteration of `Parser::findOption`: `rev` is what is left of
`_options` read from its end, `n` the number of adapters left. -/
def findOptionRev (key : Str) : List (KeyAdapter V) → Nat → Option (Nat × KeyAdapter V)
  | [], _ => none
  | d :: rev, n => if d.hasKey key then some (n - 1, d) else findOptionRev key rev (n - 1)

/-- Embeds `Parser::findOption`: the last registered adapter that has the key, as its
index in `_options` and the adapter itself; `none` for `nullptr`. -/
def findOption (options : List (KeyAdapter V)) (key : Str) : Option (Nat × KeyAdapter V) :=
  findOptionRev key options.reverse options.length

/-- Embeds `Parser::parseKeyValue`. -/
def parseKeyValue (config : Config) (arg : Str) : Option KeyValuePair :=
  if !config.allowKeyValueSyntax then none
  else
    match find arg config.keyValueSeparator with
    | none => none
    | some sep =>
      some { key := arg.take sep,
             value := if sep + 1 < arg.length then arg.drop (sep + 1) else [] }

/-- The loop of `Parser::parsePack` over the characters left in the token,
`keys` being `keyPack.keys` so far. -/
def parsePackLoop (options : List (KeyAdapter V)) (packPrefix : Str) :
    Str → List Str → Option KeyPack
  | [], keys => some { keys := keys, leftover := [] }
  | c :: cs, keys =>
    match findOption options (packPrefix ++ [c]) with
    | none => none
    | some (_, option) =>
      if option.hasArgument && !cs.isEmpty then
        some { keys := keys ++ [packPrefix ++ [c]], leftover := cs }
      else parsePackLoop options packPrefix cs (keys ++ [packPrefix ++ [c]])

/-- Embeds `Parser::parsePack`. -/
def parsePack (config : Config) (options : List (KeyAdapter V)) (arg : Str) :
    Option KeyPack :=
  if !config.allowArgumentPacking then none
  else if find arg config.packPrefix != some 0 then none
  else parsePackLoop options config.packPrefix (arg.drop config.packPrefix.length) []

/-- What one pass of the scan loop did to the iterator `arg`: `one` for a single
`++arg`, `two` when the following token was stepped over as well. -/
inductive Advance where
  | one
  | two
deriving DecidableEq, Repr

/-- The state of `Parser::parse` during the scan: the parser's members and the
locals `errors` and `helpRequested`. -/
structure Scan (V : Type) where
  parser : Parser V
  errors : List Error := []
  helpRequested : Bool := false

/-- Embeds `errors.push_back(e)`. -/
def Scan.pushError (s : Scan V) (e : Error) : Scan V :=
  { s with errors := s.errors ++ [e] }

/-- The write through the pointer `findOption` returned: the adapter at index `i`
of `_options` becomes `d`. -/
def Scan.setOption (s : Scan V) (i : Nat) (d : KeyAdapter V) : Scan V :=
  { s with parser := { s.parser with options := s.parser.options.set i d } }

/-- The exact-key branch of the scan loop (parser.hpp, lines 181-201), entered with
the adapter `findOption(*arg)` returned. -/
def exactKeyBranch (s : Scan V) (arg : Str) (rest : List Str) (i : Nat)
    (option : KeyAdapter V) : Except Fault (Scan V × Advance) :=
  if option.hasArgument then
    match rest with
    | [] => .ok (s.pushError (.RequiredOptionValueNotGiven arg), .one)
    | next :: _ =>
      match option.addValue next with
      | .error f => .error f
      | .ok (written, true) => .ok (s.setOption i written, .two)
      | .ok (written, false) =>
        .ok ((s.setOption i written).pushError (.InvalidValueGiven option.keyString next),
             .one)
  else
    match option.raise with
    | .error f => .error f
    | .ok raised => .ok (s.setOption i raised, .one)

/-- The key=value branch (lines 203-215), entered with the pair and the adapter
found for its key. The `bool` returned by `addValue` is dropped. -/
def keyValueBranch (s : Scan V) (pair : KeyValuePair) (i : Nat) (option : KeyAdapter V) :
    Except Fault (Scan V × Advance) :=
  if option.hasArgument then
    match option.addValue pair.value with
    | .error f => .error f
    | .ok (written, _) => .ok (s.setOption i written, .one)
  else
    .ok (s.pushError (.UnexpectedOptionValueGiven pair.key pair.value), .one)

/-- The loop over all keys of a pack but the last (lines 219-224), on `_options`. -/
def raiseKeys : List (KeyAdapter V) → List Str → Except Fault (List (KeyAdapter V))
  | options, [] => .ok options
  | options, key :: keys =>
    match findOption options key with
    | none => .error .assertion
    | some (i, option) =>
      if option.hasArgument then .error .assertion
      else
        match option.raise with
        | .error f => .error f
        | .ok raised => raiseKeys (options.set i raised) keys

/-- The pack branch (lines 217-256), entered with the pack `parsePack` returned. -/
def packBranch (s : Scan V) (rest : List Str) (pack : KeyPack) :
    Except Fault (Scan V × Advance) :=
  if pack.keys.isEmpty then .error .assertion
  else
    match raiseKeys s.parser.options pack.keys.dropLast with
    | .error f => .error f
    | .ok options =>
      let s1 : Scan V := { s with parser := { s.parser with options := options } }
      let back := pack.keys.getLastD []
      match findOption options back with
      | none => .error .nullDeref
      | some (i, lastOption) =>
        if lastOption.hasArgument then
          if !pack.leftover.isEmpty then
            match lastOption.addValue pack.leftover with
            | .error f => .error f
            | .ok (written, true) => .ok (s1.setOption i written, .one)
            | .ok (written, false) =>
              .ok ((s1.setOption i written).pushError
                    (.InvalidValueGiven back pack.leftover), .one)
          else
            match rest with
            | [] => .ok (s1.pushError (.RequiredOptionValueNotGiven back), .one)
            | next :: _ =>
              match lastOption.addValue next with
              | .error f => .error f
              | .ok (written, true) => .ok (s1.setOption i written, .two)
              | .ok (written, false) =>
                .ok ((s1.setOption i written).pushError (.InvalidValueGiven back next),
                     .one)
        else
          match lastOption.raise with
          | .error f => .error f
          | .ok raised => .ok (s1.setOption i raised, .one)

/-- The positional branch (lines 258-269), entered with `_arguments.at(_position)`. -/
def positionalBranch (s : Scan V) (arg : Str) (argument : ArgumentAdapter V) :
    Scan V × Advance :=
  let written := argument.addValue arg
  let s1 : Scan V :=
    { s with parser :=
        { s.parser with arguments := s.parser.arguments.set s.parser.position written.1 } }
  let s2 := if written.2 then s1 else s1.pushError (.InvalidValueGiven argument.metavar arg)
  (if argument.multi then s2
   else { s2 with parser := { s2.parser with position := s2.parser.position + 1 } },
   .one)

/-- The leftover branch (lines 271-276). -/
def leftoverBranch (s : Scan V) (arg : Str) : Scan V × Advance :=
  if s.parser.config.allowUnspecifiedArguments then
    ({ s with parser := { s.parser with leftovers := s.parser.leftovers ++ [arg] } }, .one)
  else (s.pushError (.UnexpectedArgument arg), .one)

/-- The rules after the key=value rule: pack, positional, leftover. -/
def packOrLater (s : Scan V) (arg : Str) (rest : List Str) : Except Fault (Scan V × Advance) :=
  match parsePack s.parser.config s.parser.options arg with
  | some pack => packBranch s rest pack
  | none =>
    match s.parser.arguments[s.parser.position]? with
    | some argument => .ok (positionalBranch s arg argument)
    | none => .ok (leftoverBranch s arg)

/-- The rules after the exact-key rule: key=value, then `packOrLater`. -/
def keyValueOrLater (s : Scan V) (arg : Str) (rest : List Str) :
    Except Fault (Scan V × Advance) :=
  match parseKeyValue s.parser.config arg with
  | some pair =>
    match findOption s.parser.options pair.key with
    | some (i, option) => keyValueBranch s pair i option
    | none => packOrLater s arg rest
  | none => packOrLater s arg rest

/-- One pass of the scan loop of `Parser::parse` (lines 173-277) at the token `arg`,
`rest` being the tokens after it. -/
def step (s : Scan V) (arg : Str) (rest : List Str) : Except Fault (Scan V × Advance) :=
  if arg ∈ s.parser.helpKeys then .ok ({ s with helpRequested := true }, .one)
  else
    match findOption s.parser.options arg with
    | some (i, option) => exactKeyBranch s arg rest i option
    | none => keyValueOrLater s arg rest

/-- The scan loop of `Parser::parse` over the tokens from the iterator to the end. -/
def scan : List Str → Scan V → Except Fault (Scan V)
  | [], s => .ok s
  | arg :: rest, s =>
    match step s arg rest with
    | .error f => .error f
    | .ok (s1, .one) => scan rest s1
    | .ok (s1, .two) =>
      match rest with
      | [] => .ok s1
      | _ :: rest1 => scan rest1 s1

/-- The loop over `_options` after the scan (lines 280-285). -/
def requiredOptions : List (KeyAdapter V) → List Error → Except Fault (List Error)
  | [], errors => .ok errors
  | option :: options, errors =>
    if option.isRequired then
      match option.isSet with
      | .error f => .error f
      | .ok true => requiredOptions options errors
      | .ok false =>
        requiredOptions options (errors ++ [.RequiredOptionNotSet option.keyString])
    else requiredOptions options errors

/-- The loop over `_arguments` after the scan (lines 286-291). -/
def requiredArguments : List (ArgumentAdapter V) → List Error → Except Fault (List Error)
  | [], errors => .ok errors
  | argument :: arguments, errors =>
    if argument.isRequired then
      match argument.isSet with
      | .error f => .error f
      | .ok true => requiredArguments arguments errors
      | .ok false =>
        requiredArguments arguments (errors ++ [.RequiredOptionNotSet argument.metavar])
    else requiredArguments arguments errors

/-- The required checks of `Parser::parse` (lines 279-292): the diagnostics after
them. -/
def requiredChecks (s : Scan V) : Except Fault (List Error) :=
  if !s.helpRequested then
    match requiredOptions s.parser.options s.errors with
    | .error f => .error f
    | .ok errors => requiredArguments s.parser.arguments errors
  else .ok s.errors

/-- How `Parser::parse` ends: by returning, by `std::exit(EXIT_SUCCESS)` after the
help text, or by `std::exit(EXIT_FAILURE)` after the diagnostics. -/
inductive Outcome where
  | success
  | helpShown
  | failure
deriving DecidableEq, Repr

/-- The outcome decision of `Parser::parse` (lines 294-305). -/
def decideOutcome (errors : List Error) (helpRequested : Bool) : Outcome :=
  if !errors.isEmpty then .failure
  else if helpRequested then .helpShown
  else .success

/-- What a run of `Parser::parse` leaves: the parser, the diagnostics, the help flag
and the outcome. -/
structure Result (V : Type) where
  parser : Parser V
  errors : List Error
  helpRequested : Bool
  outcome : Outcome

/-- Embeds `Parser::parse(const std::vector<std::string>&)`. -/
def parse (p : Parser V) (args : List Str) : Except Fault (Result V) :=
  match scan args { parser := p, errors := [], helpRequested := false } with
  | .error f => .error f
  | .ok s =>
    match requiredChecks s with
    | .error f => .error f
    | .ok errors =>
      .ok { parser := s.parser, errors := errors, helpRequested := s.helpRequested,
            outcome := decideOutcome errors s.helpRequested }

/-- The answer of `isSet` read as "not set": `false` when `isSet` throws. -/
def notSet (r : Except Fault Bool) : Bool :=
  match r with
  | .ok set => !set
  | .error _ => false

/-- The finalization diagnostics for the keyed declarations in the words of the
specification: one `RequiredOptionNotSet`, carrying the joined key string, for every
keyed declaration that is required and not set, in registration order. -/
def missingOptions (options : List (KeyAdapter V)) : List Error :=
  (options.filter fun d => d.isRequired && notSet d.isSet).map
    fun d => .RequiredOptionNotSet d.keyString

/-- The finalization diagnostics for the positionals in the words of the
specification: one `RequiredOptionNotSet`, carrying the metavar, for every positional
that is required and not set, in registration order. -/
def missingArguments (arguments : List (ArgumentAdapter V)) : List Error :=
  (arguments.filter fun a => a.isRequired && notSet a.isSet).map
    fun a => .RequiredOptionNotSet a.metavar

/-- The adapter `raise` leaves, for the adapters that accept it; the others as they
are. -/
def KeyAdapter.raised (d : KeyAdapter V) : KeyAdapter V :=
  match d.raise with
  | .ok r => r
  | .error _ => d

/-- The indices of the declarations `findOption` returns for the keys of a list. -/
def foundIndices (options : List (KeyAdapter V)) (keys : List Str) : List Nat :=
  keys.filterMap fun key => (findOption options key).map Prod.fst

/-- The six rules of the scan loop, in the order the loop tries them. -/
inductive Rule where
  | help
  | exactKey
  | keyValue
  | pack
  | positional
  | leftover
deriving DecidableEq, Repr

/-- The condition under which the key=value rule claims a token (lines 203-204):
`parseKeyValue` returns a pair and `findOption` finds its key. -/
def claimsKeyValue (config : Config) (options : List (KeyAdapter V)) (arg : Str) : Bool :=
  match parseKeyValue config arg with
  | some pair => (findOption options pair.key).isSome
  | none => false

/-- The rule whose condition the scan loop finds true first at the token `arg`: the
conditions of the `if` statements of `Parser::parse` (lines 174, 181, 203-204, 217,
258), in order. -/
def classify (s : Scan V) (arg : Str) : Rule :=
  if arg ∈ s.parser.helpKeys then .help
  else if (findOption s.parser.options arg).isSome then .exactKey
  else if claimsKeyValue s.parser.config s.parser.options arg then .keyValue
  else if (parsePack s.parser.config s.parser.options arg).isSome then .pack
  else if s.parser.position < s.parser.arguments.length then .positional
  else .leftover

/-- The passes of the scan loop in order: for each token the loop stands at, the rule
that claims it, the token, and `_position` before the pass. The tokens are visited as
`scan` visits them; a pass that ends in a fault is the last one listed. -/
def trace : List Str → Scan V → List (Rule × Str × Nat)
  | [], _ => []
  | arg :: rest, s =>
    (classify s arg, arg, s.parser.position) ::
      match step s arg rest with
      | .error _ => []
      | .ok (s1, .one) => trace rest s1
      | .ok (s1, .two) =>
        match rest with
        | [] => []
        | _ :: rest1 => trace rest1 s1

/-- Every character of `cs` makes, after the prefix, a declared key that takes no
argument. -/
def AllFlags (options : List (KeyAdapter V)) (pfx : Str) (cs : List Char) : Prop :=
  ∀ c ∈ cs, ∃ i d, findOption options (pfx ++ [c]) = some (i, d) ∧ d.hasArgument = false

/-- Every key of the list is a declared key that takes no argument. -/
def FlagKeys (options : List (KeyAdapter V)) (keys : List Str) : Prop :=
  ∀ key ∈ keys, ∃ i d, findOption options key = some (i, d) ∧ d.hasArgument = false

/-- The positionals the passes of a trace offered a token to, by index, in order. -/
def offers (passes : List (Rule × Str × Nat)) : List Nat :=
  passes.filterMap fun e => if e.1 = Rule.positional then some e.2.2 else none

/-- The tokens the passes of a trace handed to the leftover rule, in order. -/
def leftoverTokens (passes : List (Rule × Str × Nat)) : List Str :=
  passes.filterMap fun e => if e.1 = Rule.leftover then some e.2.1 else none

/-- What a pass of one of the three keyed rules leaves alone: everything of the
parser but the keyed declarations, and the help flag; it appends at most one
diagnostic, which is not `UnexpectedArgument`. -/
def KeyedFrame (s s1 : Scan V) : Prop :=
  s1.parser.config = s.parser.config ∧ s1.parser.helpKeys = s.parser.helpKeys ∧
  s1.parser.arguments = s.parser.arguments ∧ s1.parser.position = s.parser.position ∧
  s1.parser.leftovers = s.parser.leftovers ∧ s1.helpRequested = s.helpRequested ∧
  (s1.errors = s.errors ∨
    ∃ e, s1.errors = s.errors ++ [e] ∧ ∀ a, e ≠ .UnexpectedArgument a)

/-- Every non-multi positional before the cursor is set or was refused a value: the
state property a scan keeps. -/
def PassedAccounted (s : Scan V) : Prop :=
  ∀ j a, j < s.parser.position → s.parser.arguments[j]? = some a → a.multi = false →
    a.isSet = .ok true ∨ ∃ v, Error.InvalidValueGiven a.metavar v ∈ s.errors

/-- The adapter `addValue` leaves, whatever `bool` it returns; the adapter itself when
`addValue` throws. -/
def KeyAdapter.written (d : KeyAdapter V) (v : Str) : KeyAdapter V :=
  match d.addValue v with
  | .ok (w, _) => w
  | .error _ => d

/-- The adapter left by `addValue` called on each string of a list in turn. -/
def KeyAdapter.writtenAll (d : KeyAdapter V) (vs : List Str) : KeyAdapter V :=
  vs.foldl KeyAdapter.written d

/-- The `addValue` call on the token after the current one (`std::next(arg)`), made on
the declaration at index `i`; `none` at the last token. -/
def offeredNext (i : Nat) (rest : List Str) : Option (Nat × Str) :=
  match rest with
  | [] => none
  | next :: _ => some (i, next)

/-- The `addValue` call at the last key of a pack (lines 228-247): the index of the
declaration found for the key and the string handed over, the inline tail if there is
one and the next token otherwise; `none` when no `addValue` call is made. -/
def offeredLast (options : List (KeyAdapter V)) (rest : List Str) (pack : KeyPack) :
    Option (Nat × Str) :=
  match findOption options (pack.keys.getLastD []) with
  | some (i, lastOption) =>
    if lastOption.hasArgument then
      if !pack.leftover.isEmpty then some (i, pack.leftover)
      else offeredNext i rest
    else none
  | none => none

/-- The `addValue` call of a pass that reaches the pack rule. -/
def offeredPack (s : Scan V) (arg : Str) (rest : List Str) : Option (Nat × Str) :=
  match parsePack s.parser.config s.parser.options arg with
  | some pack => offeredLast s.parser.options rest pack
  | none => none

/-- The `addValue` call a pass of the scan loop makes on a keyed declaration, as the
index of the declaration in `_options` and the string handed over: the next token in
the exact-key branch (line 185), the value of the pair in the key=value branch
(line 207), the inline tail or the next token in the pack branch (lines 232, 242);
`none` for a pass that makes no such call. -/
def offered (s : Scan V) (arg : Str) (rest : List Str) : Option (Nat × Str) :=
  if arg ∈ s.parser.helpKeys then none
  else
    match findOption s.parser.options arg with
    | some (i, option) =>
      if option.hasArgument then offeredNext i rest else none
    | none =>
      match parseKeyValue s.parser.config arg with
      | some pair =>
        match findOption s.parser.options pair.key with
        | some (i, option) => if option.hasArgument then some (i, pair.value) else none
        | none => offeredPack s arg rest
      | none => offeredPack s arg rest

/-- The `addValue` calls the passes of a scan make on keyed declarations, in order.
The tokens are visited as `scan` visits them. -/
def valueOffers : List Str → Scan V → List (Nat × Str)
  | [], _ => []
  | arg :: rest, s =>
    (offered s arg rest).toList ++
      match step s arg rest with
      | .error _ => []
      | .ok (s1, .one) => valueOffers rest s1
      | .ok (s1, .two) =>
        match rest with
        | [] => []
        | _ :: rest1 => valueOffers rest1 s1

/-- The strings handed to the declaration at index `j`, in order. -/
def offeredTo (j : Nat) (calls : List (Nat × Str)) : List Str :=
  calls.filterMap fun e => if e.1 = j then some e.2 else none

/-- Modelled from the spec: the attribute `isMulti` of a keyed declaration ("accepts
repeated occurrences, accumulating into a sequence instead of overwriting a scalar"),
true of the multi-flag and the multi-option. -/
def KeyAdapter.isMulti : KeyAdapter V → Bool
  | .FlagAdapter _ _ _ => false
  | .MultiFlagAdapter _ _ _ => true
  | .OptionAdapter _ _ _ _ _ _ _ => false
  | .MultiOptionAdapter _ _ _ _ _ => true

/-- Two adapters wrap the same non-multi declaration, whatever it holds: the same
kind, keys, help text, metavar, required mark and reader. -/
def sameDecl : KeyAdapter V → KeyAdapter V → Prop
  | .FlagAdapter ks h _, .FlagAdapter ks1 h1 _ => ks = ks1 ∧ h = h1
  | .OptionAdapter ks h m r _ _ rd, .OptionAdapter ks1 h1 m1 r1 _ _ rd1 =>
    ks = ks1 ∧ h = h1 ∧ m = m1 ∧ r = r1 ∧ rd = rd1
  | _, _ => False

/-- Two lists of adapters wrap the same non-multi declarations, index by index. -/
def Alike (o t : List (KeyAdapter V)) : Prop :=
  t.length = o.length ∧
    ∀ (j : Nat) (a b : KeyAdapter V), o[j]? = some a → t[j]? = some b → sameDecl a b

/-- Two scan states that differ in what their declarations hold, in the cursor and in
the leftovers only, over non-multi keyed declarations and no positional. -/
def Sim (s t : Scan V) : Prop :=
  t.parser.config = s.parser.config ∧ t.parser.helpKeys = s.parser.helpKeys ∧
  s.parser.arguments = [] ∧ t.parser.arguments = [] ∧
  t.errors = s.errors ∧ t.helpRequested = s.helpRequested ∧
  Alike s.parser.options t.parser.options

/-- From the lists `o` and `t` to the lists `o1` and `t1`, every index was either
left alone in both or holds the same adapter in both afterwards. -/
def Touched (o o1 t t1 : List (KeyAdapter V)) : Prop :=
  ∀ j : Nat, t1[j]? = o1[j]? ∨ (o1[j]? = o[j]? ∧ t1[j]? = t[j]?)

/-- Two passes, or two scans, that went the same way from similar states. -/
def Agree (s s1 t t1 : Scan V) : Prop :=
  Sim s1 t1 ∧ Alike s.parser.options s1.parser.options ∧
    Alike t.parser.options t1.parser.options ∧
    Touched s.parser.options s1.parser.options t.parser.options t1.parser.options

end Engine

/-! ## Worked examples

Concrete readers and parsers used to evaluate the engine. -/

/-- A reader of unsigned decimal numbers, standing for `read<unsigned>` on tokens
made of digits only: it fails on the empty string and on any other character. -/
def readDigits (s : Str) : Option Nat :=
  if s.isEmpty then none
  else s.foldl
    (fun acc c => acc.bind fun n => if c.isDigit then some (10 * n + (c.toNat - 48)) else none)
    (some 0)

/-- One option `-n` holding a number, default configuration. -/
def exOption : Parser Nat :=
  { options := [.OptionAdapter ["-n".toList] [] "VALUE".toList false 0 false readDigits] }

/-- One required option `--value` holding a number, help key `-h`. -/
def exRequired : Parser Nat :=
  { options := [.OptionAdapter ["--value".toList] [] "VALUE".toList true 0 false readDigits],
    helpKeys := ["-h".toList] }

/-- The flags `-a` and `-b` and a third flag whose key is `-ab`. -/
def exFlags : Parser Nat :=
  { options := [.FlagAdapter ["-a".toList] [] false, .FlagAdapter ["-b".toList] [] false,
                .FlagAdapter ["-ab".toList] [] false] }

/-- One flag `-a`. -/
def exFlag : Parser Nat :=
  { options := [.FlagAdapter ["-a".toList] [] false] }

/-- The option `-n` of `exOption` with the two-character separator `==`. -/
def exSeparator : Parser Nat :=
  { options := [.OptionAdapter ["-n".toList] [] "VALUE".toList false 0 false readDigits],
    config := { keyValueSeparator := "==".toList } }

/-- What `parse exRequired ["-h", "x"]` leaves: help requested, one scan-time
diagnostic. -/
def exHelpAndError : Result Nat :=
  { parser := exRequired, errors := [.UnexpectedArgument "x".toList],
    helpRequested := true, outcome := Outcome.failure }

/-- The flags `-a` and `-b` and the option `-n` holding a number. -/
def exPack : Parser Nat :=
  { options := [.FlagAdapter ["-a".toList] [] false, .FlagAdapter ["-b".toList] [] false,
                .OptionAdapter ["-n".toList] [] "VALUE".toList false 0 false readDigits] }

/-- One positional `N` holding a number, then a multi positional `REST`. -/
def exPositional : Parser Nat :=
  { arguments := [.ValueAdapter [] "N".toList false 0 false readDigits,
                  .MultiValueAdapter [] "REST".toList false [] readDigits] }

/-- No declaration; unspecified arguments are collected. -/
def exLeftovers : Parser Nat :=
  { config := { allowUnspecifiedArguments := true } }

/-- What `scan ["x"]` leaves of `exPositional`: the cursor past `N`, which is unset,
and one diagnostic. -/
def exRefused : Scan Nat :=
  { parser := { exPositional with position := 1 },
    errors := [.InvalidValueGiven "N".toList "x".toList] }

/-- One multi-flag `-v`. -/
def exMultiFlag : Parser Nat :=
  { options := [.MultiFlagAdapter ["-v".toList] [] 0] }

/-- The flags `-a`, the multi-option `-m` and the option `-n`. -/
def exMultiOption : Parser Nat :=
  { options := [.FlagAdapter ["-a".toList] [] false,
                .MultiOptionAdapter ["-m".toList] [] "VALUE".toList [] readDigits,
                .OptionAdapter ["-n".toList] [] "VALUE".toList false 0 false readDigits] }

/-- The flag `-a` and the required option `-n` with the default value 3. -/
def exDefault : Parser Nat :=
  { options := [.FlagAdapter ["-a".toList] [] false,
                .OptionAdapter ["-n".toList] [] "VALUE".toList true 3 false readDigits] }

/-- What `scan ["-a"]` leaves of `exDefault`. -/
def exDefaultScanned : Scan Nat :=
  { parser :=
      { options := [.FlagAdapter ["-a".toList] [] true,
                    .OptionAdapter ["-n".toList] [] "VALUE".toList true 3 false readDigits] } }

/-- One positional `N` holding a number. -/
def exSingle : Parser Nat :=
  { arguments := [.ValueAdapter [] "N".toList false 0 false readDigits] }

/-- What `parse exPack ["-ab", "-n", "7"]` leaves. -/
def exPackParsed : Result Nat :=
  { parser :=
      { options := [.FlagAdapter ["-a".toList] [] true, .FlagAdapter ["-b".toList] [] true,
                    .OptionAdapter ["-n".toList] [] "VALUE".toList false 7 true readDigits] },
    errors := [], helpRequested := false, outcome := Outcome.success }

/-- The flag `-a` with the two-character separator `==`. -/
def exFlagSeparator : Parser Nat :=
  { options := [.FlagAdapter ["-a".toList] [] false],
    config := { keyValueSeparator := "==".toList } }

end arg

/-! ## Lemmas on `findOption` and on the adapters -/

namespace arg

open err

section Lemmas

variable {V : Type}

/-- No key is found in an empty list of declarations. -/
theorem findOption_nil (key : Str) : findOption ([] : List (KeyAdapter V)) key = none := rfl

/-- Registering one more declaration: it is found first when it has the key, and
otherwise the search goes on in the earlier declarations. -/
theorem findOption_concat (options : List (KeyAdapter V)) (d : KeyAdapter V) (key : Str) :
    findOption (options ++ [d]) key =
      if d.hasKey key then some (options.length, d) else findOption options key := by
  simp [findOption, findOptionRev]

/-- The search `findOption` returns nothing exactly when no declaration has the key. -/
theorem findOption_eq_none_iff (options : List (KeyAdapter V)) (key : Str) :
    findOption options key = none ↔ ∀ d ∈ options, key ∉ d.keys := by
  induction options using List.reverseRecOn with
  | nil => simp [findOption_nil]
  | append_singleton options d ih =>
    rw [findOption_concat]
    by_cases h : d.hasKey key = true
    · rw [if_pos h]
      simp only [KeyAdapter.hasKey, decide_eq_true_eq] at h
      constructor
      · intro h0; cases h0
      · intro h0; exact absurd h (h0 d (by simp))
    · rw [if_neg h, ih]
      simp only [KeyAdapter.hasKey, decide_eq_true_eq] at h
      constructor
      · intro h0 x hx
        rcases List.mem_append.mp hx with hx | hx
        · exact h0 x hx
        · simp at hx; subst hx; exact h
      · intro h0 x hx; exact h0 x (List.mem_append.mpr (Or.inl hx))

/-- What `findOption` returns sits at the returned index, has the key, and no later
declaration has the key. -/
theorem findOption_some (options : List (KeyAdapter V)) (key : Str) (i : Nat)
    (d : KeyAdapter V) (h : findOption options key = some (i, d)) :
    options[i]? = some d ∧ key ∈ d.keys ∧
      ∀ j x, options[j]? = some x → key ∈ x.keys → j ≤ i := by
  induction options using List.reverseRecOn generalizing i d with
  | nil => simp [findOption_nil] at h
  | append_singleton options y ih =>
    rw [findOption_concat] at h
    by_cases hy : y.hasKey key = true
    · rw [if_pos hy] at h
      simp only [Option.some.injEq, Prod.mk.injEq] at h
      obtain ⟨rfl, rfl⟩ := h
      simp only [KeyAdapter.hasKey, decide_eq_true_eq] at hy
      refine ⟨by simp, hy, ?_⟩
      intro j x hj _
      have := (List.getElem?_eq_some.mp hj).1
      simp at this; omega
    · rw [if_neg hy] at h
      simp only [KeyAdapter.hasKey, decide_eq_true_eq] at hy
      obtain ⟨h1, h2, h3⟩ := ih i d h
      have hi : i < options.length := (List.getElem?_eq_some.mp h1).1
      refine ⟨by rw [List.getElem?_append_left hi]; exact h1, h2, ?_⟩
      intro j x hj hx
      by_cases hjl : j < options.length
      · rw [List.getElem?_append_left hjl] at hj
        exact h3 j x hj hx
      · have hlen := (List.getElem?_eq_some.mp hj).1
        simp at hlen
        have hje : j = options.length := by omega
        subst hje
        simp at hj
        subst hj
        exact absurd hx hy

/-- Writing back the element read at an index leaves a list unchanged. -/
theorem set_of_getElem? {α : Type} (l : List α) (i : Nat) (a : α) (h : l[i]? = some a) :
    l.set i a = l := by
  induction l generalizing i with
  | nil => simp
  | cons x l ih =>
    cases i with
    | zero => simp at h; simp [h]
    | succ i => simp at h; simp [ih i h]

/-- A failed `addValue` leaves the adapter as it was. -/
theorem addValue_false_unchanged (d w : KeyAdapter V) (v : Str)
    (h : d.addValue v = .ok (w, false)) : w = d := by
  cases d with
  | FlagAdapter ks hl val => simp [KeyAdapter.addValue] at h
  | MultiFlagAdapter ks hl c => simp [KeyAdapter.addValue] at h
  | OptionAdapter ks hl m r val set rd =>
    simp only [KeyAdapter.addValue] at h
    split at h <;> simp at h
    exact h.symm
  | MultiOptionAdapter ks hl m vs rd =>
    simp only [KeyAdapter.addValue] at h
    split at h <;> simp at h
    exact h.symm

/-- Writing back the adapter `findOption` returned leaves the scan state unchanged. -/
theorem setOption_found (s : Scan V) (key : Str) (i : Nat) (d : KeyAdapter V)
    (h : findOption s.parser.options key = some (i, d)) : s.setOption i d = s := by
  have h1 := (findOption_some s.parser.options key i d h).1
  simp [Scan.setOption, set_of_getElem? _ _ _ h1]

/-- On an adapter without argument `raise` does not throw. -/
theorem raise_ok_of_no_argument (d : KeyAdapter V) (h : d.hasArgument = false) :
    ∃ raised, d.raise = .ok raised := by
  cases d <;> simp [KeyAdapter.hasArgument] at h <;> simp [KeyAdapter.raise]

/-- On an adapter with an argument `addValue` does not throw. -/
theorem addValue_ok_of_argument (d : KeyAdapter V) (v : Str) (h : d.hasArgument = true) :
    ∃ written b, d.addValue v = .ok (written, b) := by
  cases d with
  | FlagAdapter ks hl val => simp [KeyAdapter.hasArgument] at h
  | MultiFlagAdapter ks hl c => simp [KeyAdapter.hasArgument] at h
  | OptionAdapter ks hl m r val set rd =>
    simp only [KeyAdapter.addValue]
    split <;> simp
  | MultiOptionAdapter ks hl m vs rd =>
    simp only [KeyAdapter.addValue]
    split <;> simp

/-- What `findAt` returns: the offset of the first position at which the pattern is a
prefix of what is left. -/
theorem findAt_eq_some_iff (pat s : Str) (pos k : Nat) :
    findAt pat s pos = some k ↔
      ∃ i, k = pos + i ∧ i ≤ s.length ∧ pat.isPrefixOf (s.drop i) = true ∧
        ∀ j, j < i → pat.isPrefixOf (s.drop j) = false := by
  induction s generalizing pos with
  | nil =>
    simp only [findAt]
    constructor
    · intro h
      split at h
      · rename_i hp
        simp only [Option.some.injEq] at h
        exact ⟨0, by omega, by simp, by simpa using hp, by intro j hj; omega⟩
      · cases h
    · rintro ⟨i, hk, hi, hp, _⟩
      simp only [List.length_nil, Nat.le_zero_eq] at hi
      subst hi
      simp only [List.drop_nil] at hp
      simp [hp, hk]
  | cons c t ih =>
    simp only [findAt]
    by_cases hp : pat.isPrefixOf (c :: t) = true
    · rw [if_pos hp]
      constructor
      · intro h
        simp only [Option.some.injEq] at h
        exact ⟨0, by omega, by simp, by simpa using hp, by intro j hj; omega⟩
      · rintro ⟨i, hk, _, _, hmin⟩
        cases i with
        | zero => simp [hk]
        | succ i =>
          have := hmin 0 (by omega)
          simp only [List.drop_zero] at this
          rw [this] at hp
          cases hp
    · rw [if_neg hp, ih]
      constructor
      · rintro ⟨i, hk, hi, hpi, hmin⟩
        refine ⟨i + 1, by omega, by simp; omega, by simpa using hpi, ?_⟩
        intro j hj
        cases j with
        | zero => simpa only [List.drop_zero, Bool.not_eq_true] using hp
        | succ j => simpa only [List.drop_succ_cons] using hmin j (by omega)
      · rintro ⟨i, hk, hi, hpi, hmin⟩
        cases i with
        | zero => simp only [List.drop_zero] at hpi; exact absurd hpi hp
        | succ i =>
          refine ⟨i, by omega, by simpa using hi, by simpa using hpi, ?_⟩
          intro j hj
          simpa using hmin (j + 1) (by omega)

/-- The function `find` returns the first index at which the pattern occurs. -/
theorem find_eq_some_iff (s pat : Str) (k : Nat) :
    find s pat = some k ↔
      k ≤ s.length ∧ pat <+: s.drop k ∧ ∀ j, j < k → ¬ pat <+: s.drop j := by
  simp only [find, findAt_eq_some_iff, Nat.zero_add]
  constructor
  · rintro ⟨i, rfl, hi, hp, hmin⟩
    refine ⟨hi, List.isPrefixOf_iff_prefix.mp hp, ?_⟩
    intro j hj hpj
    have := hmin j hj
    rw [List.isPrefixOf_iff_prefix.mpr hpj] at this
    cases this
  · rintro ⟨hi, hp, hmin⟩
    refine ⟨k, rfl, hi, List.isPrefixOf_iff_prefix.mpr hp, ?_⟩
    intro j hj
    cases h : pat.isPrefixOf (List.drop j s) with
    | false => rfl
    | true => exact absurd (List.isPrefixOf_iff_prefix.mp h) (hmin j hj)

/-- With key=value syntax enabled and the separator found at index `sep`, the pair is
the text before `sep` and the text from `sep + 1`. -/
theorem parseKeyValue_eq (config : Config) (arg : Str) (sep : Nat)
    (hkv : config.allowKeyValueSyntax = true)
    (hsep : find arg config.keyValueSeparator = some sep) :
    parseKeyValue config arg = some { key := arg.take sep, value := arg.drop (sep + 1) } := by
  simp only [parseKeyValue, hkv, hsep]
  by_cases h : sep + 1 < arg.length
  · simp [h]
  · simp [h, List.drop_eq_nil_of_le (Nat.le_of_not_lt h)]

/-- The loop over the keyed declarations never throws and appends `missingOptions`. -/
theorem requiredOptions_eq (options : List (KeyAdapter V)) (errors : List Error) :
    requiredOptions options errors = .ok (errors ++ missingOptions options) := by
  induction options generalizing errors with
  | nil => simp [requiredOptions, missingOptions]
  | cons d options ih =>
    cases d with
    | FlagAdapter ks h v =>
      simpa [requiredOptions, missingOptions, KeyAdapter.isRequired] using ih errors
    | MultiFlagAdapter ks h c =>
      simpa [requiredOptions, missingOptions, KeyAdapter.isRequired] using ih errors
    | MultiOptionAdapter ks h m vs rd =>
      simpa [requiredOptions, missingOptions, KeyAdapter.isRequired] using ih errors
    | OptionAdapter ks h m r v set rd =>
      cases r <;> cases set <;>
        simp [requiredOptions, KeyAdapter.isRequired, KeyAdapter.isSet, ih, missingOptions,
          notSet]

/-- The loop over the positionals appends `missingArguments`, provided no multi
positional is marked required. -/
theorem requiredArguments_eq (arguments : List (ArgumentAdapter V)) (errors : List Error)
    (hmulti : ∀ a ∈ arguments, a.multi = true → a.isRequired = false) :
    requiredArguments arguments errors = .ok (errors ++ missingArguments arguments) := by
  induction arguments generalizing errors with
  | nil => simp [requiredArguments, missingArguments]
  | cons a arguments ih =>
    have ih1 := fun e => ih e (fun x hx => hmulti x (List.mem_cons_of_mem _ hx))
    have ha := hmulti a (List.mem_cons_self _ _)
    cases a with
    | ValueAdapter h m r v set rd =>
      cases r <;> cases set <;>
        simp [requiredArguments, ArgumentAdapter.isRequired, ArgumentAdapter.isSet, ih1,
          missingArguments, notSet, ArgumentAdapter.metavar]
    | MultiValueAdapter h m r vs rd =>
      simp [ArgumentAdapter.multi, ArgumentAdapter.isRequired] at ha
      subst ha
      simpa [requiredArguments, missingArguments, ArgumentAdapter.isRequired] using ih1 errors

/-- The outcome is failure exactly when there is a diagnostic. -/
theorem decideOutcome_failure_iff (errors : List Error) (help : Bool) :
    decideOutcome errors help = Outcome.failure ↔ errors ≠ [] := by
  cases errors <;> cases help <;> simp [decideOutcome]

/-- A run of `parse` that reaches its outcome decision: the scan and the required
checks both completed, and the outcome is decided from their result. -/
theorem parse_ok_inv (p : Parser V) (args : List Str) (r : Result V)
    (h : parse p args = .ok r) :
    ∃ s, scan args { parser := p } = .ok s ∧ requiredChecks s = .ok r.errors ∧
      r.parser = s.parser ∧ r.helpRequested = s.helpRequested ∧
      r.outcome = decideOutcome r.errors r.helpRequested := by
  unfold parse at h
  split at h
  · cases h
  · rename_i s hs
    split at h
    · cases h
    · rename_i errors he
      simp only [Except.ok.injEq] at h
      subst h
      exact ⟨s, hs, he, rfl, rfl, rfl⟩

/-- The exact-key branch leaves the help flag as it is. -/
theorem exactKeyBranch_helpRequested (s s1 : Scan V) (arg : Str) (rest : List Str) (i : Nat)
    (option : KeyAdapter V) (adv : Advance)
    (h : exactKeyBranch s arg rest i option = .ok (s1, adv)) :
    s1.helpRequested = s.helpRequested := by
  unfold exactKeyBranch at h
  repeat' split at h
  all_goals (cases h <;> simp [Scan.setOption, Scan.pushError])

/-- The key=value branch leaves the help flag as it is. -/
theorem keyValueBranch_helpRequested (s s1 : Scan V) (pair : KeyValuePair) (i : Nat)
    (option : KeyAdapter V) (adv : Advance)
    (h : keyValueBranch s pair i option = .ok (s1, adv)) :
    s1.helpRequested = s.helpRequested := by
  unfold keyValueBranch at h
  repeat' split at h
  all_goals (cases h <;> simp [Scan.setOption, Scan.pushError])

/-- The pack branch leaves the help flag as it is. -/
theorem packBranch_helpRequested (s s1 : Scan V) (rest : List Str) (pack : KeyPack)
    (adv : Advance) (h : packBranch s rest pack = .ok (s1, adv)) :
    s1.helpRequested = s.helpRequested := by
  unfold packBranch at h
  by_cases he : pack.keys.isEmpty = true
  · simp [he] at h
  · rw [if_neg he] at h
    cases hr : raiseKeys s.parser.options pack.keys.dropLast with
    | error f => simp [hr] at h
    | ok options =>
      simp only [hr] at h
      cases hf : findOption options (pack.keys.getLastD []) with
      | none => simp only [hf, reduceCtorEq] at h
      | some r =>
        obtain ⟨i, lastOption⟩ := r
        simp only [hf] at h
        repeat' split at h
        all_goals (cases h <;> simp [Scan.setOption, Scan.pushError])

/-- The pack, positional and leftover rules leave the help flag as it is. -/
theorem packOrLater_helpRequested (s s1 : Scan V) (arg : Str) (rest : List Str)
    (adv : Advance) (h : packOrLater s arg rest = .ok (s1, adv)) :
    s1.helpRequested = s.helpRequested := by
  unfold packOrLater at h
  split at h
  · exact packBranch_helpRequested _ _ _ _ _ h
  · split at h
    · simp only [positionalBranch, Except.ok.injEq, Prod.mk.injEq] at h
      rw [← h.1]
      split <;> split <;> simp [Scan.pushError]
    · simp only [leftoverBranch, Except.ok.injEq] at h
      split at h <;> simp only [Prod.mk.injEq] at h <;> rw [← h.1]
      simp [Scan.pushError]

/-- One pass of the scan loop sets the help flag exactly at a help key and never
clears it. -/
theorem step_helpRequested (s s1 : Scan V) (arg : Str) (rest : List Str) (adv : Advance)
    (h : step s arg rest = .ok (s1, adv)) :
    s1.helpRequested = (s.helpRequested || decide (arg ∈ s.parser.helpKeys)) := by
  unfold step at h
  split at h
  · rename_i hmem
    simp only [Except.ok.injEq, Prod.mk.injEq] at h
    rw [← h.1]; simp [hmem]
  · rename_i hmem
    simp only [hmem, decide_False, Bool.or_false]
    split at h
    · exact exactKeyBranch_helpRequested _ _ _ _ _ _ _ h
    · unfold keyValueOrLater at h
      split at h
      · split at h
        · exact keyValueBranch_helpRequested _ _ _ _ _ _ h
        · exact packOrLater_helpRequested _ _ _ _ _ h
      · exact packOrLater_helpRequested _ _ _ _ _ h

/-- Once set, the help flag stays set until the end of the scan. -/
theorem scan_helpRequested_mono (args : List Str) (s s1 : Scan V)
    (h : scan args s = .ok s1) (hs : s.helpRequested = true) : s1.helpRequested = true := by
  induction args, s using scan.induct with
  | case1 s => simp only [scan, Except.ok.injEq] at h; rw [← h]; exact hs
  | case2 arg rest s f hf => simp [scan, hf] at h
  | case3 arg rest s s2 hstep ih =>
    simp only [scan, hstep] at h
    exact ih h (by rw [step_helpRequested _ _ _ _ _ hstep, hs]; rfl)
  | case4 arg s s2 hstep =>
    simp only [scan, hstep, Except.ok.injEq] at h
    rw [← h, step_helpRequested _ _ _ _ _ hstep, hs]; rfl
  | case5 arg s s2 k ks hstep ih =>
    simp only [scan, hstep] at h
    exact ih h (by rw [step_helpRequested _ _ _ _ _ hstep, hs]; rfl)

/-- A help key met by the scan loop sets the flag for good. -/
theorem scan_help_key_sets_flag (h : Str) (post : List Str) (s s1 : Scan V)
    (hmem : h ∈ s.parser.helpKeys) (hscan : scan (h :: post) s = .ok s1) :
    s1.helpRequested = true := by
  have hstep : step s h post = .ok ({ s with helpRequested := true }, Advance.one) := by
    simp [step, hmem]
  simp only [scan, hstep] at hscan
  exact scan_helpRequested_mono _ _ _ hscan rfl

/-- On an adapter without argument `raise` returns `raised`. -/
theorem raise_eq_raised (d : KeyAdapter V) (h : d.hasArgument = false) :
    d.raise = .ok d.raised := by
  cases d <;> simp [KeyAdapter.hasArgument] at h <;> rfl

/-- The adapter `raised` keeps the keys. -/
theorem raised_keys (d : KeyAdapter V) : d.raised.keys = d.keys := by
  cases d <;> rfl

/-- The adapter `raised` takes an argument exactly when the adapter does. -/
theorem raised_hasArgument (d : KeyAdapter V) : d.raised.hasArgument = d.hasArgument := by
  cases d <;> rfl

/-- Raising twice is raising once. -/
theorem raised_raised (d : KeyAdapter V) : d.raised.raised = d.raised := by
  cases d <;> rfl

/-- With an argument, `raised` changes nothing. -/
theorem raised_of_hasArgument (d : KeyAdapter V) (h : d.hasArgument = true) :
    d.raised = d := by
  cases d <;> simp [KeyAdapter.hasArgument] at h <;> rfl

/-- The call `addValue` keeps the keys and the kind of the adapter. -/
theorem addValue_keys (d w : KeyAdapter V) (v : Str) (b : Bool)
    (h : d.addValue v = .ok (w, b)) :
    w.keys = d.keys ∧ w.hasArgument = true ∧ d.hasArgument = true := by
  cases d with
  | FlagAdapter ks hl val => simp [KeyAdapter.addValue] at h
  | MultiFlagAdapter ks hl c => simp [KeyAdapter.addValue] at h
  | OptionAdapter ks hl m r val set rd =>
    simp only [KeyAdapter.addValue] at h
    split at h <;> simp at h <;> rw [← h.1] <;> simp [KeyAdapter.keys, KeyAdapter.hasArgument]
  | MultiOptionAdapter ks hl m vs rd =>
    simp only [KeyAdapter.addValue] at h
    split at h <;> simp at h <;> rw [← h.1] <;> simp [KeyAdapter.keys, KeyAdapter.hasArgument]

/-- The declaration at a given index with the key and no later one with it is the one
`findOption` returns. -/
theorem findOption_eq_some_iff (options : List (KeyAdapter V)) (key : Str) (i : Nat)
    (d : KeyAdapter V) :
    findOption options key = some (i, d) ↔
      options[i]? = some d ∧ key ∈ d.keys ∧
        ∀ j x, options[j]? = some x → key ∈ x.keys → j ≤ i := by
  constructor
  · exact findOption_some options key i d
  · rintro ⟨h1, h2, h3⟩
    cases hf : findOption options key with
    | none =>
      have hmem : d ∈ options := by
        obtain ⟨hlt, hget⟩ := List.getElem?_eq_some.mp h1
        rw [← hget]; exact List.getElem_mem hlt
      exact absurd h2 ((findOption_eq_none_iff options key).mp hf d hmem)
    | some r =>
      obtain ⟨i', d'⟩ := r
      obtain ⟨g1, g2, g3⟩ := findOption_some options key i' d' hf
      have hle : i ≤ i' := g3 i d h1 h2
      have hge : i' ≤ i := h3 i' d' g1 g2
      have hi : i' = i := by omega
      subst hi
      rw [g1] at h1
      simp only [Option.some.injEq] at h1
      subst h1
      rfl

/-- Two lists of declarations with the same key lists answer `findOption` at the same
index. -/
theorem findOption_congr (o o' : List (KeyAdapter V)) (key : Str) (i : Nat)
    (d : KeyAdapter V) (hk : o'.map KeyAdapter.keys = o.map KeyAdapter.keys)
    (h : findOption o key = some (i, d)) :
    ∃ d', findOption o' key = some (i, d') ∧ o'[i]? = some d' := by
  have hget : ∀ j : Nat, (o'[j]?).map KeyAdapter.keys = (o[j]?).map KeyAdapter.keys := by
    intro j
    rw [← List.getElem?_map, ← List.getElem?_map, hk]
  obtain ⟨h1, h2, h3⟩ := findOption_some o key i d h
  have hi := hget i
  rw [h1] at hi
  cases hd : o'[i]? with
  | none => rw [hd] at hi; simp at hi
  | some d' =>
    rw [hd] at hi
    simp only [Option.map_some', Option.some.injEq] at hi
    refine ⟨d', (findOption_eq_some_iff o' key i d').mpr ⟨hd, by rw [hi]; exact h2, ?_⟩, rfl⟩
    intro j x hj hx
    have hjk := hget j
    rw [hj] at hjk
    cases hx0 : o[j]? with
    | none => rw [hx0] at hjk; simp at hjk
    | some x0 =>
      rw [hx0] at hjk
      simp only [Option.map_some', Option.some.injEq] at hjk
      exact h3 j x0 hx0 (by rw [← hjk]; exact hx)

/-- Two lists of declarations with the same key lists miss the same keys. -/
theorem findOption_congr_none (o o' : List (KeyAdapter V)) (key : Str)
    (hk : o'.map KeyAdapter.keys = o.map KeyAdapter.keys)
    (h : findOption o key = none) : findOption o' key = none := by
  cases hf : findOption o' key with
  | none => rfl
  | some r =>
    obtain ⟨i, d⟩ := r
    obtain ⟨d', h1, _⟩ := findOption_congr o' o key i d hk.symm hf
    rw [h] at h1
    cases h1

/-- The indices found do not depend on anything but the key lists. -/
theorem foundIndices_congr (o o' : List (KeyAdapter V)) (keys : List Str)
    (hk : o'.map KeyAdapter.keys = o.map KeyAdapter.keys) :
    foundIndices o' keys = foundIndices o keys := by
  unfold foundIndices
  congr 1
  funext key
  cases hf : findOption o key with
  | none => rw [findOption_congr_none o o' key hk hf]
  | some r =>
    obtain ⟨i, d⟩ := r
    obtain ⟨d', h1, _⟩ := findOption_congr o o' key i d hk hf
    rw [h1]; rfl

/-- A string is found at index 0 in any string it starts. -/
theorem find_append_left (pat cs : Str) : find (pat ++ cs) pat = some 0 := by
  have hp : pat.isPrefixOf (pat ++ cs) = true :=
    List.isPrefixOf_iff_prefix.mpr (List.prefix_append pat cs)
  unfold find
  cases h : pat ++ cs with
  | nil => rw [h] at hp; simp [findAt, hp]
  | cons c t => rw [h] at hp; simp [findAt, hp]

/-- Characters that all resolve to keys without argument are gone through by the
loop of `parsePack`. -/
theorem parsePackLoop_flags (options : List (KeyAdapter V)) (pfx : Str) (pre cs : List Char)
    (keys : List Str) (hpre : AllFlags options pfx pre) :
    parsePackLoop options pfx (pre ++ cs) keys
      = parsePackLoop options pfx cs (keys ++ pre.map fun c => pfx ++ [c]) := by
  induction pre generalizing keys with
  | nil => simp
  | cons c pre ih =>
    obtain ⟨i, d, hf, hd⟩ := hpre c (List.mem_cons_self _ _)
    have hrest : AllFlags options pfx pre := fun x hx => hpre x (List.mem_cons_of_mem _ hx)
    simp only [List.cons_append, parsePackLoop, hf, hd, Bool.false_and, Bool.false_eq_true,
      if_false]
    have h1 := ih (keys ++ [pfx ++ [c]]) hrest
    simpa using h1

/-- A token of flag characters only is a pack of all of them, with no inline
value. -/
theorem parsePackLoop_all_flags (options : List (KeyAdapter V)) (pfx : Str) (cs : List Char)
    (hcs : AllFlags options pfx cs) :
    parsePackLoop options pfx cs []
      = some { keys := cs.map fun c => pfx ++ [c], leftover := [] } := by
  have h := parsePackLoop_flags options pfx cs [] [] hcs
  simp only [List.append_nil, List.nil_append] at h
  rw [h]; rfl

/-- Flag characters, then a character of an argument-bearing key: the pack ends
there and what follows is the inline value. -/
theorem parsePackLoop_value (options : List (KeyAdapter V)) (pfx : Str) (pre : List Char)
    (c : Char) (tail : Str) (i : Nat) (d : KeyAdapter V)
    (hpre : AllFlags options pfx pre)
    (hf : findOption options (pfx ++ [c]) = some (i, d)) (hd : d.hasArgument = true) :
    parsePackLoop options pfx (pre ++ c :: tail) []
      = some { keys := (pre ++ [c]).map fun x => pfx ++ [x], leftover := tail } := by
  rw [parsePackLoop_flags options pfx pre (c :: tail) [] hpre]
  cases tail with
  | nil => simp [parsePackLoop, hf, hd]
  | cons t ts => simp [parsePackLoop, hf, hd]

/-- Flag characters, then a character that makes no declared key: not a pack. -/
theorem parsePackLoop_unknown (options : List (KeyAdapter V)) (pfx : Str) (pre : List Char)
    (c : Char) (tail : Str) (hpre : AllFlags options pfx pre)
    (hf : findOption options (pfx ++ [c]) = none) :
    parsePackLoop options pfx (pre ++ c :: tail) [] = none := by
  rw [parsePackLoop_flags options pfx pre (c :: tail) [] hpre]
  simp [parsePackLoop, hf]

/-- With packing enabled, `parsePack` on a token that starts with the prefix is the
loop on the characters after the prefix. -/
theorem parsePack_eq (config : Config) (options : List (KeyAdapter V)) (cs : Str)
    (hpack : config.allowArgumentPacking = true) :
    parsePack config options (config.packPrefix ++ cs)
      = parsePackLoop options config.packPrefix cs [] := by
  simp [parsePack, hpack, find_append_left]

/-- A list whose elements are those of another, some of them raised, has the same key
lists. -/
theorem map_keys_of_raised (o o' : List (KeyAdapter V)) (p : Nat → Bool)
    (h : ∀ j : Nat, o'[j]? = (o[j]?).map fun d => if p j then d.raised else d) :
    o'.map KeyAdapter.keys = o.map KeyAdapter.keys := by
  apply List.ext_getElem?
  intro j
  rw [List.getElem?_map, List.getElem?_map, h j]
  cases o[j]? with
  | none => rfl
  | some d => cases p j <;> simp [raised_keys]

/-- The loop over the keys of a pack but the last, when they are all keys without
argument: it does not fail, and it raises exactly the declarations found for the
keys. -/
theorem raiseKeys_eq (o : List (KeyAdapter V)) (keys : List Str) (hkeys : FlagKeys o keys) :
    ∃ o', raiseKeys o keys = .ok o' ∧
      ∀ j : Nat, o'[j]? =
        (o[j]?).map fun d => if j ∈ foundIndices o keys then d.raised else d := by
  induction keys generalizing o with
  | nil => exact ⟨o, rfl, fun j => by cases o[j]? <;> simp [foundIndices]⟩
  | cons key keys ih =>
    obtain ⟨i, d, hf, hd⟩ := hkeys key (List.mem_cons_self _ _)
    have hget := (findOption_some o key i d hf).1
    have hset : ∀ j : Nat, (o.set i d.raised)[j]? =
        (o[j]?).map fun x => if decide (j = i) then x.raised else x := by
      intro j
      rw [List.getElem?_set]
      by_cases hj : i = j
      · subst hj
        have hlt : i < o.length := (List.getElem?_eq_some.mp hget).1
        simp [hget, hlt]
      · have hj' : ¬ j = i := fun h => hj h.symm
        cases o[j]? <;> simp [hj, hj']
    have hk1 : (o.set i d.raised).map KeyAdapter.keys = o.map KeyAdapter.keys :=
      map_keys_of_raised o _ (fun j => decide (j = i)) hset
    have hkeys1 : FlagKeys (o.set i d.raised) keys := by
      intro k hk
      obtain ⟨i1, d1, hf1, hd1⟩ := hkeys k (List.mem_cons_of_mem _ hk)
      obtain ⟨d2, hf2, hg2⟩ := findOption_congr o _ k i1 d1 hk1 hf1
      refine ⟨i1, d2, hf2, ?_⟩
      have := hset i1
      rw [hg2, (findOption_some o k i1 d1 hf1).1] at this
      simp only [Option.map_some', Option.some.injEq] at this
      rw [this]
      split
      · rw [raised_hasArgument]; exact hd1
      · exact hd1
    obtain ⟨o', hr, hp⟩ := ih (o.set i d.raised) hkeys1
    refine ⟨o', ?_, ?_⟩
    · simp only [raiseKeys, hf, hd, Bool.false_eq_true, if_false, raise_eq_raised d hd]
      exact hr
    · intro j
      rw [hp j, foundIndices_congr o _ keys hk1, hset j]
      have hfi : foundIndices o (key :: keys) = i :: foundIndices o keys := by
        simp [foundIndices, hf]
      rw [hfi]
      cases o[j]? with
      | none => rfl
      | some x =>
        by_cases hj : j = i
        · subst hj
          by_cases hm : j ∈ foundIndices o keys <;> simp [hm, raised_raised]
        · by_cases hm : j ∈ foundIndices o keys <;> simp [hm, hj]

/-- A token the key=value rule does not claim goes on to the pack rule. -/
theorem keyValueOrLater_unclaimed (s : Scan V) (arg : Str) (rest : List Str)
    (hkv : claimsKeyValue s.parser.config s.parser.options arg = false) :
    keyValueOrLater s arg rest = packOrLater s arg rest := by
  unfold claimsKeyValue at hkv
  unfold keyValueOrLater
  cases hp : parseKeyValue s.parser.config arg with
  | none => rfl
  | some pair =>
    simp only [hp] at hkv
    cases hf : findOption s.parser.options pair.key with
    | none => simp only [hf]
    | some r => simp [hf] at hkv

/-- A token that is no help key, no declared key and not claimed by the key=value
rule is handled by the pack rule or a later one. -/
theorem step_unclaimed (s : Scan V) (arg : Str) (rest : List Str)
    (hhelp : arg ∉ s.parser.helpKeys)
    (hkey : findOption s.parser.options arg = none)
    (hkv : claimsKeyValue s.parser.config s.parser.options arg = false) :
    step s arg rest = packOrLater s arg rest := by
  simp only [step, hhelp, if_false, hkey]
  exact keyValueOrLater_unclaimed s arg rest hkv

/-- An index is among those found exactly when `findOption` returns it for one of
the keys. -/
theorem mem_foundIndices (o : List (KeyAdapter V)) (keys : List Str) (j : Nat) :
    j ∈ foundIndices o keys ↔ ∃ key ∈ keys, ∃ d, findOption o key = some (j, d) := by
  simp only [foundIndices, List.mem_filterMap, Option.map_eq_some', Prod.exists,
    exists_and_right, exists_eq_right]

/-- Flag characters give flag keys. -/
theorem flagKeys_of_allFlags (o : List (KeyAdapter V)) (pfx : Str) (cs : List Char)
    (h : AllFlags o pfx cs) : FlagKeys o (cs.map fun c => pfx ++ [c]) := by
  intro key hkey
  obtain ⟨c, hc, rfl⟩ := List.mem_map.mp hkey
  exact h c hc

/-- The pack branch on a pack whose keys but the last are keys without argument and
whose last key is declared: the first keys are raised, and the last declaration is
the one `findOption` returned for its key before the pass, raised if it is among the
first ones too. -/
theorem packBranch_resolved (s : Scan V) (rest : List Str) (first : List Str) (last : Str)
    (leftover : Str) (i : Nat) (d : KeyAdapter V)
    (hfirst : FlagKeys s.parser.options first)
    (hlast : findOption s.parser.options last = some (i, d)) :
    ∃ o' d', raiseKeys s.parser.options first = .ok o' ∧
      (∀ j : Nat, o'[j]? = (s.parser.options[j]?).map fun x =>
        if j ∈ foundIndices s.parser.options first then x.raised else x) ∧
      findOption o' last = some (i, d') ∧ (d' = d ∨ d' = d.raised) ∧
      packBranch s rest { keys := first ++ [last], leftover := leftover }
        = packBranch { s with parser := { s.parser with options := o' } } rest
            { keys := [last], leftover := leftover } := by
  obtain ⟨o', hr, hp⟩ := raiseKeys_eq s.parser.options first hfirst
  have hk := map_keys_of_raised s.parser.options o'
    (fun j => decide (j ∈ foundIndices s.parser.options first)) (by simpa using hp)
  obtain ⟨d', hf', hg'⟩ := findOption_congr s.parser.options o' last i d hk hlast
  refine ⟨o', d', hr, hp, hf', ?_, ?_⟩
  · have := hp i
    rw [hg', (findOption_some _ _ _ _ hlast).1] at this
    simp only [Option.map_some', Option.some.injEq] at this
    rw [this]
    split
    · exact Or.inr rfl
    · exact Or.inl rfl
  · simp [packBranch, hr, raiseKeys]

/-- Replacing a declaration by one with the same keys keeps the key lists. -/
theorem map_keys_set (o : List (KeyAdapter V)) (i : Nat) (d r : KeyAdapter V)
    (hget : o[i]? = some d) (hk : r.keys = d.keys) :
    (o.set i r).map KeyAdapter.keys = o.map KeyAdapter.keys := by
  apply List.ext_getElem?
  intro j
  rw [List.getElem?_map, List.getElem?_map, List.getElem?_set]
  by_cases hj : i = j
  · subst hj
    have hlt : i < o.length := (List.getElem?_eq_some.mp hget).1
    simp [hget, hlt, hk]
  · simp [hj]

/-- After a declaration found for a key was replaced by one with the same keys, the
key finds the new declaration at the same index. -/
theorem findOption_set_self (o : List (KeyAdapter V)) (key : Str) (i : Nat)
    (d r : KeyAdapter V) (hf : findOption o key = some (i, d)) (hk : r.keys = d.keys) :
    findOption (o.set i r) key = some (i, r) := by
  have hget := (findOption_some o key i d hf).1
  obtain ⟨d', h1, h2⟩ := findOption_congr o (o.set i r) key i d (map_keys_set o i d r hget hk) hf
  have hlt : i < o.length := (List.getElem?_eq_some.mp hget).1
  rw [List.getElem?_set_self hlt] at h2
  simp only [Option.some.injEq] at h2
  rw [h1, h2]

/-- The adapter `raise` returns keeps the keys. -/
theorem raise_keys (d r : KeyAdapter V) (h : d.raise = .ok r) : r.keys = d.keys := by
  cases d <;> simp [KeyAdapter.raise] at h <;> rw [← h] <;> rfl

/-- What a list of declarations raised at the indices found for some keys holds at
the index found for one of the keys, and outside these indices. -/
theorem raisedAt_props (o o' : List (KeyAdapter V)) (keys : List Str)
    (hp : ∀ j : Nat, o'[j]? =
      (o[j]?).map fun x => if j ∈ foundIndices o keys then x.raised else x) :
    (∀ key ∈ keys, ∀ i d, findOption o key = some (i, d) →
      o'[i]? = some d.raised ∧ findOption o' key = some (i, d.raised)) ∧
    (∀ j : Nat, j ∉ foundIndices o keys → o'[j]? = o[j]?) := by
  have hk := map_keys_of_raised o o' (fun j => decide (j ∈ foundIndices o keys))
    (by simpa using hp)
  constructor
  · intro key hkey i d hf
    have hmem : i ∈ foundIndices o keys := (mem_foundIndices o keys i).mpr ⟨key, hkey, d, hf⟩
    have hi : o'[i]? = some d.raised := by
      rw [hp i, (findOption_some o key i d hf).1]; simp [hmem]
    obtain ⟨d', h1, h2⟩ := findOption_congr o o' key i d hk hf
    rw [hi] at h2
    simp only [Option.some.injEq] at h2
    exact ⟨hi, by rw [h1, h2]⟩
  · intro j hj
    rw [hp j]
    cases o[j]? <;> simp [hj]

/-- The pack branch on a pack of one key whose declaration takes no argument. -/
theorem packBranch_single_flag (s : Scan V) (rest : List Str) (last leftover : Str)
    (i : Nat) (d : KeyAdapter V)
    (hf : findOption s.parser.options last = some (i, d)) (hd : d.hasArgument = false) :
    packBranch s rest { keys := [last], leftover := leftover }
      = .ok (s.setOption i d.raised, Advance.one) := by
  simp [packBranch, raiseKeys, hf, hd, raise_eq_raised d hd, Scan.setOption]

/-- The pack branch on a pack of one key whose declaration takes an argument. -/
theorem packBranch_single_value (s : Scan V) (rest : List Str) (last leftover : Str)
    (i : Nat) (d : KeyAdapter V)
    (hf : findOption s.parser.options last = some (i, d)) (hd : d.hasArgument = true) :
    packBranch s rest { keys := [last], leftover := leftover }
      = if !leftover.isEmpty then
          match d.addValue leftover with
          | .error f => .error f
          | .ok (written, true) => .ok (s.setOption i written, Advance.one)
          | .ok (written, false) =>
            .ok ((s.setOption i written).pushError (.InvalidValueGiven last leftover),
                 Advance.one)
        else
          match rest with
          | [] => .ok (s.pushError (.RequiredOptionValueNotGiven last), Advance.one)
          | next :: _ =>
            match d.addValue next with
            | .error f => .error f
            | .ok (written, true) => .ok (s.setOption i written, Advance.two)
            | .ok (written, false) =>
              .ok ((s.setOption i written).pushError (.InvalidValueGiven last next),
                   Advance.one) := by
  simp only [packBranch, List.isEmpty_cons, Bool.false_eq_true, if_false, List.dropLast_single,
    raiseKeys, List.getLastD_cons, List.getLastD_nil, hf, hd, if_true]

/-- A pack of flag characters: the pass raises the declarations found for the
characters and nothing else changes. -/
theorem step_pack_flags (s : Scan V) (cs : List Char) (rest : List Str)
    (hpacking : s.parser.config.allowArgumentPacking = true)
    (hne : cs ≠ [])
    (hflags : AllFlags s.parser.options s.parser.config.packPrefix cs)
    (hhelp : s.parser.config.packPrefix ++ cs ∉ s.parser.helpKeys)
    (hkey : findOption s.parser.options (s.parser.config.packPrefix ++ cs) = none)
    (hkv : claimsKeyValue s.parser.config s.parser.options
      (s.parser.config.packPrefix ++ cs) = false) :
    ∃ o', step s (s.parser.config.packPrefix ++ cs) rest
        = .ok ({ s with parser := { s.parser with options := o' } }, Advance.one) ∧
      ∀ j : Nat, o'[j]? = (s.parser.options[j]?).map fun x =>
        if j ∈ foundIndices s.parser.options
            (cs.map fun c => s.parser.config.packPrefix ++ [c])
        then x.raised else x := by
  obtain ⟨pre, c, rfl⟩ : ∃ pre c, cs = pre ++ [c] := by
    rcases List.eq_nil_or_concat cs with h | ⟨pre, c, h⟩
    · exact absurd h hne
    · exact ⟨pre, c, by rw [h, List.concat_eq_append]⟩
  have hpre : AllFlags s.parser.options s.parser.config.packPrefix pre :=
    fun x hx => hflags x (List.mem_append_left _ hx)
  obtain ⟨i, d, hf, hd⟩ := hflags c (by simp)
  obtain ⟨o', d', _, hp, hf', hd', hpb⟩ := packBranch_resolved s rest
    (pre.map fun x => s.parser.config.packPrefix ++ [x]) (s.parser.config.packPrefix ++ [c]) []
    i d (flagKeys_of_allFlags _ _ _ hpre) hf
  have hd'2 : d'.hasArgument = false := by
    rcases hd' with h | h <;> rw [h]
    · exact hd
    · rw [raised_hasArgument]; exact hd
  have hd'3 : d'.raised = d.raised := by
    rcases hd' with h | h <;> rw [h]
    exact raised_raised d
  refine ⟨o'.set i d.raised, ?_, ?_⟩
  · rw [step_unclaimed s _ rest hhelp hkey hkv, packOrLater, parsePack_eq _ _ _ hpacking,
      parsePackLoop_all_flags _ _ _ hflags]
    simp only [List.map_append, List.map_cons, List.map_nil]
    rw [hpb, packBranch_single_flag _ rest _ _ i d' hf' hd'2, hd'3]
    rfl
  · intro j
    have hfi : foundIndices s.parser.options
        ((pre ++ [c]).map fun x => s.parser.config.packPrefix ++ [x])
        = foundIndices s.parser.options
            (pre.map fun x => s.parser.config.packPrefix ++ [x]) ++ [i] := by
      simp [foundIndices, List.filterMap_append, hf]
    have hget := (findOption_some _ _ _ _ hf).1
    have hlt : i < o'.length := by
      have := hp i
      rw [hget] at this
      simp only [Option.map_some'] at this
      exact (List.getElem?_eq_some.mp this).1
    rw [hfi, List.getElem?_set]
    by_cases hj : i = j
    · subst hj
      simp [hlt, hget]
    · have hj' : ¬ j = i := fun h => hj h.symm
      rw [if_neg hj, hp j]
      cases s.parser.options[j]? <;> simp [hj']

/-- A key found with a declaration that takes an argument is not among the indices
found for flag keys. -/
theorem not_mem_foundIndices_of_argument (o : List (KeyAdapter V)) (keys : List Str)
    (key : Str) (i : Nat) (d : KeyAdapter V) (hkeys : FlagKeys o keys)
    (hf : findOption o key = some (i, d)) (hd : d.hasArgument = true) :
    i ∉ foundIndices o keys := by
  intro hmem
  obtain ⟨k, hk, d0, hf0⟩ := (mem_foundIndices o keys i).mp hmem
  obtain ⟨i1, d1, hf1, hd1⟩ := hkeys k hk
  rw [hf0] at hf1
  simp only [Option.some.injEq, Prod.mk.injEq] at hf1
  have h0 := (findOption_some o k i d0 hf0).1
  have h1 := (findOption_some o key i d hf).1
  rw [h0] at h1
  simp only [Option.some.injEq] at h1
  rw [← hf1.2, h1, hd] at hd1
  cases hd1

/-- A token that is no help key, no declared key, not claimed by the key=value rule,
and for which `parsePack` returns a pack, is handled by the pack branch on that
pack. -/
theorem step_reaches_pack (s : Scan V) (arg : Str) (rest : List Str) (pack : KeyPack)
    (hhelp : arg ∉ s.parser.helpKeys)
    (hkey : findOption s.parser.options arg = none)
    (hkv : claimsKeyValue s.parser.config s.parser.options arg = false)
    (hpack : parsePack s.parser.config s.parser.options arg = some pack) :
    step s arg rest = packBranch s rest pack := by
  simp only [step_unclaimed s arg rest hhelp hkey hkv, packOrLater, hpack]

/-- The pack branch on flag keys followed by the key of an argument-bearing
declaration: it goes on as on the last key alone, after the declarations found for
the flag characters were raised; the declaration of the last key and those found for
no flag character are as they were. -/
theorem packBranch_value_decls (s : Scan V) (pre : List Char) (c : Char) (tail : Str)
    (rest : List Str) (i : Nat) (d : KeyAdapter V)
    (hpre : AllFlags s.parser.options s.parser.config.packPrefix pre)
    (hlast : findOption s.parser.options (s.parser.config.packPrefix ++ [c]) = some (i, d))
    (harg : d.hasArgument = true) :
    ∃ o1, packBranch s rest
          { keys := (pre ++ [c]).map fun x => s.parser.config.packPrefix ++ [x],
            leftover := tail }
        = packBranch { s with parser := { s.parser with options := o1 } } rest
            { keys := [s.parser.config.packPrefix ++ [c]], leftover := tail } ∧
      findOption o1 (s.parser.config.packPrefix ++ [c]) = some (i, d) ∧
      o1[i]? = some d ∧ i < o1.length ∧
      (∀ x ∈ pre, ∀ i0 d0,
        findOption s.parser.options (s.parser.config.packPrefix ++ [x]) = some (i0, d0) →
        i0 ≠ i ∧ ∃ raised, d0.raise = .ok raised ∧ o1[i0]? = some raised) ∧
      (∀ j : Nat,
        (∀ x ∈ pre, ∀ i0 d0,
          findOption s.parser.options (s.parser.config.packPrefix ++ [x]) = some (i0, d0) →
          i0 ≠ j) →
        o1[j]? = s.parser.options[j]?) := by
  obtain ⟨o1, d', _, hp, hf', hd', hpb⟩ := packBranch_resolved s rest
    (pre.map fun x => s.parser.config.packPrefix ++ [x]) (s.parser.config.packPrefix ++ [c])
    tail i d (flagKeys_of_allFlags _ _ _ hpre) hlast
  have hd'2 : d' = d := by
    rcases hd' with h | h
    · exact h
    · rw [h, raised_of_hasArgument d harg]
  subst hd'2
  obtain ⟨ha, hb⟩ := raisedAt_props _ _ _ hp
  have hget1 := (findOption_some _ _ _ _ hf').1
  refine ⟨o1, ?_, hf', hget1, (List.getElem?_eq_some.mp hget1).1, ?_, ?_⟩
  · simp only [List.map_append, List.map_cons, List.map_nil]
    exact hpb
  · intro x hx i0 d0 hf0
    obtain ⟨i1, d1, hf1', hd1⟩ := hpre x hx
    rw [hf0] at hf1'
    simp only [Option.some.injEq, Prod.mk.injEq] at hf1'
    have hd0 : d0.hasArgument = false := by rw [hf1'.2]; exact hd1
    refine ⟨?_, d0.raised, raise_eq_raised d0 hd0,
      (ha _ (List.mem_map.mpr ⟨x, hx, rfl⟩) i0 d0 hf0).1⟩
    intro h
    subst h
    have h0 := (findOption_some _ _ _ _ hf0).1
    rw [(findOption_some _ _ _ _ hlast).1] at h0
    simp only [Option.some.injEq] at h0
    rw [h0, hd0] at harg
    cases harg
  · intro j hfr
    apply hb
    intro hmem
    obtain ⟨k, hk, d0, hf0⟩ := (mem_foundIndices _ _ j).mp hmem
    obtain ⟨x, hx, rfl⟩ := List.mem_map.mp hk
    exact hfr x hx j d0 hf0 rfl

/-- A token of flag characters followed by the character of an argument-bearing key,
with or without an inline value, that reaches the pack rule: the pass is the pack
branch of `packBranch_value_decls`. -/
theorem step_pack_value_decls (s : Scan V) (pre : List Char) (c : Char) (tail : Str)
    (rest : List Str) (i : Nat) (d : KeyAdapter V)
    (hpacking : s.parser.config.allowArgumentPacking = true)
    (hpre : AllFlags s.parser.options s.parser.config.packPrefix pre)
    (hlast : findOption s.parser.options (s.parser.config.packPrefix ++ [c]) = some (i, d))
    (harg : d.hasArgument = true)
    (hhelp : s.parser.config.packPrefix ++ (pre ++ c :: tail) ∉ s.parser.helpKeys)
    (hkey : findOption s.parser.options
      (s.parser.config.packPrefix ++ (pre ++ c :: tail)) = none)
    (hkv : claimsKeyValue s.parser.config s.parser.options
      (s.parser.config.packPrefix ++ (pre ++ c :: tail)) = false) :
    ∃ o1, step s (s.parser.config.packPrefix ++ (pre ++ c :: tail)) rest
        = packBranch { s with parser := { s.parser with options := o1 } } rest
            { keys := [s.parser.config.packPrefix ++ [c]], leftover := tail } ∧
      findOption o1 (s.parser.config.packPrefix ++ [c]) = some (i, d) ∧
      o1[i]? = some d ∧ i < o1.length ∧
      (∀ x ∈ pre, ∀ i0 d0,
        findOption s.parser.options (s.parser.config.packPrefix ++ [x]) = some (i0, d0) →
        i0 ≠ i ∧ ∃ raised, d0.raise = .ok raised ∧ o1[i0]? = some raised) ∧
      (∀ j : Nat,
        (∀ x ∈ pre, ∀ i0 d0,
          findOption s.parser.options (s.parser.config.packPrefix ++ [x]) = some (i0, d0) →
          i0 ≠ j) →
        o1[j]? = s.parser.options[j]?) := by
  obtain ⟨o1, hpb, h2, h3, h4, h5, h6⟩ :=
    packBranch_value_decls s pre c tail rest i d hpre hlast harg
  refine ⟨o1, ?_, h2, h3, h4, h5, h6⟩
  rw [step_reaches_pack s _ rest _ hhelp hkey hkv
    (by rw [parsePack_eq _ _ _ hpacking,
      parsePackLoop_value _ _ pre c tail i d hpre hlast harg])]
  exact hpb

/-- The exact-key branch keeps the frame of the keyed rules. -/
theorem exactKeyBranch_frame (s s1 : Scan V) (arg : Str) (rest : List Str) (i : Nat)
    (option : KeyAdapter V) (adv : Advance)
    (h : exactKeyBranch s arg rest i option = .ok (s1, adv)) : KeyedFrame s s1 := by
  unfold exactKeyBranch at h
  repeat' split at h
  all_goals (cases h <;> simp [KeyedFrame, Scan.setOption, Scan.pushError])

/-- The key=value branch keeps the frame of the keyed rules. -/
theorem keyValueBranch_frame (s s1 : Scan V) (pair : KeyValuePair) (i : Nat)
    (option : KeyAdapter V) (adv : Advance)
    (h : keyValueBranch s pair i option = .ok (s1, adv)) : KeyedFrame s s1 := by
  unfold keyValueBranch at h
  repeat' split at h
  all_goals (cases h <;> simp [KeyedFrame, Scan.setOption, Scan.pushError])

/-- The pack branch keeps the frame of the keyed rules. -/
theorem packBranch_frame (s s1 : Scan V) (rest : List Str) (pack : KeyPack)
    (adv : Advance) (h : packBranch s rest pack = .ok (s1, adv)) : KeyedFrame s s1 := by
  unfold packBranch at h
  by_cases he : pack.keys.isEmpty = true
  · simp [he] at h
  · rw [if_neg he] at h
    cases hr : raiseKeys s.parser.options pack.keys.dropLast with
    | error f => simp [hr] at h
    | ok options =>
      simp only [hr] at h
      cases hf : findOption options (pack.keys.getLastD []) with
      | none => simp only [hf, reduceCtorEq] at h
      | some r =>
        obtain ⟨i, lastOption⟩ := r
        simp only [hf] at h
        repeat' split at h
        all_goals (cases h <;> simp [KeyedFrame, Scan.setOption, Scan.pushError])

/-- The rule that claims a token decides what the pass does. -/
theorem step_by_rule (s s1 : Scan V) (arg : Str) (rest : List Str) (adv : Advance)
    (h : step s arg rest = .ok (s1, adv)) :
    match classify s arg with
    | .help => s1 = { s with helpRequested := true } ∧ adv = Advance.one
    | .exactKey => KeyedFrame s s1
    | .keyValue => KeyedFrame s s1
    | .pack => KeyedFrame s s1
    | .positional =>
      ∃ a, s.parser.arguments[s.parser.position]? = some a ∧
        (s1, adv) = positionalBranch s arg a
    | .leftover =>
      s.parser.arguments.length ≤ s.parser.position ∧ (s1, adv) = leftoverBranch s arg := by
  unfold classify
  unfold step at h
  by_cases hhelp : arg ∈ s.parser.helpKeys
  · simp only [hhelp, if_true, Except.ok.injEq, Prod.mk.injEq] at h
    simp only [hhelp, if_true]
    exact ⟨h.1.symm, h.2.symm⟩
  · simp only [hhelp, if_false] at h ⊢
    cases hf : findOption s.parser.options arg with
    | some r =>
      obtain ⟨i, option⟩ := r
      simp only [hf] at h
      simp only [Option.isSome_some, if_true]
      exact exactKeyBranch_frame _ _ _ _ _ _ _ h
    | none =>
      simp only [hf] at h
      simp only [Option.isSome_none, Bool.false_eq_true, if_false]
      unfold keyValueOrLater at h
      unfold claimsKeyValue
      have hlater : packOrLater s arg rest = .ok (s1, adv) →
          match (if (parsePack s.parser.config s.parser.options arg).isSome = true then Rule.pack
            else if s.parser.position < s.parser.arguments.length then Rule.positional
            else Rule.leftover) with
          | .help => s1 = { s with helpRequested := true } ∧ adv = Advance.one
          | .exactKey => KeyedFrame s s1
          | .keyValue => KeyedFrame s s1
          | .pack => KeyedFrame s s1
          | .positional =>
            ∃ a, s.parser.arguments[s.parser.position]? = some a ∧
              (s1, adv) = positionalBranch s arg a
          | .leftover =>
            s.parser.arguments.length ≤ s.parser.position ∧
              (s1, adv) = leftoverBranch s arg := by
        intro h2
        unfold packOrLater at h2
        cases hp : parsePack s.parser.config s.parser.options arg with
        | some pack =>
          simp only [hp] at h2
          simp only [Option.isSome_some, if_true]
          exact packBranch_frame _ _ _ _ _ h2
        | none =>
          simp only [hp] at h2
          simp only [Option.isSome_none, Bool.false_eq_true, if_false]
          cases ha : s.parser.arguments[s.parser.position]? with
          | some a =>
            have hlt := (List.getElem?_eq_some.mp ha).1
            simp only [ha, Except.ok.injEq] at h2
            simp only [hlt, if_true]
            exact ⟨a, rfl, h2.symm⟩
          | none =>
            have hge : s.parser.arguments.length ≤ s.parser.position :=
              List.getElem?_eq_none_iff.mp ha
            simp only [ha, Except.ok.injEq] at h2
            simp only [Nat.not_lt.mpr hge, if_false]
            exact ⟨hge, h2.symm⟩
      cases hkv : parseKeyValue s.parser.config arg with
      | none =>
        simp only [hkv] at h
        simp only [Bool.false_eq_true, if_false]
        exact hlater h
      | some pair =>
        simp only [hkv] at h
        cases hf2 : findOption s.parser.options pair.key with
        | some r =>
          obtain ⟨i, option⟩ := r
          simp only [hf2] at h
          simp only [hf2, Option.isSome_some, if_true]
          exact keyValueBranch_frame _ _ _ _ _ _ h
        | none =>
          simp only [hf2] at h
          simp only [hf2, Option.isSome_none, Bool.false_eq_true, if_false]
          exact hlater h

/-- The call `addValue` on a positional keeps what the declaration says of
itself. -/
theorem argument_addValue_shape (a : ArgumentAdapter V) (v : Str) :
    (a.addValue v).1.multi = a.multi ∧ (a.addValue v).1.metavar = a.metavar ∧
      (a.addValue v).1.isRequired = a.isRequired := by
  cases a <;> simp only [ArgumentAdapter.addValue] <;> split <;>
    simp [ArgumentAdapter.multi, ArgumentAdapter.metavar, ArgumentAdapter.isRequired]

/-- A non-multi positional whose `addValue` succeeded is set. -/
theorem argument_addValue_isSet (a : ArgumentAdapter V) (v : Str)
    (hm : a.multi = false) (h : (a.addValue v).2 = true) :
    (a.addValue v).1.isSet = .ok true := by
  cases a with
  | ValueAdapter hl m r val set rd =>
    simp only [ArgumentAdapter.addValue] at h ⊢
    split at h <;> simp_all [ArgumentAdapter.isSet]
  | MultiValueAdapter hl m r vs rd => simp [ArgumentAdapter.multi] at hm

/-- The trace of a scan whose first pass ends in a fault. -/
theorem trace_cons_error (s : Scan V) (arg : Str) (rest : List Str) (f : Fault)
    (h : step s arg rest = .error f) :
    trace (arg :: rest) s = [(classify s arg, arg, s.parser.position)] := by
  simp [trace, h]

/-- The trace of a scan whose first pass advances one token. -/
theorem trace_cons_one (s s1 : Scan V) (arg : Str) (rest : List Str)
    (h : step s arg rest = .ok (s1, Advance.one)) :
    trace (arg :: rest) s = (classify s arg, arg, s.parser.position) :: trace rest s1 := by
  simp [trace, h]

/-- The trace of a scan whose first pass advances two tokens. -/
theorem trace_cons_two (s s1 : Scan V) (arg k : Str) (ks : List Str)
    (h : step s arg (k :: ks) = .ok (s1, Advance.two)) :
    trace (arg :: k :: ks) s = (classify s arg, arg, s.parser.position) :: trace ks s1 := by
  simp [trace, h]

/-- The trace of a scan whose only pass would advance two tokens. -/
theorem trace_single_two (s s1 : Scan V) (arg : Str)
    (h : step s arg [] = .ok (s1, Advance.two)) :
    trace [arg] s = [(classify s arg, arg, s.parser.position)] := by
  simp [trace, h]

/-- What a pass does to the positional cursor: it moves, by one, exactly in a pass of
the positional rule at a non-multi positional; no pass changes which positionals are
multi. -/
theorem step_cursor (s s1 : Scan V) (arg : Str) (rest : List Str) (adv : Advance)
    (h : step s arg rest = .ok (s1, adv)) :
    s1.parser.arguments.map ArgumentAdapter.multi
      = s.parser.arguments.map ArgumentAdapter.multi ∧
    (classify s arg ≠ Rule.positional → s1.parser.position = s.parser.position) ∧
    (classify s arg = Rule.positional →
      ∃ a, s.parser.arguments[s.parser.position]? = some a ∧
        s1.parser.position = if a.multi then s.parser.position
          else s.parser.position + 1) := by
  have hr := step_by_rule s s1 arg rest adv h
  cases hc : classify s arg <;> rw [hc] at hr <;> simp only at hr
  · obtain ⟨rfl, _⟩ := hr
    simp
  · obtain ⟨_, _, h3, h4, _⟩ := hr
    simp [h3, h4]
  · obtain ⟨_, _, h3, h4, _⟩ := hr
    simp [h3, h4]
  · obtain ⟨_, _, h3, h4, _⟩ := hr
    simp [h3, h4]
  · obtain ⟨a, ha, hb⟩ := hr
    simp only [positionalBranch, Prod.mk.injEq] at hb
    obtain ⟨hb, _⟩ := hb
    subst hb
    refine ⟨?_, by simp, fun _ => ⟨a, ha, ?_⟩⟩
    · have hmap : (s.parser.arguments.set s.parser.position (a.addValue arg).1).map
          ArgumentAdapter.multi = s.parser.arguments.map ArgumentAdapter.multi := by
        apply List.ext_getElem?
        intro j
        rw [List.getElem?_map, List.getElem?_map, List.getElem?_set]
        by_cases hj : s.parser.position = j
        · subst hj
          have hlt := (List.getElem?_eq_some.mp ha).1
          simp [ha, hlt, (argument_addValue_shape a arg).1]
        · simp [hj]
      cases hm : a.multi <;> cases hw : (a.addValue arg).2 <;>
        simp [hm, hw, Scan.pushError, hmap]
    · cases hm : a.multi <;> cases hw : (a.addValue arg).2 <;> simp [hm, hw, Scan.pushError]
  · obtain ⟨_, hb⟩ := hr
    simp only [leftoverBranch] at hb
    split at hb <;> simp only [Prod.mk.injEq] at hb <;> obtain ⟨hb, _⟩ := hb <;> subst hb <;>
      simp [Scan.pushError]

/-- No pass moves the positional cursor back. -/
theorem step_position_le (s s1 : Scan V) (arg : Str) (rest : List Str) (adv : Advance)
    (h : step s arg rest = .ok (s1, adv)) : s.parser.position ≤ s1.parser.position := by
  obtain ⟨_, h2, h3⟩ := step_cursor s s1 arg rest adv h
  by_cases hc : classify s arg = Rule.positional
  · obtain ⟨a, _, hp⟩ := h3 hc
    rw [hp]; split <;> omega
  · rw [h2 hc]

/-- A positional that is not multi before a pass is not multi after it, and
conversely. -/
theorem step_multi (s s1 : Scan V) (arg : Str) (rest : List Str) (adv : Advance)
    (h : step s arg rest = .ok (s1, adv)) (j : Nat) :
    (s1.parser.arguments[j]?).map ArgumentAdapter.multi
      = (s.parser.arguments[j]?).map ArgumentAdapter.multi := by
  rw [← List.getElem?_map, ← List.getElem?_map, (step_cursor s s1 arg rest adv h).1]

/-- Every pass of a trace starts with the cursor at or after where the scan
started. -/
theorem trace_position_ge (args : List Str) (s : Scan V) :
    ∀ e ∈ trace args s, s.parser.position ≤ e.2.2 := by
  induction args, s using scan.induct with
  | case1 s => simp [trace]
  | case2 arg rest s f hf => simp [trace_cons_error s arg rest f hf]
  | case3 arg rest s s1 hstep ih =>
    rw [trace_cons_one s s1 arg rest hstep]
    intro e he
    rcases List.mem_cons.mp he with rfl | he
    · exact Nat.le_refl _
    · exact Nat.le_trans (step_position_le s s1 arg rest _ hstep) (ih e he)
  | case4 arg s s1 hstep => simp [trace_single_two s s1 arg hstep]
  | case5 arg s s1 k ks hstep ih =>
    rw [trace_cons_two s s1 arg k ks hstep]
    intro e he
    rcases List.mem_cons.mp he with rfl | he
    · exact Nat.le_refl _
    · exact Nat.le_trans (step_position_le s s1 arg _ _ hstep) (ih e he)

/-- The cursor at the end of a scan is at or after where the scan started. -/
theorem scan_position_ge (args : List Str) (s s1 : Scan V) (h : scan args s = .ok s1) :
    s.parser.position ≤ s1.parser.position := by
  induction args, s using scan.induct with
  | case1 s => simp only [scan, Except.ok.injEq] at h; rw [h]
  | case2 arg rest s f hf => simp [scan, hf] at h
  | case3 arg rest s s2 hstep ih =>
    simp only [scan, hstep] at h
    exact Nat.le_trans (step_position_le s s2 arg rest _ hstep) (ih h)
  | case4 arg s s2 hstep =>
    simp only [scan, hstep, Except.ok.injEq] at h
    rw [← h]; exact step_position_le s s2 arg _ _ hstep
  | case5 arg s s2 k ks hstep ih =>
    simp only [scan, hstep] at h
    exact Nat.le_trans (step_position_le s s2 arg _ _ hstep) (ih h)

/-- The cursor positions of the passes of a trace never decrease. -/
theorem trace_positions_sorted (args : List Str) (s : Scan V) :
    List.Pairwise (fun e1 e2 => e1.2.2 ≤ e2.2.2) (trace args s) := by
  induction args, s using scan.induct with
  | case1 s => simp [trace]
  | case2 arg rest s f hf => simp [trace_cons_error s arg rest f hf]
  | case3 arg rest s s1 hstep ih =>
    rw [trace_cons_one s s1 arg rest hstep]
    refine List.Pairwise.cons ?_ ih
    intro e he
    exact Nat.le_trans (step_position_le s s1 arg rest _ hstep) (trace_position_ge rest s1 e he)
  | case4 arg s s1 hstep => simp [trace_single_two s s1 arg hstep]
  | case5 arg s s1 k ks hstep ih =>
    rw [trace_cons_two s s1 arg k ks hstep]
    refine List.Pairwise.cons ?_ ih
    intro e he
    exact Nat.le_trans (step_position_le s s1 arg _ _ hstep) (trace_position_ge ks s1 e he)

/-- An index offered a token is the cursor of some pass of the trace. -/
theorem mem_offers (passes : List (Rule × Str × Nat)) (j : Nat) (h : j ∈ offers passes) :
    ∃ e ∈ passes, e.1 = Rule.positional ∧ e.2.2 = j := by
  simp only [offers, List.mem_filterMap] at h
  obtain ⟨e, he, hj⟩ := h
  by_cases hp : e.1 = Rule.positional
  · simp only [hp, if_true, Option.some.injEq] at hj
    exact ⟨e, he, hp, hj⟩
  · simp [hp] at hj

/-- The offers of a trace, pass by pass. -/
theorem offers_cons (e : Rule × Str × Nat) (passes : List (Rule × Str × Nat)) :
    offers (e :: passes)
      = if e.1 = Rule.positional then e.2.2 :: offers passes else offers passes := by
  by_cases hp : e.1 = Rule.positional <;> simp [offers, List.filterMap_cons, hp]

/-- After a first pass, a non-multi positional is offered at most one token in all:
the induction step of `offers_count_le_one`. -/
theorem offers_count_step (s s1 : Scan V) (arg : Str) (rest tail : List Str) (adv : Advance)
    (hstep : step s arg rest = .ok (s1, adv))
    (ih : ∀ j a, s1.parser.arguments[j]? = some a → a.multi = false →
      (offers (trace tail s1)).count j ≤ 1)
    (j : Nat) (a : ArgumentAdapter V)
    (ha : s.parser.arguments[j]? = some a) (hm : a.multi = false) :
    (offers ((classify s arg, arg, s.parser.position) :: trace tail s1)).count j ≤ 1 := by
  have hmulti := step_multi s s1 arg rest adv hstep j
  rw [ha] at hmulti
  obtain ⟨a1, ha1, hm1⟩ : ∃ a1, s1.parser.arguments[j]? = some a1 ∧ a1.multi = false := by
    cases h1 : s1.parser.arguments[j]? with
    | none => rw [h1] at hmulti; simp at hmulti
    | some a1 =>
      rw [h1] at hmulti
      simp only [Option.map_some', Option.some.injEq] at hmulti
      exact ⟨a1, rfl, by rw [hmulti, hm]⟩
  have hih := ih j a1 ha1 hm1
  rw [offers_cons]
  by_cases hc : classify s arg = Rule.positional
  · simp only [hc, if_true]
    obtain ⟨a0, ha0, hp⟩ := (step_cursor s s1 arg rest adv hstep).2.2 hc
    by_cases hj : s.parser.position = j
    · subst hj
      rw [ha] at ha0
      simp only [Option.some.injEq] at ha0
      subst ha0
      simp only [hm, Bool.false_eq_true, if_false] at hp
      have hnot : s.parser.position ∉ offers (trace tail s1) := by
        intro hmem
        obtain ⟨e, he, _, hej⟩ := mem_offers _ _ hmem
        have := trace_position_ge tail s1 e he
        omega
      rw [List.count_cons_self, List.count_eq_zero_of_not_mem hnot]
    · rw [List.count_cons_of_ne (Ne.symm hj)]
      exact hih
  · simp only [hc, if_false]
    exact hih

/-- Each non-multi positional is offered at most one token in a scan. -/
theorem offers_count_le_one (args : List Str) (s : Scan V) :
    ∀ j a, s.parser.arguments[j]? = some a → a.multi = false →
      (offers (trace args s)).count j ≤ 1 := by
  induction args, s using scan.induct with
  | case1 s => intro j a _ _; simp [trace, offers]
  | case2 arg rest s f hf =>
    intro j a _ _
    rw [trace_cons_error s arg rest f hf, offers_cons]
    split
    · simp only [offers, List.filterMap_nil]
      exact List.count_le_length _ _
    · simp [offers]
  | case3 arg rest s s1 hstep ih =>
    intro j a ha hm
    rw [trace_cons_one s s1 arg rest hstep]
    exact offers_count_step s s1 arg rest rest _ hstep ih j a ha hm
  | case4 arg s s1 hstep =>
    intro j a _ _
    rw [trace_single_two s s1 arg hstep, offers_cons]
    split
    · simp only [offers, List.filterMap_nil]
      exact List.count_le_length _ _
    · simp [offers]
  | case5 arg s s1 k ks hstep ih =>
    intro j a ha hm
    rw [trace_cons_two s s1 arg k ks hstep]
    exact offers_count_step s s1 arg (k :: ks) ks _ hstep ih j a ha hm

/-- A pass that starts with the cursor at a multi positional leaves it there. -/
theorem step_multi_stays (s s1 : Scan V) (arg : Str) (rest : List Str) (adv : Advance)
    (a : ArgumentAdapter V) (hstep : step s arg rest = .ok (s1, adv))
    (ha : s.parser.arguments[s.parser.position]? = some a) (hm : a.multi = true) :
    s1.parser.position = s.parser.position ∧
      ∃ a1, s1.parser.arguments[s1.parser.position]? = some a1 ∧ a1.multi = true := by
  obtain ⟨_, h2, h3⟩ := step_cursor s s1 arg rest adv hstep
  have hpos : s1.parser.position = s.parser.position := by
    by_cases hc : classify s arg = Rule.positional
    · obtain ⟨a0, ha0, hp⟩ := h3 hc
      rw [ha] at ha0
      simp only [Option.some.injEq] at ha0
      subst ha0
      rw [hp, hm]; rfl
    · exact h2 hc
  refine ⟨hpos, ?_⟩
  have hmulti := step_multi s s1 arg rest adv hstep s.parser.position
  rw [ha, ← hpos] at hmulti
  cases h1 : s1.parser.arguments[s1.parser.position]? with
  | none => rw [h1] at hmulti; simp at hmulti
  | some a1 =>
    rw [h1] at hmulti
    simp only [Option.map_some', Option.some.injEq] at hmulti
    exact ⟨a1, rfl, by rw [hmulti, hm]⟩

/-- Once the cursor is at a multi positional, every pass of the scan starts with the
cursor there and the scan ends with it there. -/
theorem multi_positional_absorbs (args : List Str) (s : Scan V) :
    ∀ a, s.parser.arguments[s.parser.position]? = some a → a.multi = true →
      (∀ e ∈ trace args s, e.2.2 = s.parser.position) ∧
      (∀ s1, scan args s = .ok s1 → s1.parser.position = s.parser.position) := by
  induction args, s using scan.induct with
  | case1 s =>
    intro a _ _
    refine ⟨by simp [trace], ?_⟩
    intro s1 h
    simp only [scan, Except.ok.injEq] at h
    rw [h]
  | case2 arg rest s f hf =>
    intro a _ _
    refine ⟨by simp [trace_cons_error s arg rest f hf], ?_⟩
    intro s1 h
    simp [scan, hf] at h
  | case3 arg rest s s1 hstep ih =>
    intro a ha hm
    obtain ⟨hpos, a1, ha1, hm1⟩ := step_multi_stays s s1 arg rest _ a hstep ha hm
    obtain ⟨ih1, ih2⟩ := ih a1 ha1 hm1
    constructor
    · rw [trace_cons_one s s1 arg rest hstep]
      intro e he
      rcases List.mem_cons.mp he with rfl | he
      · rfl
      · rw [ih1 e he, hpos]
    · intro s2 h
      simp only [scan, hstep] at h
      rw [ih2 s2 h, hpos]
  | case4 arg s s1 hstep =>
    intro a ha hm
    obtain ⟨hpos, _⟩ := step_multi_stays s s1 arg [] _ a hstep ha hm
    refine ⟨by simp [trace_single_two s s1 arg hstep], ?_⟩
    intro s2 h
    simp only [scan, hstep, Except.ok.injEq] at h
    rw [← h, hpos]
  | case5 arg s s1 k ks hstep ih =>
    intro a ha hm
    obtain ⟨hpos, a1, ha1, hm1⟩ := step_multi_stays s s1 arg (k :: ks) _ a hstep ha hm
    obtain ⟨ih1, ih2⟩ := ih a1 ha1 hm1
    constructor
    · rw [trace_cons_two s s1 arg k ks hstep]
      intro e he
      rcases List.mem_cons.mp he with rfl | he
      · rfl
      · rw [ih1 e he, hpos]
    · intro s2 h
      simp only [scan, hstep] at h
      rw [ih2 s2 h, hpos]

/-- What a pass does to the positionals: the positional rule writes the one at the
cursor, the other rules none. -/
theorem step_arguments (s s1 : Scan V) (arg : Str) (rest : List Str) (adv : Advance)
    (h : step s arg rest = .ok (s1, adv)) :
    (classify s arg ≠ Rule.positional → s1.parser.arguments = s.parser.arguments) ∧
    (classify s arg = Rule.positional →
      ∃ a, s.parser.arguments[s.parser.position]? = some a ∧
        s1.parser.arguments
          = s.parser.arguments.set s.parser.position (a.addValue arg).1 ∧
        ((a.addValue arg).2 = false →
          Error.InvalidValueGiven a.metavar arg ∈ s1.errors)) := by
  have hr := step_by_rule s s1 arg rest adv h
  cases hc : classify s arg <;> rw [hc] at hr <;> simp only at hr
  · obtain ⟨rfl, _⟩ := hr
    simp
  · obtain ⟨_, _, h3, _⟩ := hr
    simp [h3]
  · obtain ⟨_, _, h3, _⟩ := hr
    simp [h3]
  · obtain ⟨_, _, h3, _⟩ := hr
    simp [h3]
  · obtain ⟨a, ha, hb⟩ := hr
    simp only [positionalBranch, Prod.mk.injEq] at hb
    obtain ⟨hb, _⟩ := hb
    subst hb
    refine ⟨by simp, fun _ => ⟨a, ha, ?_, ?_⟩⟩
    · cases hm : a.multi <;> cases hw : (a.addValue arg).2 <;> simp [hm, hw, Scan.pushError]
    · intro hw
      cases hm : a.multi <;> simp [hm, hw, Scan.pushError]
  · obtain ⟨_, hb⟩ := hr
    simp only [leftoverBranch] at hb
    split at hb <;> simp only [Prod.mk.injEq] at hb <;> obtain ⟨hb, _⟩ := hb <;> subst hb <;>
      simp [Scan.pushError]

/-- No pass removes a diagnostic. -/
theorem step_errors_mono (s s1 : Scan V) (arg : Str) (rest : List Str) (adv : Advance)
    (h : step s arg rest = .ok (s1, adv)) : ∀ e ∈ s.errors, e ∈ s1.errors := by
  have hr := step_by_rule s s1 arg rest adv h
  have hk : KeyedFrame s s1 → ∀ e ∈ s.errors, e ∈ s1.errors := by
    rintro ⟨_, _, _, _, _, _, he | ⟨e0, he, _⟩⟩ e hmem
    · rw [he]; exact hmem
    · rw [he]; exact List.mem_append_left _ hmem
  cases hc : classify s arg <;> rw [hc] at hr <;> simp only at hr
  · obtain ⟨rfl, _⟩ := hr
    intro e he; exact he
  · exact hk hr
  · exact hk hr
  · exact hk hr
  · obtain ⟨a, ha, hb⟩ := hr
    simp only [positionalBranch, Prod.mk.injEq] at hb
    obtain ⟨hb, _⟩ := hb
    subst hb
    intro e he
    cases hm : a.multi <;> cases hw : (a.addValue arg).2 <;>
      simp [hm, hw, Scan.pushError, he]
  · obtain ⟨_, hb⟩ := hr
    simp only [leftoverBranch] at hb
    intro e he
    split at hb <;> simp only [Prod.mk.injEq] at hb <;> obtain ⟨hb, _⟩ := hb <;> subst hb <;>
      simp [Scan.pushError, he]

/-- A pass keeps `PassedAccounted`. -/
theorem step_passedAccounted (s s1 : Scan V) (arg : Str) (rest : List Str) (adv : Advance)
    (h : step s arg rest = .ok (s1, adv)) (hinv : PassedAccounted s) :
    PassedAccounted s1 := by
  obtain ⟨_, hc2, hc3⟩ := step_cursor s s1 arg rest adv h
  obtain ⟨ha2, ha3⟩ := step_arguments s s1 arg rest adv h
  have hmono := step_errors_mono s s1 arg rest adv h
  have hold : ∀ j a, j < s.parser.position → s.parser.arguments[j]? = some a →
      a.multi = false →
      a.isSet = .ok true ∨ ∃ v, Error.InvalidValueGiven a.metavar v ∈ s1.errors := by
    intro j a hj ha hm
    rcases hinv j a hj ha hm with h1 | ⟨v, hv⟩
    · exact Or.inl h1
    · exact Or.inr ⟨v, hmono _ hv⟩
  intro j a hj ha hm
  by_cases hc : classify s arg = Rule.positional
  · obtain ⟨a0, ha0, hpos⟩ := hc3 hc
    obtain ⟨a0', ha0', hargs, herr⟩ := ha3 hc
    rw [ha0] at ha0'
    simp only [Option.some.injEq] at ha0'
    subst ha0'
    rw [hargs] at ha
    by_cases hjp : j = s.parser.position
    · subst hjp
      have hlt := (List.getElem?_eq_some.mp ha0).1
      rw [List.getElem?_set_self hlt] at ha
      simp only [Option.some.injEq] at ha
      subst ha
      have hm0 : a0.multi = false := by
        rw [← (argument_addValue_shape a0 arg).1]; exact hm
      cases hw : (a0.addValue arg).2 with
      | true => exact Or.inl (argument_addValue_isSet a0 arg hm0 hw)
      | false =>
        refine Or.inr ⟨arg, ?_⟩
        rw [(argument_addValue_shape a0 arg).2.1]
        exact herr hw
    · rw [List.getElem?_set_ne (Ne.symm hjp)] at ha
      have hlt : j < s.parser.position := by
        rw [hpos] at hj
        split at hj <;> omega
      exact hold j a hlt ha hm
  · rw [hc2 hc] at hj
    rw [ha2 hc] at ha
    exact hold j a hj ha hm

/-- A scan keeps `PassedAccounted`. -/
theorem scan_passedAccounted (args : List Str) (s s1 : Scan V)
    (h : scan args s = .ok s1) (hinv : PassedAccounted s) : PassedAccounted s1 := by
  induction args, s using scan.induct with
  | case1 s => simp only [scan, Except.ok.injEq] at h; rw [← h]; exact hinv
  | case2 arg rest s f hf => simp [scan, hf] at h
  | case3 arg rest s s2 hstep ih =>
    simp only [scan, hstep] at h
    exact ih h (step_passedAccounted s s2 arg rest _ hstep hinv)
  | case4 arg s s2 hstep =>
    simp only [scan, hstep, Except.ok.injEq] at h
    rw [← h]; exact step_passedAccounted s s2 arg _ _ hstep hinv
  | case5 arg s s2 k ks hstep ih =>
    simp only [scan, hstep] at h
    exact ih h (step_passedAccounted s s2 arg _ _ hstep hinv)

/-- What a pass does to the leftovers when unspecified arguments are allowed: the
leftover rule appends the token, no rule emits `UnexpectedArgument`, and the
configuration stays. -/
theorem step_leftovers (s s1 : Scan V) (arg : Str) (rest : List Str) (adv : Advance)
    (h : step s arg rest = .ok (s1, adv)) :
    s1.parser.config = s.parser.config ∧
    (s.parser.config.allowUnspecifiedArguments = true →
      s1.parser.leftovers
          = s.parser.leftovers ++ (if classify s arg = Rule.leftover then [arg] else []) ∧
        ∀ a, Error.UnexpectedArgument a ∈ s1.errors →
          Error.UnexpectedArgument a ∈ s.errors) := by
  have hr := step_by_rule s s1 arg rest adv h
  have hk : KeyedFrame s s1 → s1.parser.config = s.parser.config ∧
      s1.parser.leftovers = s.parser.leftovers ∧
      ∀ a, Error.UnexpectedArgument a ∈ s1.errors →
        Error.UnexpectedArgument a ∈ s.errors := by
    rintro ⟨h1, _, _, _, h5, _, he | ⟨e0, he, hne⟩⟩
    · exact ⟨h1, h5, fun a ha => by rw [he] at ha; exact ha⟩
    · refine ⟨h1, h5, fun a ha => ?_⟩
      rw [he] at ha
      rcases List.mem_append.mp ha with ha | ha
      · exact ha
      · simp only [List.mem_singleton] at ha
        exact absurd ha.symm (hne a)
  cases hc : classify s arg <;> rw [hc] at hr <;> simp only at hr
  · obtain ⟨rfl, _⟩ := hr
    simp
  · obtain ⟨h1, h2, h3⟩ := hk hr
    exact ⟨h1, fun _ => ⟨by simp [h2], h3⟩⟩
  · obtain ⟨h1, h2, h3⟩ := hk hr
    exact ⟨h1, fun _ => ⟨by simp [h2], h3⟩⟩
  · obtain ⟨h1, h2, h3⟩ := hk hr
    exact ⟨h1, fun _ => ⟨by simp [h2], h3⟩⟩
  · obtain ⟨a, ha, hb⟩ := hr
    simp only [positionalBranch, Prod.mk.injEq] at hb
    obtain ⟨hb, _⟩ := hb
    subst hb
    cases hm : a.multi <;> cases hw : (a.addValue arg).2 <;> simp [hm, hw, Scan.pushError]
  · obtain ⟨_, hb⟩ := hr
    simp only [leftoverBranch] at hb
    refine ⟨?_, fun hallow => ?_⟩
    · split at hb <;> simp only [Prod.mk.injEq] at hb <;> obtain ⟨hb, _⟩ := hb <;>
        subst hb <;> simp [Scan.pushError]
    · simp only [hallow, if_true, Prod.mk.injEq] at hb
      obtain ⟨hb, _⟩ := hb
      subst hb
      simp

/-- The leftover tokens of a trace, pass by pass. -/
theorem leftoverTokens_cons (e : Rule × Str × Nat) (passes : List (Rule × Str × Nat)) :
    leftoverTokens (e :: passes)
      = (if e.1 = Rule.leftover then [e.2.1] else []) ++ leftoverTokens passes := by
  by_cases hp : e.1 = Rule.leftover <;> simp [leftoverTokens, List.filterMap_cons, hp]

/-- With unspecified arguments allowed, a scan appends to the leftovers the tokens
the leftover rule claimed, in order, and emits no `UnexpectedArgument`. -/
theorem scan_leftovers (args : List Str) (s s1 : Scan V)
    (hallow : s.parser.config.allowUnspecifiedArguments = true)
    (h : scan args s = .ok s1) :
    s1.parser.leftovers = s.parser.leftovers ++ leftoverTokens (trace args s) ∧
    ∀ a, Error.UnexpectedArgument a ∈ s1.errors → Error.UnexpectedArgument a ∈ s.errors := by
  induction args, s using scan.induct with
  | case1 s =>
    simp only [scan, Except.ok.injEq] at h
    subst h
    simp [trace, leftoverTokens]
  | case2 arg rest s f hf => simp [scan, hf] at h
  | case3 arg rest s s2 hstep ih =>
    simp only [scan, hstep] at h
    obtain ⟨hcfg, hl⟩ := step_leftovers s s2 arg rest _ hstep
    obtain ⟨hl1, hl2⟩ := hl hallow
    obtain ⟨ih1, ih2⟩ := ih (by rw [hcfg]; exact hallow) h
    rw [trace_cons_one s s2 arg rest hstep, leftoverTokens_cons]
    exact ⟨by rw [ih1, hl1, List.append_assoc], fun a ha => hl2 a (ih2 a ha)⟩
  | case4 arg s s2 hstep =>
    simp only [scan, hstep, Except.ok.injEq] at h
    subst h
    obtain ⟨_, hl⟩ := step_leftovers s s2 arg [] _ hstep
    obtain ⟨hl1, hl2⟩ := hl hallow
    rw [trace_single_two s s2 arg hstep, leftoverTokens_cons]
    exact ⟨by rw [hl1]; simp [leftoverTokens], hl2⟩
  | case5 arg s s2 k ks hstep ih =>
    simp only [scan, hstep] at h
    obtain ⟨hcfg, hl⟩ := step_leftovers s s2 arg (k :: ks) _ hstep
    obtain ⟨hl1, hl2⟩ := hl hallow
    obtain ⟨ih1, ih2⟩ := ih (by rw [hcfg]; exact hallow) h
    rw [trace_cons_two s s2 arg k ks hstep, leftoverTokens_cons]
    exact ⟨by rw [ih1, hl1, List.append_assoc], fun a ha => hl2 a (ih2 a ha)⟩

/-- The exact-key branch does the same with the help flag set. -/
theorem exactKeyBranch_setHelp (s : Scan V) (arg : Str) (rest : List Str) (i : Nat)
    (option : KeyAdapter V) :
    exactKeyBranch { s with helpRequested := true } arg rest i option
      = Except.map (fun r => ({ r.1 with helpRequested := true }, r.2))
          (exactKeyBranch s arg rest i option) := by
  unfold exactKeyBranch
  repeat' split
  all_goals simp_all [Except.map, Scan.setOption, Scan.pushError]

/-- The key=value branch does the same with the help flag set. -/
theorem keyValueBranch_setHelp (s : Scan V) (pair : KeyValuePair) (i : Nat)
    (option : KeyAdapter V) :
    keyValueBranch { s with helpRequested := true } pair i option
      = Except.map (fun r => ({ r.1 with helpRequested := true }, r.2))
          (keyValueBranch s pair i option) := by
  unfold keyValueBranch
  repeat' split
  all_goals simp_all [Except.map, Scan.setOption, Scan.pushError]

/-- The pack branch does the same with the help flag set. -/
theorem packBranch_setHelp (s : Scan V) (rest : List Str) (pack : KeyPack) :
    packBranch { s with helpRequested := true } rest pack
      = Except.map (fun r => ({ r.1 with helpRequested := true }, r.2))
          (packBranch s rest pack) := by
  unfold packBranch
  by_cases he : pack.keys.isEmpty = true
  · simp [he, Except.map]
  · rw [if_neg he, if_neg he]
    cases hr : raiseKeys s.parser.options pack.keys.dropLast with
    | error f => simp [Except.map]
    | ok options =>
      simp only []
      cases hf : findOption options (pack.keys.getLastD []) with
      | none => simp [Except.map]
      | some r =>
        obtain ⟨i, lastOption⟩ := r
        simp only []
        repeat' split
        all_goals simp_all [Except.map, Scan.setOption, Scan.pushError]

/-- A pass does the same with the help flag set. -/
theorem step_setHelp (s : Scan V) (arg : Str) (rest : List Str) :
    step { s with helpRequested := true } arg rest
      = Except.map (fun r => ({ r.1 with helpRequested := true }, r.2)) (step s arg rest) := by
  unfold step
  by_cases hhelp : arg ∈ s.parser.helpKeys
  · simp [hhelp, Except.map]
  · simp only [hhelp, if_false]
    cases hf : findOption s.parser.options arg with
    | some r =>
      obtain ⟨i, option⟩ := r
      exact exactKeyBranch_setHelp s arg rest i option
    | none =>
      simp only []
      have hlater : packOrLater { s with helpRequested := true } arg rest
          = Except.map (fun r => ({ r.1 with helpRequested := true }, r.2))
              (packOrLater s arg rest) := by
        unfold packOrLater
        cases hp : parsePack s.parser.config s.parser.options arg with
        | some pack => exact packBranch_setHelp s rest pack
        | none =>
          simp only []
          cases ha : s.parser.arguments[s.parser.position]? with
          | some a =>
            simp only [Except.map, positionalBranch, Scan.pushError]
            cases a.multi <;> cases (a.addValue arg).2 <;> rfl
          | none =>
            simp only [Except.map, leftoverBranch, Scan.pushError]
            cases s.parser.config.allowUnspecifiedArguments <;> rfl
      unfold keyValueOrLater
      cases hkv : parseKeyValue s.parser.config arg with
      | none => exact hlater
      | some pair =>
        simp only []
        cases hf2 : findOption s.parser.options pair.key with
        | some r =>
          obtain ⟨i, option⟩ := r
          exact keyValueBranch_setHelp s pair i option
        | none => exact hlater

/-- A scan does the same with the help flag set, and leaves it set. -/
theorem scan_setHelp (args : List Str) (s : Scan V) :
    scan args { s with helpRequested := true }
      = Except.map (fun r => { r with helpRequested := true }) (scan args s) := by
  induction args, s using scan.induct with
  | case1 s => simp [scan, Except.map]
  | case2 arg rest s f hf => simp [scan, step_setHelp, hf, Except.map]
  | case3 arg rest s s1 hstep ih => simp [scan, step_setHelp, hstep, Except.map, ih]
  | case4 arg s s1 hstep => simp [scan, step_setHelp, hstep, Except.map]
  | case5 arg s s1 k ks hstep ih => simp [scan, step_setHelp, hstep, Except.map, ih]

/-- No pass changes the help keys. -/
theorem step_helpKeys (s s1 : Scan V) (arg : Str) (rest : List Str) (adv : Advance)
    (h : step s arg rest = .ok (s1, adv)) : s1.parser.helpKeys = s.parser.helpKeys := by
  have hr := step_by_rule s s1 arg rest adv h
  cases hc : classify s arg <;> rw [hc] at hr <;> simp only at hr
  · obtain ⟨rfl, _⟩ := hr
    rfl
  · exact hr.2.1
  · exact hr.2.1
  · exact hr.2.1
  · obtain ⟨a, ha, hb⟩ := hr
    simp only [positionalBranch, Prod.mk.injEq] at hb
    obtain ⟨hb, _⟩ := hb
    subst hb
    cases hm : a.multi <;> cases hw : (a.addValue arg).2 <;> simp [hm, hw, Scan.pushError]
  · obtain ⟨_, hb⟩ := hr
    simp only [leftoverBranch] at hb
    split at hb <;> simp only [Prod.mk.injEq] at hb <;> obtain ⟨hb, _⟩ := hb <;> subst hb <;>
      simp [Scan.pushError]

/-- No scan changes the help keys. -/
theorem scan_helpKeys (args : List Str) (s s1 : Scan V) (h : scan args s = .ok s1) :
    s1.parser.helpKeys = s.parser.helpKeys := by
  induction args, s using scan.induct with
  | case1 s => simp only [scan, Except.ok.injEq] at h; rw [h]
  | case2 arg rest s f hf => simp [scan, hf] at h
  | case3 arg rest s s2 hstep ih =>
    simp only [scan, hstep] at h
    rw [ih h, step_helpKeys s s2 arg rest _ hstep]
  | case4 arg s s2 hstep =>
    simp only [scan, hstep, Except.ok.injEq] at h
    rw [← h, step_helpKeys s s2 arg _ _ hstep]
  | case5 arg s s2 k ks hstep ih =>
    simp only [scan, hstep] at h
    rw [ih h, step_helpKeys s s2 arg _ _ hstep]

/-- What the loop of `parsePack` returns: the keys collected so far and then as many
keys as characters were read, each a declared key, all but the last without
argument; an inline value only after the key of an argument-bearing declaration. -/
theorem parsePackLoop_some (o : List (KeyAdapter V)) (pfx : Str) (cs : Str)
    (keys0 : List Str) (pack : KeyPack)
    (h : parsePackLoop o pfx cs keys0 = some pack) :
    ∃ ks, pack.keys = keys0 ++ ks ∧ ks.length ≤ cs.length ∧ (cs ≠ [] → ks ≠ []) ∧
      (∀ key ∈ ks, ∃ i d, findOption o key = some (i, d)) ∧
      FlagKeys o ks.dropLast ∧
      (pack.leftover ≠ [] →
        ∃ key i d, ks.getLast? = some key ∧ findOption o key = some (i, d) ∧
          d.hasArgument = true) := by
  induction cs generalizing keys0 with
  | nil =>
    simp only [parsePackLoop, Option.some.injEq] at h
    subst h
    exact ⟨[], by simp, by simp, by simp, by simp, by intro k hk; simp at hk, by simp⟩
  | cons c cs ih =>
    simp only [parsePackLoop] at h
    cases hf : findOption o (pfx ++ [c]) with
    | none => simp [hf] at h
    | some r =>
      obtain ⟨i, d⟩ := r
      simp only [hf] at h
      by_cases hcond : (d.hasArgument && !cs.isEmpty) = true
      · rw [if_pos hcond] at h
        simp only [Option.some.injEq] at h
        subst h
        simp only [Bool.and_eq_true, Bool.not_eq_true', List.isEmpty_eq_false] at hcond
        refine ⟨[pfx ++ [c]], rfl, by simp, by simp, ?_, by intro k hk; simp at hk, ?_⟩
        · intro key hkey
          simp only [List.mem_singleton] at hkey
          subst hkey
          exact ⟨i, d, hf⟩
        · intro _
          exact ⟨pfx ++ [c], i, d, rfl, hf, hcond.1⟩
      · rw [if_neg hcond] at h
        obtain ⟨ks, hk1, hk2, hk3, hk4, hk5, hk6⟩ := ih (keys0 ++ [pfx ++ [c]]) h
        refine ⟨(pfx ++ [c]) :: ks, by simp [hk1], by simp; omega, by simp, ?_, ?_, ?_⟩
        · intro key hkey
          rcases List.mem_cons.mp hkey with rfl | hkey
          · exact ⟨i, d, hf⟩
          · exact hk4 key hkey
        · cases ks with
          | nil => intro k hk; simp at hk
          | cons k1 ks1 =>
            have hcs : cs ≠ [] := by
              intro hcs; subst hcs; simp at hk2
            have hd : d.hasArgument = false := by
              cases hd : d.hasArgument with
              | false => rfl
              | true =>
                exfalso; apply hcond
                simp [hd, hcs]
            intro key hkey
            rw [List.dropLast_cons₂] at hkey
            rcases List.mem_cons.mp hkey with rfl | hkey
            · exact ⟨i, d, hf, hd⟩
            · exact hk5 key hkey
        · intro hl
          obtain ⟨key, i1, d1, hlast, hf1, hd1⟩ := hk6 hl
          refine ⟨key, i1, d1, ?_, hf1, hd1⟩
          cases ks with
          | nil => simp at hlast
          | cons k1 ks1 => rw [List.getLast?_cons_cons]; exact hlast

/-- What `parsePack` returns, when it returns a pack. -/
theorem parsePack_some (config : Config) (o : List (KeyAdapter V)) (arg : Str)
    (pack : KeyPack) (h : parsePack config o arg = some pack) :
    (∀ key ∈ pack.keys, ∃ i d, findOption o key = some (i, d)) ∧
    FlagKeys o pack.keys.dropLast ∧
    (pack.leftover ≠ [] →
      ∃ key i d, pack.keys.getLast? = some key ∧ findOption o key = some (i, d) ∧
        d.hasArgument = true) := by
  unfold parsePack at h
  split at h
  · cases h
  · split at h
    · cases h
    · obtain ⟨ks, hk1, _, _, hk4, hk5, hk6⟩ := parsePackLoop_some o _ _ [] pack h
      simp only [List.nil_append] at hk1
      rw [hk1]
      exact ⟨hk4, hk5, hk6⟩

/-- The pack branch on a pack with at least one key, all but the last keys without
argument and the last a declared key: the first keys are raised and the branch goes
on as on the last key alone. -/
theorem packBranch_nonempty (s : Scan V) (rest : List Str) (pack : KeyPack) (last : Str)
    (i : Nat) (d : KeyAdapter V)
    (hfirst : FlagKeys s.parser.options pack.keys.dropLast)
    (hlast : pack.keys.getLast? = some last)
    (hf : findOption s.parser.options last = some (i, d)) :
    ∃ o' d', raiseKeys s.parser.options pack.keys.dropLast = .ok o' ∧
      (∀ j : Nat, o'[j]? = (s.parser.options[j]?).map fun x =>
        if j ∈ foundIndices s.parser.options pack.keys.dropLast then x.raised else x) ∧
      findOption o' last = some (i, d') ∧ (d' = d ∨ d' = d.raised) ∧
      packBranch s rest pack
        = packBranch { s with parser := { s.parser with options := o' } } rest
            { keys := [last], leftover := pack.leftover } := by
  have hkeys : pack.keys.dropLast ++ [last] = pack.keys :=
    List.dropLast_append_getLast? last (by rw [hlast]; rfl)
  obtain ⟨o', d', h1, h2, h3, h4, h5⟩ :=
    packBranch_resolved s rest pack.keys.dropLast last pack.leftover i d hfirst hf
  refine ⟨o', d', h1, h2, h3, h4, ?_⟩
  rw [hkeys] at h5
  exact h5

/-- The exact-key branch does not throw. -/
theorem exactKeyBranch_ok (s : Scan V) (arg : Str) (rest : List Str) (i : Nat)
    (d : KeyAdapter V) : ∃ r, exactKeyBranch s arg rest i d = .ok r := by
  unfold exactKeyBranch
  cases hd : d.hasArgument with
  | true =>
    cases rest with
    | nil => simp
    | cons next tail =>
      obtain ⟨w, b, hw⟩ := addValue_ok_of_argument d next hd
      cases b <;> simp [hw]
  | false =>
    obtain ⟨r, hr⟩ := raise_ok_of_no_argument d hd
    simp [hr]

/-- The key=value branch does not throw. -/
theorem keyValueBranch_ok (s : Scan V) (pair : KeyValuePair) (i : Nat)
    (d : KeyAdapter V) : ∃ r, keyValueBranch s pair i d = .ok r := by
  unfold keyValueBranch
  cases hd : d.hasArgument with
  | true =>
    obtain ⟨w, b, hw⟩ := addValue_ok_of_argument d pair.value hd
    simp [hw]
  | false => simp

/-- The pack branch on a pack of one declared key does not throw. -/
theorem packBranch_single_ok (s : Scan V) (rest : List Str) (last leftover : Str)
    (i : Nat) (d : KeyAdapter V) (hf : findOption s.parser.options last = some (i, d)) :
    ∃ r, packBranch s rest { keys := [last], leftover := leftover } = .ok r := by
  cases hd : d.hasArgument with
  | false => exact ⟨_, packBranch_single_flag s rest last leftover i d hf hd⟩
  | true =>
    rw [packBranch_single_value s rest last leftover i d hf hd]
    cases hl : leftover.isEmpty with
    | false =>
      obtain ⟨w, b, hw⟩ := addValue_ok_of_argument d leftover hd
      cases b <;> simp [hw]
    | true =>
      cases rest with
      | nil => simp
      | cons next tail =>
        obtain ⟨w, b, hw⟩ := addValue_ok_of_argument d next hd
        cases b <;> simp [hw]

/-- The pack branch on what `parsePack` returned ends in a fault only for a pack
without keys, and then by the failed assertion. -/
theorem packBranch_fault (s : Scan V) (arg : Str) (rest : List Str) (pack : KeyPack)
    (f : Fault)
    (hp : parsePack s.parser.config s.parser.options arg = some pack)
    (h : packBranch s rest pack = .error f) : f = Fault.assertion ∧ pack.keys = [] := by
  cases hk : pack.keys with
  | nil =>
    simp [packBranch, hk] at h
    exact ⟨h.symm, rfl⟩
  | cons k ks =>
    exfalso
    obtain ⟨h1, h2, _⟩ := parsePack_some _ _ _ _ hp
    have hne : pack.keys ≠ [] := by rw [hk]; simp
    obtain ⟨last, hlast⟩ : ∃ last, pack.keys.getLast? = some last := by
      cases hl : pack.keys.getLast? with
      | none => exact absurd (List.getLast?_eq_none_iff.mp hl) hne
      | some last => exact ⟨last, rfl⟩
    obtain ⟨i, d, hf⟩ := h1 last (List.mem_of_getLast?_eq_some hlast)
    obtain ⟨o', d', _, _, hf', _, hpb⟩ := packBranch_nonempty s rest pack last i d h2 hlast hf
    obtain ⟨r, hr⟩ := packBranch_single_ok
      { s with parser := { s.parser with options := o' } } rest last pack.leftover i d' hf'
    rw [hpb, hr] at h
    cases h

/-- A pass ends in a fault only at a token for which `parsePack` returns a pack
without keys, and then by the failed assertion of the pack branch. -/
theorem step_fault (s : Scan V) (arg : Str) (rest : List Str) (f : Fault)
    (h : step s arg rest = .error f) :
    f = Fault.assertion ∧
      ∃ pack, parsePack s.parser.config s.parser.options arg = some pack ∧
        pack.keys = [] := by
  unfold step at h
  split at h
  · cases h
  · have hlater : packOrLater s arg rest = .error f →
        f = Fault.assertion ∧
          ∃ pack, parsePack s.parser.config s.parser.options arg = some pack ∧
            pack.keys = [] := by
      intro h2
      unfold packOrLater at h2
      cases hp : parsePack s.parser.config s.parser.options arg with
      | some pack =>
        simp only [hp] at h2
        obtain ⟨h3, h4⟩ := packBranch_fault s arg rest pack f hp h2
        exact ⟨h3, pack, rfl, h4⟩
      | none =>
        simp only [hp] at h2
        split at h2 <;> cases h2
    cases hf : findOption s.parser.options arg with
    | some r =>
      obtain ⟨i, d⟩ := r
      simp only [hf] at h
      obtain ⟨r, hr⟩ := exactKeyBranch_ok s arg rest i d
      rw [hr] at h
      cases h
    | none =>
      simp only [hf] at h
      unfold keyValueOrLater at h
      cases hkv : parseKeyValue s.parser.config arg with
      | none => simp only [hkv] at h; exact hlater h
      | some pair =>
        simp only [hkv] at h
        cases hf2 : findOption s.parser.options pair.key with
        | some r =>
          obtain ⟨i, d⟩ := r
          simp only [hf2] at h
          obtain ⟨r, hr⟩ := keyValueBranch_ok s pair i d
          rw [hr] at h
          cases h
        | none => simp only [hf2] at h; exact hlater h

/-- A scan ends in a fault only by the failed assertion of the pack branch. -/
theorem scan_fault (args : List Str) (s : Scan V) (f : Fault)
    (h : scan args s = .error f) : f = Fault.assertion := by
  induction args, s using scan.induct with
  | case1 s => simp [scan] at h
  | case2 arg rest s f1 hf =>
    simp only [scan, hf, Except.error.injEq] at h
    subst h
    exact (step_fault s arg rest _ hf).1
  | case3 arg rest s s1 hstep ih => simp only [scan, hstep] at h; exact ih h
  | case4 arg s s1 hstep => simp [scan, hstep] at h
  | case5 arg s s1 k ks hstep ih => simp only [scan, hstep] at h; exact ih h

/-- A scan of a parser without positionals leaves it without positionals. -/
theorem scan_arguments_nil (args : List Str) (s s1 : Scan V)
    (hnil : s.parser.arguments = []) (h : scan args s = .ok s1) :
    s1.parser.arguments = [] := by
  have hstep : ∀ (s s1 : Scan V) arg rest adv, s.parser.arguments = [] →
      step s arg rest = .ok (s1, adv) → s1.parser.arguments = [] := by
    intro s s1 arg rest adv hnil hs
    obtain ⟨h1, h2⟩ := step_arguments s s1 arg rest adv hs
    by_cases hc : classify s arg = Rule.positional
    · obtain ⟨a, ha, _⟩ := h2 hc
      rw [hnil] at ha
      simp at ha
    · rw [h1 hc, hnil]
  induction args, s using scan.induct with
  | case1 s => simp only [scan, Except.ok.injEq] at h; rw [← h]; exact hnil
  | case2 arg rest s f hf => simp [scan, hf] at h
  | case3 arg rest s s2 hs ih =>
    simp only [scan, hs] at h
    exact ih (hstep s s2 arg rest _ hnil hs) h
  | case4 arg s s2 hs =>
    simp only [scan, hs, Except.ok.injEq] at h
    rw [← h]; exact hstep s s2 arg _ _ hnil hs
  | case5 arg s s2 k ks hs ih =>
    simp only [scan, hs] at h
    exact ih (hstep s s2 arg _ _ hnil hs) h

/-- The exact-key branch steps over the next token only when there is one. -/
theorem exactKeyBranch_two (s s1 : Scan V) (arg : Str) (rest : List Str) (i : Nat)
    (d : KeyAdapter V) (h : exactKeyBranch s arg rest i d = .ok (s1, Advance.two)) :
    rest ≠ [] := by
  unfold exactKeyBranch at h
  repeat' split at h
  all_goals (cases h <;> simp)

/-- The key=value branch advances one token. -/
theorem keyValueBranch_one (s s1 : Scan V) (pair : KeyValuePair) (i : Nat)
    (d : KeyAdapter V) (adv : Advance) (h : keyValueBranch s pair i d = .ok (s1, adv)) :
    adv = Advance.one := by
  unfold keyValueBranch at h
  repeat' split at h
  all_goals (cases h <;> rfl)

/-- The pack branch steps over the next token only when there is one. -/
theorem packBranch_two (s s1 : Scan V) (rest : List Str) (pack : KeyPack)
    (h : packBranch s rest pack = .ok (s1, Advance.two)) : rest ≠ [] := by
  unfold packBranch at h
  by_cases he : pack.keys.isEmpty = true
  · simp [he] at h
  · rw [if_neg he] at h
    cases hr : raiseKeys s.parser.options pack.keys.dropLast with
    | error f => simp [hr] at h
    | ok options =>
      simp only [hr] at h
      cases hf : findOption options (pack.keys.getLastD []) with
      | none => simp only [hf, reduceCtorEq] at h
      | some r =>
        obtain ⟨i, lastOption⟩ := r
        simp only [hf] at h
        repeat' split at h
        all_goals (cases h <;> simp)

/-- A pass steps over the token after its own only when there is one. -/
theorem step_two_has_next (s s1 : Scan V) (arg : Str) (rest : List Str)
    (h : step s arg rest = .ok (s1, Advance.two)) : rest ≠ [] := by
  unfold step at h
  split at h
  · cases h
  · have hlater : packOrLater s arg rest = .ok (s1, Advance.two) → rest ≠ [] := by
      intro h2
      unfold packOrLater at h2
      split at h2
      · exact packBranch_two _ _ _ _ h2
      · split at h2
        · simp [positionalBranch] at h2
        · simp only [leftoverBranch] at h2
          split at h2 <;> cases h2
    split at h
    · exact exactKeyBranch_two _ _ _ _ _ _ h
    · unfold keyValueOrLater at h
      split at h
      · split at h
        · have := keyValueBranch_one _ _ _ _ _ _ h
          cases this
        · exact hlater h
      · exact hlater h

/-- A scan makes at most as many passes as there are tokens. -/
theorem trace_length_le (args : List Str) (s : Scan V) :
    (trace args s).length ≤ args.length := by
  induction args, s using scan.induct with
  | case1 s => simp [trace]
  | case2 arg rest s f hf => simp [trace_cons_error s arg rest f hf]
  | case3 arg rest s s1 hstep ih =>
    rw [trace_cons_one s s1 arg rest hstep]
    simp only [List.length_cons]
    omega
  | case4 arg s s1 hstep => simp [trace_single_two s s1 arg hstep]
  | case5 arg s s1 k ks hstep ih =>
    rw [trace_cons_two s s1 arg k ks hstep]
    simp only [List.length_cons]
    omega

/-- The exact-key rule claims a declared key that is no help key. -/
theorem classify_exactKey (s : Scan V) (arg : Str) (i : Nat) (d : KeyAdapter V)
    (hhelp : arg ∉ s.parser.helpKeys)
    (hfind : findOption s.parser.options arg = some (i, d)) :
    classify s arg = Rule.exactKey := by
  simp [classify, hhelp, hfind]

/-- The keys of the adapter `addValue` leaves. -/
theorem addValue_written_keys (d w : KeyAdapter V) (v : Str) (b : Bool)
    (h : d.addValue v = .ok (w, b)) : w.keys = d.keys :=
  (addValue_keys d w v b h).1

/-- Reading a list after a write at an index. -/
theorem getElem?_set_of {α : Type} (o : List α) (i j : Nat) (w d : α)
    (hj : o[j]? = some d) : (o.set i w)[j]? = some (if i = j then w else d) := by
  have hlen := (List.getElem?_eq_some.mp hj).1
  by_cases h : i = j
  · subst h
    simp [List.getElem?_set, hlen]
  · simp [List.getElem?_set, h, hj]

/-- The adapter `addValue` returned is `written`. -/
theorem written_of_addValue (d w : KeyAdapter V) (v : Str) (b : Bool)
    (h : d.addValue v = .ok (w, b)) : d.written v = w := by
  simp [KeyAdapter.written, h]

/-- The adapter `written` keeps the keys. -/
theorem written_keys (d : KeyAdapter V) (v : Str) : (d.written v).keys = d.keys := by
  cases d with
  | FlagAdapter ks hl val => rfl
  | MultiFlagAdapter ks hl c => rfl
  | OptionAdapter ks hl m r val set rd =>
    simp only [KeyAdapter.written, KeyAdapter.addValue]
    cases rd v <;> rfl
  | MultiOptionAdapter ks hl m vs rd =>
    simp only [KeyAdapter.written, KeyAdapter.addValue]
    cases rd v <;> rfl

/-- The adapter `written` takes an argument exactly when the adapter does. -/
theorem written_hasArgument (d : KeyAdapter V) (v : Str) :
    (d.written v).hasArgument = d.hasArgument := by
  cases d with
  | FlagAdapter ks hl val => rfl
  | MultiFlagAdapter ks hl c => rfl
  | OptionAdapter ks hl m r val set rd =>
    simp only [KeyAdapter.written, KeyAdapter.addValue]
    cases rd v <;> rfl
  | MultiOptionAdapter ks hl m vs rd =>
    simp only [KeyAdapter.written, KeyAdapter.addValue]
    cases rd v <;> rfl

/-- No call, no string handed over. -/
theorem offeredTo_nil (j : Nat) : offeredTo j [] = [] := rfl

/-- The strings handed over by two lists of calls in a row. -/
theorem offeredTo_append (j : Nat) (l1 l2 : List (Nat × Str)) :
    offeredTo j (l1 ++ l2) = offeredTo j l1 ++ offeredTo j l2 := by
  simp [offeredTo, List.filterMap_append]

/-- No call leaves the adapter as it is. -/
theorem writtenAll_nil (d : KeyAdapter V) : d.writtenAll [] = d := rfl

/-- The calls of two lists in a row. -/
theorem writtenAll_append (d : KeyAdapter V) (l1 l2 : List Str) :
    d.writtenAll (l1 ++ l2) = (d.writtenAll l1).writtenAll l2 := by
  simp [KeyAdapter.writtenAll, List.foldl_append]

/-- The calls `addValue` keep the kind of the adapter. -/
theorem writtenAll_hasArgument (d : KeyAdapter V) (l : List Str) :
    (d.writtenAll l).hasArgument = d.hasArgument := by
  induction l generalizing d with
  | nil => rfl
  | cons v l ih =>
    show ((d.written v).writtenAll l).hasArgument = _
    rw [ih, written_hasArgument]

/-- What a write at index `i` leaves at index `j` of an argument-bearing declaration,
`w` being what `addValue v` left of the declaration at `i`. -/
theorem setOption_written (s : Scan V) (i j : Nat) (option w d : KeyAdapter V) (v : Str)
    (b : Bool) (hi : s.parser.options[i]? = some option)
    (hj : s.parser.options[j]? = some d) (hw : option.addValue v = .ok (w, b)) :
    (s.setOption i w).parser.options[j]?
      = some (d.writtenAll (offeredTo j (some (i, v)).toList)) := by
  simp only [Scan.setOption]
  rw [getElem?_set_of _ i j w d hj]
  by_cases h : i = j
  · subst h
    rw [hi] at hj
    simp only [Option.some.injEq] at hj
    subst hj
    simp [offeredTo, KeyAdapter.writtenAll, written_of_addValue option w v b hw]
  · simp [offeredTo, KeyAdapter.writtenAll, h]

/-- A raise at index `i` leaves an argument-bearing declaration at index `j` alone. -/
theorem setOption_raised (s : Scan V) (i j : Nat) (option r d : KeyAdapter V)
    (hi : s.parser.options[i]? = some option) (hj : s.parser.options[j]? = some d)
    (hopt : option.hasArgument = false) (hd : d.hasArgument = true) :
    (s.setOption i r).parser.options[j]? = some d := by
  simp only [Scan.setOption]
  rw [getElem?_set_of _ i j r d hj]
  by_cases h : i = j
  · subst h
    rw [hi] at hj
    simp only [Option.some.injEq] at hj
    subst hj
    rw [hopt] at hd
    cases hd
  · simp [h]

/-- The exact-key branch at an argument-bearing declaration. -/
theorem exactKeyBranch_written (s s1 : Scan V) (arg : Str) (rest : List Str) (i j : Nat)
    (option d : KeyAdapter V) (adv : Advance)
    (h : exactKeyBranch s arg rest i option = .ok (s1, adv))
    (hi : s.parser.options[i]? = some option)
    (hj : s.parser.options[j]? = some d) (hd : d.hasArgument = true) :
    s1.parser.options[j]? = some (d.writtenAll (offeredTo j
      (if option.hasArgument then offeredNext i rest else none).toList)) := by
  unfold exactKeyBranch at h
  cases hopt : option.hasArgument with
  | false =>
    simp only [hopt, Bool.false_eq_true, if_false] at h ⊢
    obtain ⟨r, hr⟩ := raise_ok_of_no_argument option hopt
    simp only [hr, Except.ok.injEq, Prod.mk.injEq] at h
    obtain ⟨h, _⟩ := h
    subst h
    rw [setOption_raised s i j option r d hi hj hopt hd]
    rfl
  | true =>
    simp only [hopt, if_true] at h ⊢
    cases rest with
    | nil =>
      simp only [Except.ok.injEq, Prod.mk.injEq] at h
      obtain ⟨h, _⟩ := h
      subst h
      simpa [Scan.pushError, offeredTo, KeyAdapter.writtenAll] using hj
    | cons next tail =>
      obtain ⟨w, b, hw⟩ := addValue_ok_of_argument option next hopt
      have := setOption_written s i j option w d next b hi hj hw
      cases b <;> simp only [hw, Except.ok.injEq, Prod.mk.injEq] at h <;>
        obtain ⟨h, _⟩ := h <;> subst h <;> simpa [Scan.pushError] using this

/-- The key=value branch at an argument-bearing declaration. -/
theorem keyValueBranch_written (s s1 : Scan V) (pair : KeyValuePair) (i j : Nat)
    (option d : KeyAdapter V) (adv : Advance)
    (h : keyValueBranch s pair i option = .ok (s1, adv))
    (hi : s.parser.options[i]? = some option)
    (hj : s.parser.options[j]? = some d) :
    s1.parser.options[j]? = some (d.writtenAll (offeredTo j
      (if option.hasArgument then some (i, pair.value) else none : Option (Nat × Str)).toList))
    := by
  unfold keyValueBranch at h
  cases hopt : option.hasArgument with
  | false =>
    simp only [hopt, Bool.false_eq_true, if_false, Except.ok.injEq, Prod.mk.injEq] at h ⊢
    obtain ⟨h, _⟩ := h
    subst h
    simpa [Scan.pushError, offeredTo, KeyAdapter.writtenAll] using hj
  | true =>
    simp only [hopt, if_true] at h ⊢
    obtain ⟨w, b, hw⟩ := addValue_ok_of_argument option pair.value hopt
    have := setOption_written s i j option w d pair.value b hi hj hw
    simp only [hw, Except.ok.injEq, Prod.mk.injEq] at h
    obtain ⟨h, _⟩ := h
    subst h
    exact this

/-- The pack branch on a pack of one declared key, at an argument-bearing
declaration. -/
theorem packBranch_single_written (s s1 : Scan V) (rest : List Str) (last leftover : Str)
    (i j : Nat) (option d : KeyAdapter V) (adv : Advance)
    (hf : findOption s.parser.options last = some (i, option))
    (h : packBranch s rest { keys := [last], leftover := leftover } = .ok (s1, adv))
    (hj : s.parser.options[j]? = some d) (hd : d.hasArgument = true) :
    s1.parser.options[j]? = some (d.writtenAll (offeredTo j
      (if option.hasArgument then
        if !leftover.isEmpty then some (i, leftover) else offeredNext i rest
       else none).toList)) := by
  have hi := (findOption_some _ _ _ _ hf).1
  cases hopt : option.hasArgument with
  | false =>
    rw [packBranch_single_flag s rest last leftover i option hf hopt] at h
    simp only [Except.ok.injEq, Prod.mk.injEq] at h
    obtain ⟨h, _⟩ := h
    subst h
    rw [setOption_raised s i j option _ d hi hj hopt hd]
    rfl
  | true =>
    rw [packBranch_single_value s rest last leftover i option hf hopt] at h
    simp only [if_true]
    cases hl : leftover.isEmpty with
    | false =>
      simp only [hl, Bool.not_false, if_true] at h ⊢
      obtain ⟨w, b, hw⟩ := addValue_ok_of_argument option leftover hopt
      have := setOption_written s i j option w d leftover b hi hj hw
      cases b <;> simp only [hw, Except.ok.injEq, Prod.mk.injEq] at h <;>
        obtain ⟨h, _⟩ := h <;> subst h <;> simpa [Scan.pushError] using this
    | true =>
      simp only [hl, Bool.not_true, Bool.false_eq_true, if_false] at h ⊢
      cases rest with
      | nil =>
        simp only [Except.ok.injEq, Prod.mk.injEq] at h
        obtain ⟨h, _⟩ := h
        subst h
        simpa [Scan.pushError, offeredTo, KeyAdapter.writtenAll] using hj
      | cons next tail =>
        obtain ⟨w, b, hw⟩ := addValue_ok_of_argument option next hopt
        have := setOption_written s i j option w d next b hi hj hw
        cases b <;> simp only [hw, Except.ok.injEq, Prod.mk.injEq] at h <;>
          obtain ⟨h, _⟩ := h <;> subst h <;> simpa [Scan.pushError] using this

/-- The pack branch on what `parsePack` returned, at an argument-bearing
declaration. -/
theorem packBranch_written (s s1 : Scan V) (arg : Str) (rest : List Str) (pack : KeyPack)
    (j : Nat) (d : KeyAdapter V) (adv : Advance)
    (hp : parsePack s.parser.config s.parser.options arg = some pack)
    (h : packBranch s rest pack = .ok (s1, adv))
    (hj : s.parser.options[j]? = some d) (hd : d.hasArgument = true) :
    s1.parser.options[j]?
      = some (d.writtenAll (offeredTo j (offeredLast s.parser.options rest pack).toList)) := by
  have hne : pack.keys ≠ [] := by
    intro hk
    simp [packBranch, hk] at h
  obtain ⟨h1, h2, _⟩ := parsePack_some _ _ _ _ hp
  obtain ⟨last, hlast⟩ : ∃ last, pack.keys.getLast? = some last := by
    cases hl : pack.keys.getLast? with
    | none => exact absurd (List.getLast?_eq_none_iff.mp hl) hne
    | some last => exact ⟨last, rfl⟩
  obtain ⟨i, option, hf⟩ := h1 last (List.mem_of_getLast?_eq_some hlast)
  obtain ⟨o', d', _, hpt, hf', hd', hpb⟩ :=
    packBranch_nonempty s rest pack last i option h2 hlast hf
  rw [hpb] at h
  have hj' : ({ s with parser := { s.parser with options := o' } } : Scan V).parser.options[j]?
      = some d := by
    show o'[j]? = some d
    rw [hpt j, hj]
    simp only [Option.map_some', Option.some.injEq]
    split
    · exact raised_of_hasArgument d hd
    · rfl
  have hres := packBranch_single_written _ s1 rest last pack.leftover i j d' d adv hf' h hj' hd
  have hargs : d'.hasArgument = option.hasArgument := by
    rcases hd' with rfl | rfl
    · rfl
    · exact raised_hasArgument option
  have hback : pack.keys.getLastD [] = last := by
    rw [List.getLastD_eq_getLast?, hlast]
    rfl
  rw [hres, hargs]
  simp only [offeredLast, hback, hf]

/-- The pack rule and the rules after it, at an argument-bearing declaration. -/
theorem packOrLater_written (s s1 : Scan V) (arg : Str) (rest : List Str)
    (j : Nat) (d : KeyAdapter V) (adv : Advance)
    (h : packOrLater s arg rest = .ok (s1, adv))
    (hj : s.parser.options[j]? = some d) (hd : d.hasArgument = true) :
    s1.parser.options[j]?
      = some (d.writtenAll (offeredTo j (offeredPack s arg rest).toList)) := by
  unfold packOrLater at h
  unfold offeredPack
  cases hp : parsePack s.parser.config s.parser.options arg with
  | some pack =>
    simp only [hp] at h ⊢
    exact packBranch_written s s1 arg rest pack j d adv hp h hj hd
  | none =>
    simp only [hp] at h ⊢
    have hsame : s1.parser.options = s.parser.options := by
      split at h
      · simp only [positionalBranch, Except.ok.injEq, Prod.mk.injEq] at h
        obtain ⟨h, _⟩ := h
        subst h
        split <;> split <;> rfl
      · simp only [leftoverBranch, Except.ok.injEq] at h
        split at h <;> simp only [Prod.mk.injEq] at h <;> obtain ⟨h, _⟩ := h <;> subst h <;> rfl
    rw [hsame, hj]
    rfl

/-- What a pass leaves of an argument-bearing declaration: the declaration after the
`addValue` call the pass makes on it, if it makes one, and the declaration as it was
otherwise. -/
theorem step_written (s s1 : Scan V) (arg : Str) (rest : List Str) (adv : Advance)
    (j : Nat) (d : KeyAdapter V)
    (h : step s arg rest = .ok (s1, adv))
    (hj : s.parser.options[j]? = some d) (hd : d.hasArgument = true) :
    s1.parser.options[j]?
      = some (d.writtenAll (offeredTo j (offered s arg rest).toList)) := by
  unfold step at h
  unfold offered
  by_cases hhelp : arg ∈ s.parser.helpKeys
  · simp only [hhelp, if_true, Except.ok.injEq, Prod.mk.injEq] at h ⊢
    obtain ⟨h, _⟩ := h
    subst h
    simpa [offeredTo, KeyAdapter.writtenAll] using hj
  · simp only [hhelp, if_false] at h ⊢
    cases hf : findOption s.parser.options arg with
    | some r =>
      obtain ⟨i, option⟩ := r
      simp only [hf] at h ⊢
      exact exactKeyBranch_written s s1 arg rest i j option d adv h
        (findOption_some _ _ _ _ hf).1 hj hd
    | none =>
      simp only [hf] at h ⊢
      unfold keyValueOrLater at h
      cases hkv : parseKeyValue s.parser.config arg with
      | none =>
        simp only [hkv] at h ⊢
        exact packOrLater_written s s1 arg rest j d adv h hj hd
      | some pair =>
        simp only [hkv] at h ⊢
        cases hf2 : findOption s.parser.options pair.key with
        | some r =>
          obtain ⟨i, option⟩ := r
          simp only [hf2] at h ⊢
          exact keyValueBranch_written s s1 pair i j option d adv h
            (findOption_some _ _ _ _ hf2).1 hj
        | none =>
          simp only [hf2] at h ⊢
          exact packOrLater_written s s1 arg rest j d adv h hj hd

/-- The calls of a scan whose first pass advances by one token. -/
theorem valueOffers_cons_one (s s1 : Scan V) (arg : Str) (rest : List Str)
    (h : step s arg rest = .ok (s1, Advance.one)) :
    valueOffers (arg :: rest) s = (offered s arg rest).toList ++ valueOffers rest s1 := by
  simp [valueOffers, h]

/-- The calls of a scan whose first pass steps over the next token. -/
theorem valueOffers_cons_two (s s1 : Scan V) (arg k : Str) (ks : List Str)
    (h : step s arg (k :: ks) = .ok (s1, Advance.two)) :
    valueOffers (arg :: k :: ks) s = (offered s arg (k :: ks)).toList ++ valueOffers ks s1 := by
  simp [valueOffers, h]

/-- The calls of a scan of one token. -/
theorem valueOffers_single_two (s s1 : Scan V) (arg : Str)
    (h : step s arg [] = .ok (s1, Advance.two)) :
    valueOffers [arg] s = (offered s arg []).toList := by
  simp [valueOffers, h]

/-- What a scan leaves of an argument-bearing declaration: the declaration after the
`addValue` calls the passes made on it, in order. -/
theorem scan_written (args : List Str) (s s1 : Scan V) (j : Nat) (d : KeyAdapter V)
    (h : scan args s = .ok s1)
    (hj : s.parser.options[j]? = some d) (hd : d.hasArgument = true) :
    s1.parser.options[j]? = some (d.writtenAll (offeredTo j (valueOffers args s))) := by
  induction args, s using scan.induct generalizing d with
  | case1 s =>
    simp only [scan, Except.ok.injEq] at h
    subst h
    simpa [valueOffers, offeredTo, KeyAdapter.writtenAll] using hj
  | case2 arg rest s f hf => simp [scan, hf] at h
  | case3 arg rest s s2 hstep ih =>
    simp only [scan, hstep] at h
    have h2 := step_written s s2 arg rest _ j d hstep hj hd
    rw [valueOffers_cons_one s s2 arg rest hstep, offeredTo_append, writtenAll_append]
    exact ih _ h h2 (by rw [writtenAll_hasArgument]; exact hd)
  | case4 arg s s2 hstep =>
    simp only [scan, hstep, Except.ok.injEq] at h
    subst h
    rw [valueOffers_single_two s s2 arg hstep]
    exact step_written s s2 arg [] _ j d hstep hj hd
  | case5 arg s s2 k ks hstep ih =>
    simp only [scan, hstep] at h
    have h2 := step_written s s2 arg (k :: ks) _ j d hstep hj hd
    rw [valueOffers_cons_two s s2 arg k ks hstep, offeredTo_append, writtenAll_append]
    exact ih _ h h2 (by rw [writtenAll_hasArgument]; exact hd)

/-- An option after a list of `addValue` calls: it holds the last converted string,
and is set if it was or if some string converted. -/
theorem writtenAll_option (ks : List Str) (hl m : Str) (r : Bool) (v : V) (set : Bool)
    (rd : Str → Option V) (l : List Str) :
    (KeyAdapter.OptionAdapter ks hl m r v set rd).writtenAll l
      = .OptionAdapter ks hl m r ((l.filterMap rd).getLastD v)
          (set || !(l.filterMap rd).isEmpty) rd := by
  induction l generalizing v set with
  | nil => simp [KeyAdapter.writtenAll]
  | cons a l ih =>
    show ((KeyAdapter.OptionAdapter ks hl m r v set rd).written a).writtenAll l = _
    simp only [KeyAdapter.written, KeyAdapter.addValue]
    cases ha : rd a with
    | none => simp [ih, ha]
    | some x =>
      simp only [ih, ha, List.filterMap_cons, List.getLastD_cons, List.isEmpty_cons,
        Bool.not_false, Bool.or_true, Bool.true_or]

/-- No pass changes the configuration. -/
theorem step_config (s s1 : Scan V) (arg : Str) (rest : List Str) (adv : Advance)
    (h : step s arg rest = .ok (s1, adv)) : s1.parser.config = s.parser.config := by
  have hr := step_by_rule s s1 arg rest adv h
  cases hc : classify s arg <;> rw [hc] at hr <;> simp only at hr
  · obtain ⟨rfl, _⟩ := hr
    rfl
  · exact hr.1
  · exact hr.1
  · exact hr.1
  · obtain ⟨a, ha, hb⟩ := hr
    simp only [positionalBranch, Prod.mk.injEq] at hb
    obtain ⟨hb, _⟩ := hb
    subst hb
    cases hm : a.multi <;> cases hw : (a.addValue arg).2 <;> simp [hm, hw, Scan.pushError]
  · obtain ⟨_, hb⟩ := hr
    simp only [leftoverBranch] at hb
    split at hb <;> simp only [Prod.mk.injEq] at hb <;> obtain ⟨hb, _⟩ := hb <;> subst hb <;>
      simp [Scan.pushError]

/-- The keys `parsePackLoop` adds are the prefix followed by one character of the
text it reads. -/
theorem parsePackLoop_keys_form (o : List (KeyAdapter V)) (pfx cs : Str) (keys0 : List Str)
    (pack : KeyPack) (h : parsePackLoop o pfx cs keys0 = some pack) :
    ∀ k ∈ pack.keys, k ∈ keys0 ∨ ∃ c ∈ cs, k = pfx ++ [c] := by
  induction cs generalizing keys0 with
  | nil =>
    simp only [parsePackLoop, Option.some.injEq] at h
    subst h
    intro k hk
    exact Or.inl hk
  | cons c cs ih =>
    simp only [parsePackLoop] at h
    cases hf : findOption o (pfx ++ [c]) with
    | none => simp [hf] at h
    | some r =>
      obtain ⟨i, d⟩ := r
      simp only [hf] at h
      split at h
      · simp only [Option.some.injEq] at h
        subst h
        intro k hk
        simp only [List.mem_append, List.mem_singleton] at hk
        rcases hk with hk | hk
        · exact Or.inl hk
        · exact Or.inr ⟨c, by simp, hk⟩
      · intro k hk
        rcases ih _ h k hk with h1 | ⟨c1, hc1, hk1⟩
        · simp only [List.mem_append, List.mem_singleton] at h1
          rcases h1 with h1 | h1
          · exact Or.inl h1
          · exact Or.inr ⟨c, by simp, h1⟩
        · exact Or.inr ⟨c1, by simp [hc1], hk1⟩

/-- The keys of a pack are the pack prefix followed by one character of the token. -/
theorem parsePack_keys_form (config : Config) (o : List (KeyAdapter V)) (arg : Str)
    (pack : KeyPack) (h : parsePack config o arg = some pack) :
    ∀ k ∈ pack.keys, ∃ c ∈ arg, k = config.packPrefix ++ [c] := by
  unfold parsePack at h
  split at h
  · cases h
  · split at h
    · cases h
    · intro k hk
      rcases parsePackLoop_keys_form o _ _ _ pack h k hk with h1 | ⟨c, hc, hk1⟩
      · cases h1
      · exact ⟨c, List.mem_of_mem_drop hc, hk1⟩

/-- The declaration a pass calls `addValue` on has a key that starts the token, or
that is the pack prefix followed by a character of the token. -/
theorem offered_addresses (s : Scan V) (arg : Str) (rest : List Str) (i : Nat) (v : Str)
    (h : offered s arg rest = some (i, v)) :
    ∃ option, s.parser.options[i]? = some option ∧
      ∃ k ∈ option.keys, k <+: arg ∨ ∃ c ∈ arg, k = s.parser.config.packPrefix ++ [c] := by
  have hpack : offeredPack s arg rest = some (i, v) →
      ∃ option, s.parser.options[i]? = some option ∧
        ∃ k ∈ option.keys, k <+: arg ∨ ∃ c ∈ arg, k = s.parser.config.packPrefix ++ [c] := by
    intro h2
    unfold offeredPack at h2
    cases hp : parsePack s.parser.config s.parser.options arg with
    | none => simp [hp] at h2
    | some pack =>
      simp only [hp, offeredLast] at h2
      cases hf : findOption s.parser.options (pack.keys.getLastD []) with
      | none => simp only [hf, reduceCtorEq] at h2
      | some r =>
        obtain ⟨i1, d⟩ := r
        simp only [hf] at h2
        obtain ⟨h3, h4, _⟩ := findOption_some _ _ _ _ hf
        have hi : i1 = i := by
          cases hda : d.hasArgument with
          | false => simp [hda] at h2
          | true =>
            cases hle : pack.leftover.isEmpty with
            | false =>
              simp only [hda, hle, Bool.not_false, if_true, Option.some.injEq,
                Prod.mk.injEq] at h2
              exact h2.1
            | true =>
              cases rest with
              | nil => simp [hda, hle, offeredNext] at h2
              | cons next tail =>
                simp only [hda, hle, Bool.not_true, Bool.false_eq_true, if_false, if_true,
                  offeredNext, Option.some.injEq, Prod.mk.injEq] at h2
                exact h2.1
        subst hi
        refine ⟨d, h3, pack.keys.getLastD [], h4, ?_⟩
        cases hl : pack.keys.getLast? with
        | none =>
          rw [List.getLastD_eq_getLast?, hl]
          exact Or.inl List.nil_prefix
        | some last =>
          rw [List.getLastD_eq_getLast?, hl]
          exact Or.inr (parsePack_keys_form _ _ _ _ hp last (List.mem_of_getLast?_eq_some hl))
  unfold offered at h
  split at h
  · cases h
  · cases hf : findOption s.parser.options arg with
    | some r =>
      obtain ⟨i1, d⟩ := r
      simp only [hf] at h
      obtain ⟨h3, h4, _⟩ := findOption_some _ _ _ _ hf
      split at h
      · cases rest with
        | nil => simp [offeredNext] at h
        | cons next tail =>
          simp only [offeredNext, Option.some.injEq, Prod.mk.injEq] at h
          obtain ⟨rfl, _⟩ := h
          exact ⟨d, h3, arg, h4, Or.inl (List.prefix_refl _)⟩
      · cases h
    | none =>
      simp only [hf] at h
      cases hkv : parseKeyValue s.parser.config arg with
      | none => simp only [hkv] at h; exact hpack h
      | some pair =>
        simp only [hkv] at h
        cases hf2 : findOption s.parser.options pair.key with
        | none => simp only [hf2] at h; exact hpack h
        | some r =>
          obtain ⟨i1, d⟩ := r
          simp only [hf2] at h
          obtain ⟨h3, h4, _⟩ := findOption_some _ _ _ _ hf2
          split at h
          · simp only [Option.some.injEq, Prod.mk.injEq] at h
            obtain ⟨rfl, _⟩ := h
            refine ⟨d, h3, pair.key, h4, Or.inl ?_⟩
            unfold parseKeyValue at hkv
            split at hkv
            · cases hkv
            · split at hkv
              · cases hkv
              · simp only [Option.some.injEq] at hkv
                rw [← hkv]
                exact List.take_prefix _ _
          · cases h

/-- A declaration none of whose keys starts the token or is a pack key of one of its
characters is not called by the pass. -/
theorem offered_absent (s : Scan V) (arg : Str) (rest : List Str) (j : Nat)
    (d : KeyAdapter V) (hj : s.parser.options[j]? = some d)
    (habs : ∀ k ∈ d.keys, ¬ k <+: arg ∧ ∀ c ∈ arg, k ≠ s.parser.config.packPrefix ++ [c]) :
    offeredTo j (offered s arg rest).toList = [] := by
  cases ho : offered s arg rest with
  | none => rfl
  | some r =>
    obtain ⟨i, v⟩ := r
    by_cases hij : i = j
    · exfalso
      subst hij
      obtain ⟨option, h1, k, hk, h2⟩ := offered_addresses s arg rest i v ho
      rw [hj] at h1
      simp only [Option.some.injEq] at h1
      subst h1
      obtain ⟨h3, h4⟩ := habs k hk
      rcases h2 with h2 | ⟨c, hc, h2⟩
      · exact h3 h2
      · exact h4 c hc h2
    · simp [offeredTo, hij]

/-- A scan over tokens none of which a key of the declaration starts, or has as the
pack key of one of its characters, makes no `addValue` call on the declaration. -/
theorem valueOffers_absent (args : List Str) (s : Scan V) (j : Nat) (d : KeyAdapter V)
    (hj : s.parser.options[j]? = some d) (hd : d.hasArgument = true)
    (habs : ∀ tok ∈ args, ∀ k ∈ d.keys,
      ¬ k <+: tok ∧ ∀ c ∈ tok, k ≠ s.parser.config.packPrefix ++ [c]) :
    offeredTo j (valueOffers args s) = [] := by
  induction args, s using scan.induct with
  | case1 s => rfl
  | case2 arg rest s f hf =>
    have h0 := offered_absent s arg rest j d hj (habs arg (by simp))
    simp [valueOffers, hf, h0]
  | case3 arg rest s s1 hstep ih =>
    have h0 := offered_absent s arg rest j d hj (habs arg (by simp))
    have h1 := step_written s s1 arg rest _ j d hstep hj hd
    rw [h0] at h1
    rw [valueOffers_cons_one s s1 arg rest hstep, offeredTo_append, h0, List.nil_append]
    apply ih h1
    rw [step_config s s1 arg rest _ hstep]
    intro tok htok
    exact habs tok (by simp [htok])
  | case4 arg s s1 hstep =>
    rw [valueOffers_single_two s s1 arg hstep]
    exact offered_absent s arg [] j d hj (habs arg (by simp))
  | case5 arg s s1 k ks hstep ih =>
    have h0 := offered_absent s arg (k :: ks) j d hj (habs arg (by simp))
    have h1 := step_written s s1 arg (k :: ks) _ j d hstep hj hd
    rw [h0] at h1
    rw [valueOffers_cons_two s s1 arg k ks hstep, offeredTo_append, h0, List.nil_append]
    apply ih h1
    rw [step_config s s1 arg _ _ hstep]
    intro tok htok
    exact habs tok (by simp [htok])

/-- A required keyed declaration that is not set is among the missing ones. -/
theorem mem_missingOptions (options : List (KeyAdapter V)) (j : Nat) (d : KeyAdapter V)
    (hj : options[j]? = some d) (hr : d.isRequired = true) (hs : d.isSet = .ok false) :
    Error.RequiredOptionNotSet d.keyString ∈ missingOptions options := by
  simp only [missingOptions, List.mem_map, List.mem_filter]
  exact ⟨d, ⟨List.getElem?_mem hj, by simp [hr, hs, notSet]⟩, rfl⟩

/-- The loop over the positionals keeps the diagnostics it starts from. -/
theorem requiredArguments_keeps (arguments : List (ArgumentAdapter V))
    (errors final : List Error) (h : requiredArguments arguments errors = .ok final) :
    ∀ e ∈ errors, e ∈ final := by
  induction arguments generalizing errors with
  | nil =>
    simp only [requiredArguments, Except.ok.injEq] at h
    subst h
    exact fun e he => he
  | cons a arguments ih =>
    simp only [requiredArguments] at h
    intro e he
    repeat' split at h
    all_goals first
      | cases h
      | exact ih _ h e he
      | exact ih _ h e (List.mem_append.mpr (Or.inl he))

/-- The relation `sameDecl` is symmetric. -/
theorem sameDecl_symm (a b : KeyAdapter V) (h : sameDecl a b) : sameDecl b a := by
  cases a <;> cases b <;> simp_all [sameDecl]

/-- The relation `sameDecl` is transitive. -/
theorem sameDecl_trans (a b c : KeyAdapter V) (h1 : sameDecl a b) (h2 : sameDecl b c) :
    sameDecl a c := by
  cases a <;> cases b <;> simp only [sameDecl] at h1 <;> cases c <;>
    simp_all [sameDecl]

/-- An adapter related to another is related to itself. -/
theorem sameDecl_left (a b : KeyAdapter V) (h : sameDecl a b) : sameDecl a a := by
  cases a <;> cases b <;> simp_all [sameDecl]

/-- A non-multi adapter is related to itself. -/
theorem sameDecl_of_not_multi (a : KeyAdapter V) (h : a.isMulti = false) : sameDecl a a := by
  cases a <;> simp_all [sameDecl, KeyAdapter.isMulti]

/-- Adapters of the same declaration have the same keys. -/
theorem sameDecl_keys (a b : KeyAdapter V) (h : sameDecl a b) : b.keys = a.keys := by
  cases a <;> cases b <;> simp_all [sameDecl, KeyAdapter.keys]

/-- Adapters of the same declaration are of the same kind. -/
theorem sameDecl_hasArgument (a b : KeyAdapter V) (h : sameDecl a b) :
    b.hasArgument = a.hasArgument := by
  cases a <;> cases b <;> simp_all [sameDecl, KeyAdapter.hasArgument]

/-- Adapters of the same declaration have the same key string. -/
theorem sameDecl_keyString (a b : KeyAdapter V) (h : sameDecl a b) :
    b.keyString = a.keyString := by
  simp only [KeyAdapter.keyString, sameDecl_keys a b h]

/-- Raising two adapters of the same declaration leaves the same adapter. -/
theorem sameDecl_raise (a b r : KeyAdapter V) (h : sameDecl a b) (hr : a.raise = .ok r) :
    b.raise = .ok r ∧ sameDecl a r := by
  cases a <;> cases b <;> simp only [sameDecl] at h <;>
    simp only [KeyAdapter.raise, Except.ok.injEq, reduceCtorEq] at hr
  · subst hr
    obtain ⟨rfl, rfl⟩ := h
    simp [KeyAdapter.raise, sameDecl]

/-- Raised adapters of the same flag are equal. -/
theorem sameDecl_raised (a b : KeyAdapter V) (h : sameDecl a b)
    (ha : a.hasArgument = false) : b.raised = a.raised ∧ sameDecl a a.raised := by
  obtain ⟨r, hr⟩ := raise_ok_of_no_argument a ha
  obtain ⟨h1, h2⟩ := sameDecl_raise a b r h hr
  have e1 : b.raised = r := by simp [KeyAdapter.raised, h1]
  have e2 : a.raised = r := by simp [KeyAdapter.raised, hr]
  rw [e1, e2]
  exact ⟨rfl, h2⟩

/-- The call `addValue` on two adapters of the same declaration: both convert and
leave the same adapter, or both fail and stay as they were. -/
theorem sameDecl_addValue (a b w : KeyAdapter V) (v : Str) (c : Bool) (h : sameDecl a b)
    (hw : a.addValue v = .ok (w, c)) :
    sameDecl a w ∧
      ((c = true ∧ b.addValue v = .ok (w, true)) ∨
       (c = false ∧ w = a ∧ b.addValue v = .ok (b, false))) := by
  cases a <;> cases b <;> simp only [sameDecl] at h <;>
    simp only [KeyAdapter.addValue, reduceCtorEq] at hw
  · rename_i ks hl m r val set rd ks1 hl1 m1 r1 val1 set1 rd1
    obtain ⟨rfl, rfl, rfl, rfl, rfl⟩ := h
    simp only [KeyAdapter.addValue]
    cases hv : rd v with
    | none =>
      simp only [hv, Except.ok.injEq, Prod.mk.injEq] at hw
      obtain ⟨rfl, rfl⟩ := hw
      exact ⟨⟨rfl, rfl, rfl, rfl, rfl⟩, Or.inr ⟨rfl, rfl, rfl⟩⟩
    | some x =>
      simp only [hv, Except.ok.injEq, Prod.mk.injEq] at hw
      obtain ⟨rfl, rfl⟩ := hw
      exact ⟨⟨rfl, rfl, rfl, rfl, rfl⟩, Or.inl ⟨rfl, rfl⟩⟩

/-- A list similar to another is similar to itself. -/
theorem alike_refl_of (o t : List (KeyAdapter V)) (h : Alike o t) : Alike o o := by
  refine ⟨rfl, ?_⟩
  intro j a b ha hb
  rw [ha] at hb
  simp only [Option.some.injEq] at hb
  subst hb
  have hlt := (List.getElem?_eq_some.mp ha).1
  rw [← h.1] at hlt
  exact sameDecl_left a _ (h.2 j a (t[j]) ha (List.getElem?_eq_getElem hlt))

/-- The relation `Alike` is symmetric. -/
theorem alike_symm (o t : List (KeyAdapter V)) (h : Alike o t) : Alike t o :=
  ⟨h.1.symm, fun j a b ha hb => sameDecl_symm b a (h.2 j b a hb ha)⟩

/-- The relation `Alike` is transitive. -/
theorem alike_trans (o t u : List (KeyAdapter V)) (h1 : Alike o t) (h2 : Alike t u) :
    Alike o u := by
  refine ⟨h2.1.trans h1.1, ?_⟩
  intro j a c ha hc
  have hlt := (List.getElem?_eq_some.mp ha).1
  rw [← h1.1] at hlt
  have hb : t[j]? = some (t[j]) := List.getElem?_eq_getElem hlt
  exact sameDecl_trans a _ c (h1.2 j a _ ha hb) (h2.2 j _ c hb hc)

/-- Similar lists have the same key lists. -/
theorem alike_keys (o t : List (KeyAdapter V)) (h : Alike o t) :
    t.map KeyAdapter.keys = o.map KeyAdapter.keys := by
  apply List.ext_getElem?
  intro j
  rw [List.getElem?_map, List.getElem?_map]
  cases ho : o[j]? with
  | none =>
    have : t[j]? = none := by
      rw [List.getElem?_eq_none_iff] at ho ⊢
      rw [h.1]; exact ho
    rw [this]
  | some a =>
    have hlt := (List.getElem?_eq_some.mp ho).1
    rw [← h.1] at hlt
    have hb : t[j]? = some (t[j]) := List.getElem?_eq_getElem hlt
    rw [hb]
    simp [sameDecl_keys a _ (h.2 j a _ ho hb)]

/-- Similar lists answer `findOption` at the same index with adapters of the same
declaration. -/
theorem alike_find (o t : List (KeyAdapter V)) (key : Str) (i : Nat) (a : KeyAdapter V)
    (h : Alike o t) (hf : findOption o key = some (i, a)) :
    ∃ b, findOption t key = some (i, b) ∧ t[i]? = some b ∧ sameDecl a b := by
  obtain ⟨b, h1, h2⟩ := findOption_congr o t key i a (alike_keys o t h) hf
  exact ⟨b, h1, h2, h.2 i a b (findOption_some o key i a hf).1 h2⟩

/-- Similar lists miss the same keys. -/
theorem alike_find_none (o t : List (KeyAdapter V)) (key : Str)
    (h : Alike o t) (hf : findOption o key = none) : findOption t key = none :=
  findOption_congr_none o t key (alike_keys o t h) hf

/-- The loop of `parsePack` does not tell similar lists apart. -/
theorem alike_parsePackLoop (o t : List (KeyAdapter V)) (pfx cs : Str) (keys : List Str)
    (h : Alike o t) : parsePackLoop t pfx cs keys = parsePackLoop o pfx cs keys := by
  induction cs generalizing keys with
  | nil => rfl
  | cons c cs ih =>
    simp only [parsePackLoop]
    cases hf : findOption o (pfx ++ [c]) with
    | none => rw [alike_find_none o t _ h hf]
    | some r =>
      obtain ⟨i, a⟩ := r
      obtain ⟨b, h1, _, h3⟩ := alike_find o t _ i a h hf
      rw [h1]
      simp only [sameDecl_hasArgument a b h3, ih]

/-- The function `parsePack` does not tell similar lists apart. -/
theorem alike_parsePack (config : Config) (o t : List (KeyAdapter V)) (arg : Str)
    (h : Alike o t) : parsePack config t arg = parsePack config o arg := by
  simp only [parsePack, alike_parsePackLoop o t _ _ _ h]

/-- Writes of adapters of the same declaration at the same index keep lists similar. -/
theorem alike_set (o t : List (KeyAdapter V)) (i : Nat) (w w1 : KeyAdapter V)
    (h : Alike o t) (hw : sameDecl w w1) : Alike (o.set i w) (t.set i w1) := by
  refine ⟨by simp [h.1], ?_⟩
  intro j a b ha hb
  rw [List.getElem?_set] at ha hb
  by_cases hij : i = j
  · simp only [hij, if_true] at ha hb
    split at ha
    · split at hb
      · simp only [Option.some.injEq] at ha hb
        subst ha; subst hb
        exact hw
      · cases hb
    · cases ha
  · simp only [hij, if_false] at ha hb
    exact h.2 j a b ha hb

/-- A list after a write of an adapter of the same declaration at an index. -/
theorem alike_set_right (o : List (KeyAdapter V)) (i : Nat) (a w : KeyAdapter V)
    (h : Alike o o) (hi : o[i]? = some a) (hw : sameDecl a w) : Alike o (o.set i w) := by
  have := alike_set o o i a w h hw
  rw [set_of_getElem? o i a hi] at this
  exact this

/-- The same write at the same index of two lists of the same length. -/
theorem touched_set (o t : List (KeyAdapter V)) (i : Nat) (w : KeyAdapter V)
    (hlen : t.length = o.length) : Touched o (o.set i w) t (t.set i w) := by
  intro j
  by_cases hij : i = j
  · left
    simp [List.getElem?_set, hij, hlen]
  · right
    simp [List.getElem?_set, hij]

/-- Nothing written: every index was left alone. -/
theorem touched_refl (o t : List (KeyAdapter V)) : Touched o o t t :=
  fun _ => Or.inr ⟨rfl, rfl⟩

/-- Two stages in a row. -/
theorem touched_trans (o o1 o2 t t1 t2 : List (KeyAdapter V))
    (h1 : Touched o o1 t t1) (h2 : Touched o1 o2 t1 t2) : Touched o o2 t t2 := by
  intro j
  rcases h2 j with h | ⟨ha, hb⟩
  · exact Or.inl h
  · rcases h1 j with h | ⟨hc, hd⟩
    · exact Or.inl (by rw [ha, hb, h])
    · exact Or.inr ⟨by rw [ha, hc], by rw [hb, hd]⟩

/-- Similar states agree with themselves. -/
theorem agree_refl (s t : Scan V) (h : Sim s t) : Agree s s t t :=
  ⟨h, alike_refl_of _ _ h.2.2.2.2.2.2, alike_refl_of _ _ (alike_symm _ _ h.2.2.2.2.2.2),
    touched_refl _ _⟩

/-- Two stages that went the same way, in a row. -/
theorem agree_trans (s s1 s2 t t1 t2 : Scan V) (h1 : Agree s s1 t t1)
    (h2 : Agree s1 s2 t1 t2) : Agree s s2 t t2 :=
  ⟨h2.1, alike_trans _ _ _ h1.2.1 h2.2.1, alike_trans _ _ _ h1.2.2.1 h2.2.2.1,
    touched_trans _ _ _ _ _ _ h1.2.2.2 h2.2.2.2⟩

/-- Both passes append the same diagnostic. -/
theorem agree_pushError (s s1 t t1 : Scan V) (e : Error) (h : Agree s s1 t t1) :
    Agree s (s1.pushError e) t (t1.pushError e) := by
  obtain ⟨⟨h1, h2, h3, h4, h5, h6, h7⟩, h8, h9, h10⟩ := h
  refine ⟨⟨h1, h2, h3, h4, ?_, h6, h7⟩, h8, h9, h10⟩
  simp [Scan.pushError, h5]

/-- Both passes write the same adapter at the same index. -/
theorem agree_setOption (s t : Scan V) (i : Nat) (a b w : KeyAdapter V) (h : Sim s t)
    (hi : s.parser.options[i]? = some a) (hj : t.parser.options[i]? = some b)
    (haw : sameDecl a w) : Agree s (s.setOption i w) t (t.setOption i w) := by
  obtain ⟨h1, h2, h3, h4, h5, h6, h7⟩ := h
  have hab := h7.2 i a b hi hj
  have hbw : sameDecl b w := sameDecl_trans b a w (sameDecl_symm a b hab) haw
  have hww : sameDecl w w := sameDecl_left w a (sameDecl_symm a w haw)
  refine ⟨⟨h1, h2, h3, h4, h5, h6, alike_set _ _ i w w h7 hww⟩,
    alike_set_right _ i a w (alike_refl_of _ _ h7) hi haw,
    alike_set_right _ i b w (alike_refl_of _ _ (alike_symm _ _ h7)) hj hbw,
    touched_set _ _ i w h7.1⟩

/-- Writing back the adapter read at an index leaves the scan state unchanged. -/
theorem setOption_self (s : Scan V) (i : Nat) (a : KeyAdapter V)
    (hi : s.parser.options[i]? = some a) : s.setOption i a = s := by
  simp [Scan.setOption, set_of_getElem? _ _ _ hi]

/-- The exact-key branch goes the same way from similar states. -/
theorem exactKeyBranch_sim (s t s1 : Scan V) (arg : Str) (rest : List Str) (i : Nat)
    (a b : KeyAdapter V) (adv : Advance) (hsim : Sim s t)
    (hi : s.parser.options[i]? = some a) (hj : t.parser.options[i]? = some b)
    (h : exactKeyBranch s arg rest i a = .ok (s1, adv)) :
    ∃ t1, exactKeyBranch t arg rest i b = .ok (t1, adv) ∧ Agree s s1 t t1 := by
  have hab := hsim.2.2.2.2.2.2.2 i a b hi hj
  unfold exactKeyBranch at h ⊢
  rw [sameDecl_hasArgument a b hab]
  cases ha : a.hasArgument with
  | false =>
    obtain ⟨r, hr⟩ := raise_ok_of_no_argument a ha
    obtain ⟨hrb, har⟩ := sameDecl_raise a b r hab hr
    simp only [ha, Bool.false_eq_true, if_false, hr, Except.ok.injEq, Prod.mk.injEq] at h
    obtain ⟨rfl, rfl⟩ := h
    exact ⟨t.setOption i r, by simp [hrb], agree_setOption s t i a b r hsim hi hj har⟩
  | true =>
    simp only [ha, if_true] at h ⊢
    cases rest with
    | nil =>
      simp only [Except.ok.injEq, Prod.mk.injEq] at h
      obtain ⟨rfl, rfl⟩ := h
      exact ⟨_, rfl, agree_pushError _ _ _ _ _ (agree_refl s t hsim)⟩
    | cons next tail =>
      obtain ⟨w, c, hw⟩ := addValue_ok_of_argument a next ha
      obtain ⟨haw, hc⟩ := sameDecl_addValue a b w next c hab hw
      rcases hc with ⟨rfl, hb⟩ | ⟨rfl, rfl, hb⟩
      · simp only [hw, Except.ok.injEq, Prod.mk.injEq] at h
        obtain ⟨rfl, rfl⟩ := h
        exact ⟨t.setOption i w, by simp [hb], agree_setOption s t i a b w hsim hi hj haw⟩
      · simp only [hw, Except.ok.injEq, Prod.mk.injEq] at h
        obtain ⟨rfl, rfl⟩ := h
        refine ⟨t.pushError (.InvalidValueGiven w.keyString next), ?_, ?_⟩
        · simp [hb, setOption_self t i b hj, sameDecl_keyString w b hab]
        · rw [setOption_self s i w hi]
          exact agree_pushError _ _ _ _ _ (agree_refl s t hsim)

/-- The key=value branch goes the same way from similar states. -/
theorem keyValueBranch_sim (s t s1 : Scan V) (pair : KeyValuePair) (i : Nat)
    (a b : KeyAdapter V) (adv : Advance) (hsim : Sim s t)
    (hi : s.parser.options[i]? = some a) (hj : t.parser.options[i]? = some b)
    (h : keyValueBranch s pair i a = .ok (s1, adv)) :
    ∃ t1, keyValueBranch t pair i b = .ok (t1, adv) ∧ Agree s s1 t t1 := by
  have hab := hsim.2.2.2.2.2.2.2 i a b hi hj
  unfold keyValueBranch at h ⊢
  rw [sameDecl_hasArgument a b hab]
  cases ha : a.hasArgument with
  | false =>
    simp only [ha, Bool.false_eq_true, if_false, Except.ok.injEq, Prod.mk.injEq] at h ⊢
    obtain ⟨rfl, rfl⟩ := h
    exact ⟨_, ⟨rfl, rfl⟩, agree_pushError _ _ _ _ _ (agree_refl s t hsim)⟩
  | true =>
    simp only [ha, if_true] at h ⊢
    obtain ⟨w, c, hw⟩ := addValue_ok_of_argument a pair.value ha
    obtain ⟨haw, hc⟩ := sameDecl_addValue a b w pair.value c hab hw
    simp only [hw, Except.ok.injEq, Prod.mk.injEq] at h
    obtain ⟨rfl, rfl⟩ := h
    rcases hc with ⟨rfl, hb⟩ | ⟨rfl, rfl, hb⟩
    · exact ⟨t.setOption i w, by simp [hb], agree_setOption s t i a b w hsim hi hj haw⟩
    · refine ⟨t, by simp [hb, setOption_self t i b hj], ?_⟩
      rw [setOption_self s i w hi]
      exact agree_refl s t hsim

/-- The pack branch on a pack of one declared key goes the same way from similar
states. -/
theorem packBranch_single_sim (s t s1 : Scan V) (rest : List Str) (last leftover : Str)
    (i : Nat) (a b : KeyAdapter V) (adv : Advance) (hsim : Sim s t)
    (hfa : findOption s.parser.options last = some (i, a))
    (hfb : findOption t.parser.options last = some (i, b))
    (h : packBranch s rest { keys := [last], leftover := leftover } = .ok (s1, adv)) :
    ∃ t1, packBranch t rest { keys := [last], leftover := leftover } = .ok (t1, adv) ∧
      Agree s s1 t t1 := by
  have hi := (findOption_some _ _ _ _ hfa).1
  have hj := (findOption_some _ _ _ _ hfb).1
  have hab := hsim.2.2.2.2.2.2.2 i a b hi hj
  have hargs := sameDecl_hasArgument a b hab
  cases ha : a.hasArgument with
  | false =>
    rw [ha] at hargs
    rw [packBranch_single_flag s rest last leftover i a hfa ha] at h
    rw [packBranch_single_flag t rest last leftover i b hfb hargs]
    simp only [Except.ok.injEq, Prod.mk.injEq] at h
    obtain ⟨rfl, rfl⟩ := h
    obtain ⟨h1, h2⟩ := sameDecl_raised a b hab ha
    rw [h1]
    exact ⟨_, rfl, agree_setOption s t i a b a.raised hsim hi hj h2⟩
  | true =>
    rw [ha] at hargs
    rw [packBranch_single_value s rest last leftover i a hfa ha] at h
    rw [packBranch_single_value t rest last leftover i b hfb hargs]
    cases hl : leftover.isEmpty with
    | false =>
      simp only [hl, Bool.not_false, if_true] at h ⊢
      obtain ⟨w, c, hw⟩ := addValue_ok_of_argument a leftover ha
      obtain ⟨haw, hc⟩ := sameDecl_addValue a b w leftover c hab hw
      rcases hc with ⟨rfl, hb⟩ | ⟨rfl, rfl, hb⟩
      · simp only [hw, Except.ok.injEq, Prod.mk.injEq] at h
        obtain ⟨rfl, rfl⟩ := h
        exact ⟨t.setOption i w, by simp [hb], agree_setOption s t i a b w hsim hi hj haw⟩
      · simp only [hw, Except.ok.injEq, Prod.mk.injEq] at h
        obtain ⟨rfl, rfl⟩ := h
        refine ⟨t.pushError (.InvalidValueGiven last leftover), ?_, ?_⟩
        · simp [hb, setOption_self t i b hj]
        · rw [setOption_self s i w hi]
          exact agree_pushError _ _ _ _ _ (agree_refl s t hsim)
    | true =>
      simp only [hl, Bool.not_true, Bool.false_eq_true, if_false] at h ⊢
      cases rest with
      | nil =>
        simp only [Except.ok.injEq, Prod.mk.injEq] at h
        obtain ⟨rfl, rfl⟩ := h
        exact ⟨_, rfl, agree_pushError _ _ _ _ _ (agree_refl s t hsim)⟩
      | cons next tail =>
        obtain ⟨w, c, hw⟩ := addValue_ok_of_argument a next ha
        obtain ⟨haw, hc⟩ := sameDecl_addValue a b w next c hab hw
        rcases hc with ⟨rfl, hb⟩ | ⟨rfl, rfl, hb⟩
        · simp only [hw, Except.ok.injEq, Prod.mk.injEq] at h
          obtain ⟨rfl, rfl⟩ := h
          exact ⟨t.setOption i w, by simp [hb], agree_setOption s t i a b w hsim hi hj haw⟩
        · simp only [hw, Except.ok.injEq, Prod.mk.injEq] at h
          obtain ⟨rfl, rfl⟩ := h
          refine ⟨t.pushError (.InvalidValueGiven last next), ?_, ?_⟩
          · simp [hb, setOption_self t i b hj]
          · rw [setOption_self s i w hi]
            exact agree_pushError _ _ _ _ _ (agree_refl s t hsim)

/-- Raising the declarations found for flag keys in two similar lists. -/
theorem raised_stage (o t o1 t1 : List (KeyAdapter V)) (keys : List Str)
    (h : Alike o t) (hkeys : FlagKeys o keys)
    (ho : ∀ j : Nat, o1[j]? = (o[j]?).map fun x =>
      if j ∈ foundIndices o keys then x.raised else x)
    (ht : ∀ j : Nat, t1[j]? = (t[j]?).map fun x =>
      if j ∈ foundIndices o keys then x.raised else x) :
    Alike o o1 ∧ Alike t t1 ∧ Alike o1 t1 ∧ Touched o o1 t t1 := by
  have hlo : o1.length = o.length := by
    have := congrArg List.length
      (map_keys_of_raised o o1 (fun j => decide (j ∈ foundIndices o keys)) (by simpa using ho))
    simpa using this
  have hlt : t1.length = t.length := by
    have := congrArg List.length
      (map_keys_of_raised t t1 (fun j => decide (j ∈ foundIndices o keys)) (by simpa using ht))
    simpa using this
  have key : ∀ (j : Nat) (a b : KeyAdapter V), o[j]? = some a → t[j]? = some b →
      j ∈ foundIndices o keys → b.raised = a.raised ∧ sameDecl a a.raised := by
    intro j a b ha hb hmem
    obtain ⟨k, hk, d0, hf0⟩ := (mem_foundIndices o keys j).mp hmem
    obtain ⟨i1, d1, hf1, hd1⟩ := hkeys k hk
    rw [hf0] at hf1
    simp only [Option.some.injEq, Prod.mk.injEq] at hf1
    have h0 := (findOption_some o k j d0 hf0).1
    rw [ha] at h0
    simp only [Option.some.injEq] at h0
    have hflag : a.hasArgument = false := by rw [h0, hf1.2]; exact hd1
    exact sameDecl_raised a b (h.2 j a b ha hb) hflag
  have hsome : ∀ (j : Nat) (a : KeyAdapter V), o[j]? = some a → ∃ b, t[j]? = some b := by
    intro j a ha
    have hlt2 := (List.getElem?_eq_some.mp ha).1
    rw [← h.1] at hlt2
    exact ⟨_, List.getElem?_eq_getElem hlt2⟩
  refine ⟨⟨hlo, ?_⟩, ⟨hlt, ?_⟩, ⟨by rw [hlt, hlo, h.1], ?_⟩, ?_⟩
  · intro j a a1 ha ha1
    obtain ⟨b, hb⟩ := hsome j a ha
    rw [ho j, ha] at ha1
    simp only [Option.map_some', Option.some.injEq] at ha1
    subst ha1
    split
    · exact (key j a b ha hb (by assumption)).2
    · exact sameDecl_left a b (h.2 j a b ha hb)
  · intro j b b1 hb hb1
    have hlt2 := (List.getElem?_eq_some.mp hb).1
    rw [h.1] at hlt2
    have ha : o[j]? = some (o[j]) := List.getElem?_eq_getElem hlt2
    have hab := h.2 j _ b ha hb
    rw [ht j, hb] at hb1
    simp only [Option.map_some', Option.some.injEq] at hb1
    subst hb1
    split
    · obtain ⟨h1, h2⟩ := key j _ b ha hb (by assumption)
      rw [h1]
      exact sameDecl_trans b _ _ (sameDecl_symm _ b hab) h2
    · exact sameDecl_left b _ (sameDecl_symm _ b hab)
  · intro j a1 b1 ha1 hb1
    rw [ho j] at ha1
    rw [ht j] at hb1
    cases ha : o[j]? with
    | none => rw [ha] at ha1; cases ha1
    | some a =>
      obtain ⟨b, hb⟩ := hsome j a ha
      have hab := h.2 j a b ha hb
      rw [ha] at ha1
      rw [hb] at hb1
      simp only [Option.map_some', Option.some.injEq] at ha1 hb1
      subst ha1; subst hb1
      by_cases hmem : j ∈ foundIndices o keys
      · obtain ⟨h1, h2⟩ := key j a b ha hb hmem
        simp only [hmem, if_true, h1]
        exact sameDecl_left _ a (sameDecl_symm a _ h2)
      · simp only [hmem, if_false]
        exact hab
  · intro j
    by_cases hmem : j ∈ foundIndices o keys
    · left
      rw [ho j, ht j]
      cases ha : o[j]? with
      | none =>
        have : t[j]? = none := by
          rw [List.getElem?_eq_none_iff] at ha ⊢
          rw [h.1]; exact ha
        rw [this]
      | some a =>
        obtain ⟨b, hb⟩ := hsome j a ha
        rw [hb]
        simp [hmem, (key j a b ha hb hmem).1]
    · right
      rw [ho j, ht j]
      constructor
      · cases o[j]? <;> simp [hmem]
      · cases t[j]? <;> simp [hmem]

/-- The pack branch on what `parsePack` returned goes the same way from similar
states. -/
theorem packBranch_sim (s t s1 : Scan V) (arg : Str) (rest : List Str) (pack : KeyPack)
    (adv : Advance) (hsim : Sim s t)
    (hp : parsePack s.parser.config s.parser.options arg = some pack)
    (h : packBranch s rest pack = .ok (s1, adv)) :
    ∃ t1, packBranch t rest pack = .ok (t1, adv) ∧ Agree s s1 t t1 := by
  obtain ⟨h1c, h2c, h3c, h4c, h5c, h6c, halike⟩ := hsim
  have hne : pack.keys ≠ [] := by
    intro hk
    simp [packBranch, hk] at h
  obtain ⟨h1, h2, _⟩ := parsePack_some _ _ _ _ hp
  have hpt : parsePack t.parser.config t.parser.options arg = some pack := by
    rw [h1c, alike_parsePack _ _ _ _ halike, hp]
  obtain ⟨_, h2t, _⟩ := parsePack_some _ _ _ _ hpt
  obtain ⟨last, hlast⟩ : ∃ last, pack.keys.getLast? = some last := by
    cases hl : pack.keys.getLast? with
    | none => exact absurd (List.getLast?_eq_none_iff.mp hl) hne
    | some last => exact ⟨last, rfl⟩
  obtain ⟨i, a, hfa⟩ := h1 last (List.mem_of_getLast?_eq_some hlast)
  obtain ⟨b, hfb, _, _⟩ := alike_find _ _ last i a halike hfa
  obtain ⟨o1, a1, _, hpo, hfa1, _, hpba⟩ :=
    packBranch_nonempty s rest pack last i a h2 hlast hfa
  obtain ⟨t1, b1, _, hpt1, hfb1, _, hpbb⟩ :=
    packBranch_nonempty t rest pack last i b h2t hlast hfb
  rw [foundIndices_congr _ _ _ (alike_keys _ _ halike)] at hpt1
  obtain ⟨hs1, hs2, hs3, hs4⟩ :=
    raised_stage s.parser.options t.parser.options o1 t1 pack.keys.dropLast halike h2 hpo hpt1
  have hsim1 : Sim ({ s with parser := { s.parser with options := o1 } } : Scan V)
      { t with parser := { t.parser with options := t1 } } :=
    ⟨h1c, h2c, h3c, h4c, h5c, h6c, hs3⟩
  rw [hpba] at h
  obtain ⟨t2, ht2, hag⟩ := packBranch_single_sim _ _ s1 rest last pack.leftover i a1 b1 adv
    hsim1 hfa1 hfb1 h
  refine ⟨t2, by rw [hpbb]; exact ht2, ?_⟩
  exact ⟨hag.1, alike_trans _ _ _ hs1 hag.2.1, alike_trans _ _ _ hs2 hag.2.2.1,
    touched_trans _ _ _ _ _ _ hs4 hag.2.2.2⟩

/-- The pack rule and the rules after it go the same way from similar states. -/
theorem packOrLater_sim (s t s1 : Scan V) (arg : Str) (rest : List Str) (adv : Advance)
    (hsim : Sim s t) (h : packOrLater s arg rest = .ok (s1, adv)) :
    ∃ t1, packOrLater t arg rest = .ok (t1, adv) ∧ Agree s s1 t t1 := by
  have hsim0 := hsim
  obtain ⟨h1c, h2c, h3c, h4c, h5c, h6c, halike⟩ := hsim
  unfold packOrLater at h ⊢
  rw [h1c, alike_parsePack _ _ _ _ halike]
  cases hp : parsePack s.parser.config s.parser.options arg with
  | some pack =>
    simp only [hp] at h ⊢
    exact packBranch_sim s t s1 arg rest pack adv hsim0 hp h
  | none =>
    have hs : s.parser.arguments[s.parser.position]? = none := by rw [h3c]; rfl
    have ht : t.parser.arguments[t.parser.position]? = none := by rw [h4c]; rfl
    have hat : t.parser.config.allowUnspecifiedArguments
        = s.parser.config.allowUnspecifiedArguments := by rw [h1c]
    simp only [hp, hs, ht, leftoverBranch, hat, Except.ok.injEq] at h ⊢
    cases hallow : s.parser.config.allowUnspecifiedArguments with
    | true =>
      simp only [hallow, if_true, Prod.mk.injEq] at h ⊢
      obtain ⟨rfl, rfl⟩ := h
      exact ⟨_, ⟨rfl, rfl⟩, ⟨h1c, h2c, h3c, h4c, h5c, h6c, halike⟩, alike_refl_of _ _ halike,
        alike_refl_of _ _ (alike_symm _ _ halike), touched_refl _ _⟩
    | false =>
      simp only [hallow, Bool.false_eq_true, if_false, Prod.mk.injEq] at h ⊢
      obtain ⟨rfl, rfl⟩ := h
      exact ⟨_, ⟨rfl, rfl⟩, agree_pushError _ _ _ _ _ (agree_refl s t hsim0)⟩

/-- A pass goes the same way from similar states. -/
theorem step_sim (s t s1 : Scan V) (arg : Str) (rest : List Str) (adv : Advance)
    (hsim : Sim s t) (h : step s arg rest = .ok (s1, adv)) :
    ∃ t1, step t arg rest = .ok (t1, adv) ∧ Agree s s1 t t1 := by
  have hsim0 := hsim
  obtain ⟨h1c, h2c, h3c, h4c, h5c, h6c, halike⟩ := hsim
  unfold step at h ⊢
  rw [h2c]
  by_cases hhelp : arg ∈ s.parser.helpKeys
  · simp only [hhelp, if_true, Except.ok.injEq, Prod.mk.injEq] at h ⊢
    obtain ⟨rfl, rfl⟩ := h
    exact ⟨_, ⟨rfl, rfl⟩, ⟨h1c, h2c, h3c, h4c, h5c, rfl, halike⟩, alike_refl_of _ _ halike,
      alike_refl_of _ _ (alike_symm _ _ halike), touched_refl _ _⟩
  · simp only [hhelp, if_false] at h ⊢
    cases hf : findOption s.parser.options arg with
    | some r =>
      obtain ⟨i, a⟩ := r
      obtain ⟨b, hfb, hj, _⟩ := alike_find _ _ arg i a halike hf
      simp only [hf, hfb] at h ⊢
      exact exactKeyBranch_sim s t s1 arg rest i a b adv hsim0
        (findOption_some _ _ _ _ hf).1 hj h
    | none =>
      rw [alike_find_none _ _ arg halike hf]
      simp only [hf] at h ⊢
      unfold keyValueOrLater at h ⊢
      rw [h1c]
      cases hkv : parseKeyValue s.parser.config arg with
      | none =>
        simp only [hkv] at h ⊢
        exact packOrLater_sim s t s1 arg rest adv hsim0 h
      | some pair =>
        simp only [hkv] at h ⊢
        cases hf2 : findOption s.parser.options pair.key with
        | some r =>
          obtain ⟨i, a⟩ := r
          obtain ⟨b, hfb, hj, _⟩ := alike_find _ _ pair.key i a halike hf2
          simp only [hf2, hfb] at h ⊢
          exact keyValueBranch_sim s t s1 pair i a b adv hsim0
            (findOption_some _ _ _ _ hf2).1 hj h
        | none =>
          rw [alike_find_none _ _ pair.key halike hf2]
          simp only [hf2] at h ⊢
          exact packOrLater_sim s t s1 arg rest adv hsim0 h

/-- A scan goes the same way from similar states. -/
theorem scan_sim (args : List Str) (s t sF : Scan V) (hsim : Sim s t)
    (h : scan args s = .ok sF) : ∃ tF, scan args t = .ok tF ∧ Agree s sF t tF := by
  induction args, s using scan.induct generalizing t with
  | case1 s =>
    simp only [scan, Except.ok.injEq] at h
    subst h
    exact ⟨t, rfl, agree_refl s t hsim⟩
  | case2 arg rest s f hf => simp [scan, hf] at h
  | case3 arg rest s s1 hstep ih =>
    simp only [scan, hstep] at h
    obtain ⟨t1, ht1, hag1⟩ := step_sim s t s1 arg rest _ hsim hstep
    obtain ⟨tF, htF, hag2⟩ := ih t1 hag1.1 h
    exact ⟨tF, by simp only [scan, ht1]; exact htF, agree_trans _ _ _ _ _ _ hag1 hag2⟩
  | case4 arg s s1 hstep =>
    simp only [scan, hstep, Except.ok.injEq] at h
    subst h
    obtain ⟨t1, ht1, hag1⟩ := step_sim s t s1 arg [] _ hsim hstep
    exact ⟨t1, by simp only [scan, ht1], hag1⟩
  | case5 arg s s1 k ks hstep ih =>
    simp only [scan, hstep] at h
    obtain ⟨t1, ht1, hag1⟩ := step_sim s t s1 arg (k :: ks) _ hsim hstep
    obtain ⟨tF, htF, hag2⟩ := ih t1 hag1.1 h
    exact ⟨tF, by simp only [scan, ht1]; exact htF, agree_trans _ _ _ _ _ _ hag1 hag2⟩

/-- No scan changes the configuration. -/
theorem scan_config (args : List Str) (s s1 : Scan V) (h : scan args s = .ok s1) :
    s1.parser.config = s.parser.config := by
  induction args, s using scan.induct with
  | case1 s => simp only [scan, Except.ok.injEq] at h; rw [h]
  | case2 arg rest s f hf => simp [scan, hf] at h
  | case3 arg rest s s2 hstep ih =>
    simp only [scan, hstep] at h
    rw [ih h, step_config s s2 arg rest _ hstep]
  | case4 arg s s2 hstep =>
    simp only [scan, hstep, Except.ok.injEq] at h
    rw [← h, step_config s s2 arg _ _ hstep]
  | case5 arg s s2 k ks hstep ih =>
    simp only [scan, hstep] at h
    rw [ih h, step_config s s2 arg _ _ hstep]

/-- What `addValue` stores and returns: a string the reader converts is stored, in an
option as its value, marked set, and in a multi-option after the values held, and
`true` is returned; a string it does not convert changes nothing and `false` is
returned. -/
theorem addValue_value (d w : KeyAdapter V) (v : Str) (b : Bool)
    (h : d.addValue v = .ok (w, b)) :
    (b = false → w = d) ∧
    (∀ ks hl m r val set rd, d = .OptionAdapter ks hl m r val set rd →
      (b = true ↔ (rd v).isSome = true) ∧
      ∀ x, rd v = some x → w = .OptionAdapter ks hl m r x true rd) ∧
    (∀ ks hl m vs rd, d = .MultiOptionAdapter ks hl m vs rd →
      (b = true ↔ (rd v).isSome = true) ∧
      ∀ x, rd v = some x → w = .MultiOptionAdapter ks hl m (vs ++ [x]) rd) := by
  refine ⟨?_, ?_, ?_⟩
  · intro hb
    subst hb
    exact addValue_false_unchanged d w v h
  · intro ks hl m r val set rd hd
    subst hd
    simp only [KeyAdapter.addValue] at h
    cases hv : rd v with
    | none =>
      simp only [hv, Except.ok.injEq, Prod.mk.injEq] at h
      obtain ⟨_, rfl⟩ := h
      simp
    | some x =>
      simp only [hv, Except.ok.injEq, Prod.mk.injEq] at h
      obtain ⟨rfl, rfl⟩ := h
      simp
  · intro ks hl m vs rd hd
    subst hd
    simp only [KeyAdapter.addValue] at h
    cases hv : rd v with
    | none =>
      simp only [hv, Except.ok.injEq, Prod.mk.injEq] at h
      obtain ⟨_, rfl⟩ := h
      simp
    | some x =>
      simp only [hv, Except.ok.injEq, Prod.mk.injEq] at h
      obtain ⟨rfl, rfl⟩ := h
      simp

/-- The key=value rule at a key taking no argument: one
`UnexpectedOptionValueGiven` with the key and the value `parseKeyValue` computed, one
token consumed, the parser unchanged. -/
theorem step_keyValue_flag (s : Scan V) (arg : Str) (rest : List Str) (sep i : Nat)
    (option : KeyAdapter V)
    (hkv : s.parser.config.allowKeyValueSyntax = true)
    (hhelp : arg ∉ s.parser.helpKeys)
    (hkey : findOption s.parser.options arg = none)
    (hsep : find arg s.parser.config.keyValueSeparator = some sep)
    (hfind : findOption s.parser.options (arg.take sep) = some (i, option))
    (hflag : option.hasArgument = false) :
    step s arg rest
      = .ok ({ s with errors := s.errors ++
                [.UnexpectedOptionValueGiven (arg.take sep) (arg.drop (sep + 1))] },
             Advance.one) := by
  simp [step, hhelp, hkey, keyValueOrLater, parseKeyValue_eq _ _ _ hkv hsep, hfind,
    keyValueBranch, hflag, Scan.pushError]

end Lemmas

end arg

/-! ## The claims -/

namespace arg

open err

section Claims

variable {V : Type}

/-- C1 (as amended): when a token that is not a help key equals a declared
argument-bearing key and the token after it fails conversion, the engine appends
`InvalidValueGiven` (the declaration's joined key string, the value token) and
advances one token only: the scan goes on at the value token, which is classified on
its own. -/
theorem exactKey_invalid_value_advances_one (s : Scan V) (arg next : Str) (rest : List Str)
    (i : Nat) (option : KeyAdapter V)
    (hhelp : arg ∉ s.parser.helpKeys)
    (hfind : findOption s.parser.options arg = some (i, option))
    (harg : option.hasArgument = true)
    (hfail : Except.map Prod.snd (option.addValue next) = .ok false) :
    step s arg (next :: rest)
        = .ok (s.pushError (.InvalidValueGiven option.keyString next), Advance.one) ∧
      scan (arg :: next :: rest) s
        = scan (next :: rest) (s.pushError (.InvalidValueGiven option.keyString next)) := by
  have hstep : step s arg (next :: rest)
      = .ok (s.pushError (.InvalidValueGiven option.keyString next), Advance.one) := by
    cases hv : option.addValue next with
    | error f => rw [hv] at hfail; simp [Except.map] at hfail
    | ok r =>
      obtain ⟨w, b⟩ := r
      rw [hv] at hfail
      simp only [Except.map, Except.ok.injEq] at hfail
      subst hfail
      have hw := addValue_false_unchanged option w next hv
      subst hw
      simp only [step, hhelp, if_false, hfind, exactKeyBranch, harg, if_true, hv]
      rw [setOption_found s arg i w hfind]
  refine ⟨hstep, ?_⟩
  rw [scan, hstep]

/-- C1, witness: option `-n`, tokens `-n x`. -/
theorem exactKey_invalid_value_advances_one_witness :
    step { parser := exOption } "-n".toList ["x".toList]
        = .ok (Scan.pushError { parser := exOption }
            (.InvalidValueGiven "-n".toList "x".toList), Advance.one) ∧
      scan ["-n".toList, "x".toList] { parser := exOption }
        = scan ["x".toList] (Scan.pushError { parser := exOption }
            (.InvalidValueGiven "-n".toList "x".toList)) :=
  exactKey_invalid_value_advances_one { parser := exOption } "-n".toList "x".toList [] 0
    (.OptionAdapter ["-n".toList] [] "VALUE".toList false 0 false readDigits)
    (by decide) rfl rfl rfl

/-- C1, counterexample: with the option `-n` and the tokens `-n x`, where `-n` is a
declared argument-bearing key, not a help key, and `x` fails conversion, the pass at
`-n` advances one token, not two, and the whole run classifies `x` afterwards (as an
unexpected argument). -/
theorem exactKey_invalid_value_not_consumed :
    "-n".toList ∉ exOption.helpKeys ∧
    (findOption exOption.options "-n".toList).map (fun r => (r.1, r.2.hasArgument))
      = some (0, true) ∧
    readDigits "x".toList = none ∧
    Except.map (fun r => (r.1.errors, r.2)) (step { parser := exOption } "-n".toList ["x".toList])
      = .ok ([.InvalidValueGiven "-n".toList "x".toList], Advance.one) ∧
    (∀ s1, step { parser := exOption } "-n".toList ["x".toList] ≠ .ok (s1, Advance.two)) ∧
    Except.map (fun r => r.errors) (parse exOption ["-n".toList, "x".toList])
      = .ok [.InvalidValueGiven "-n".toList "x".toList, .UnexpectedArgument "x".toList] := by
  refine ⟨by decide, rfl, rfl, rfl, ?_, rfl⟩
  intro s1 h
  have h2 : Except.map Prod.snd (step { parser := exOption } "-n".toList ["x".toList])
      = .ok Advance.two := by rw [h]; rfl
  have h3 : Except.map Prod.snd (step { parser := exOption } "-n".toList ["x".toList])
      = .ok Advance.one := rfl
  rw [h3] at h2
  cases h2

/-- C2: the key=value path drops the result of `addValue`. With the option `-n` and
the token `-n=abc`, whose value `abc` fails conversion, no diagnostic is appended and
the run ends in success, whereas the same value given inline in a pack (`-nabc`) is
reported by `InvalidValueGiven`. -/
theorem keyValue_invalid_value_not_reported :
    (parseKeyValue exOption.config "-n=abc".toList
        = some { key := "-n".toList, value := "abc".toList }) ∧
    readDigits "abc".toList = none ∧
    Except.map (fun r => (r.1.errors, r.2))
        (step { parser := exOption } "-n=abc".toList [])
      = .ok ([], Advance.one) ∧
    Except.map (fun r => (r.errors, r.outcome)) (parse exOption ["-n=abc".toList])
      = .ok ([], Outcome.success) ∧
    Except.map (fun r => r.errors) (parse exOption ["-nabc".toList])
      = .ok [.InvalidValueGiven "-n".toList "abc".toList] := by
  refine ⟨rfl, rfl, rfl, rfl, rfl⟩

/-- C3: a token equal to the pack prefix alone makes `parsePack` return a pack of
zero keys, and the pack branch then fails its assertion that the keys are not empty:
the pass, and with it the whole run, ends in a fault instead of advancing. -/
theorem bare_pack_prefix_fails_assertion :
    parsePack ({} : Config) ([] : List (KeyAdapter Nat)) "-".toList
      = some { keys := [], leftover := [] } ∧
    Except.map (fun r => r.1.errors) (step { parser := ({} : Parser Nat) } "-".toList [])
      = .error Fault.assertion ∧
    Except.map (fun r => r.errors) (parse ({} : Parser Nat) ["-".toList])
      = .error Fault.assertion ∧
    Except.map (fun r => r.errors) (parse exOption ["-".toList, "-n".toList, "7".toList])
      = .error Fault.assertion := by
  refine ⟨rfl, rfl, rfl, rfl⟩

/-- C4: a token that is not a help key, matches a declared key as a whole and also
has a pack interpretation is handled by the exact-key branch alone. The declaration
found for the whole token is raised, a flag then holding `true` and a multi-flag the
count 1, or it is given the next token: the token is stored when it converts, with
two tokens consumed, and reported with `InvalidValueGiven` when it does not, with
one token consumed. No other declaration changes, those of the pack interpretation
included. -/
theorem exact_key_wins_over_pack (s : Scan V) (arg : Str) (rest : List Str) (i : Nat)
    (option : KeyAdapter V) (pack : KeyPack)
    (hhelp : arg ∉ s.parser.helpKeys)
    (hfind : findOption s.parser.options arg = some (i, option))
    (_hpack : parsePack s.parser.config s.parser.options arg = some pack) :
    step s arg rest = exactKeyBranch s arg rest i option ∧
    (option.hasArgument = false →
      ∃ raised, option.raise = .ok raised ∧
        step s arg rest = .ok (s.setOption i raised, Advance.one) ∧
        (∀ ks h v, option = .FlagAdapter ks h v → raised = .FlagAdapter ks h true) ∧
        (∀ ks h c, option = .MultiFlagAdapter ks h c → raised = .MultiFlagAdapter ks h 1)) ∧
    (option.hasArgument = true → ∀ next tail, rest = next :: tail →
      ∃ written b, option.addValue next = .ok (written, b) ∧
        step s arg rest
          = .ok (if b then (s.setOption i written, Advance.two)
                 else ((s.setOption i written).pushError
                        (.InvalidValueGiven option.keyString next), Advance.one)) ∧
        (b = false → written = option) ∧
        (∀ ks h m r v set rd, option = .OptionAdapter ks h m r v set rd →
          (b = true ↔ (rd next).isSome = true) ∧
          ∀ x, rd next = some x → written = .OptionAdapter ks h m r x true rd) ∧
        (∀ ks h m vs rd, option = .MultiOptionAdapter ks h m vs rd →
          (b = true ↔ (rd next).isSome = true) ∧
          ∀ x, rd next = some x → written = .MultiOptionAdapter ks h m (vs ++ [x]) rd)) ∧
    (∀ s1 adv, step s arg rest = .ok (s1, adv) →
      ∀ j, j ≠ i → s1.parser.options[j]? = s.parser.options[j]?) := by
  have hstep : step s arg rest = exactKeyBranch s arg rest i option := by
    simp only [step, hhelp, if_false, hfind]
  refine ⟨hstep, ?_, ?_, ?_⟩
  · intro hno
    obtain ⟨raised, hr⟩ := raise_ok_of_no_argument option hno
    refine ⟨raised, hr, by simp [hstep, exactKeyBranch, hno, hr], ?_, ?_⟩
    · intro ks h v ho
      subst ho
      simp only [KeyAdapter.raise, Except.ok.injEq] at hr
      exact hr.symm
    · intro ks h c ho
      subst ho
      simp only [KeyAdapter.raise, Except.ok.injEq] at hr
      exact hr.symm
  · intro harg next tail hrest
    obtain ⟨written, b, hw⟩ := addValue_ok_of_argument option next harg
    obtain ⟨h1, h2, h3⟩ := addValue_value option written next b hw
    subst hrest
    refine ⟨written, b, hw, ?_, h1, h2, h3⟩
    cases b <;> simp [hstep, exactKeyBranch, harg, hw]
  · intro s1 adv hs j hj
    rw [hstep] at hs
    by_cases harg : option.hasArgument = true
    · cases rest with
      | nil =>
        simp [exactKeyBranch, harg] at hs
        rw [← hs.1]; simp [Scan.pushError]
      | cons next tail =>
        obtain ⟨written, b, hw⟩ := addValue_ok_of_argument option next harg
        cases b <;> simp [exactKeyBranch, harg, hw] at hs <;> rw [← hs.1] <;>
          simp [Scan.setOption, Scan.pushError, List.getElem?_set_ne (Ne.symm hj)]
    · simp only [Bool.not_eq_true] at harg
      obtain ⟨raised, hr⟩ := raise_ok_of_no_argument option harg
      simp [exactKeyBranch, harg, hr] at hs
      rw [← hs.1]
      simp [Scan.setOption, List.getElem?_set_ne (Ne.symm hj)]

/-- C4, witness: flags `-a`, `-b` and `-ab`; the token `-ab` is a pack of `-a` and
`-b` and also the key of the third flag, which alone holds `true` after the pass. -/
theorem exact_key_wins_over_pack_witness :
    parsePack exFlags.config exFlags.options "-ab".toList
      = some { keys := ["-a".toList, "-b".toList], leftover := [] } ∧
    step { parser := exFlags } "-ab".toList []
      = .ok (Scan.setOption { parser := exFlags } 2 (.FlagAdapter ["-ab".toList] [] true),
             Advance.one) ∧
    Except.map (fun r => r.1.parser.options) (step { parser := exFlags } "-ab".toList [])
      = .ok [.FlagAdapter ["-a".toList] [] false, .FlagAdapter ["-b".toList] [] false,
             .FlagAdapter ["-ab".toList] [] true] := by
  obtain ⟨raised, _, hstep, hflag, _⟩ :=
    (exact_key_wins_over_pack { parser := exFlags } "-ab".toList [] 2
      (.FlagAdapter ["-ab".toList] [] false)
      { keys := ["-a".toList, "-b".toList], leftover := [] } (by decide) rfl rfl).2.1 rfl
  rw [hflag _ _ _ rfl] at hstep
  exact ⟨rfl, hstep, rfl⟩

/-- C5: `findOption` returns nothing exactly when no declaration has the key, and
otherwise returns the declaration of greatest registration index among those whose
key list contains the key (so of two declarations sharing a key the one registered
last is found). -/
theorem findOption_last_registered (options : List (KeyAdapter V)) (k : Str) :
    (findOption options k = none ↔ ∀ d ∈ options, k ∉ d.keys) ∧
    (∀ i d, findOption options k = some (i, d) →
      options[i]? = some d ∧ k ∈ d.keys ∧
        ∀ j x, options[j]? = some x → k ∈ x.keys → j ≤ i) ∧
    (∀ j x, options[j]? = some x → k ∈ x.keys →
      ∃ i d, findOption options k = some (i, d) ∧ j ≤ i) := by
  refine ⟨findOption_eq_none_iff options k, findOption_some options k, ?_⟩
  intro j x hj hx
  cases hf : findOption options k with
  | none =>
    have hmem : x ∈ options := by
      obtain ⟨hlt, hget⟩ := List.getElem?_eq_some.mp hj
      rw [← hget]; exact List.getElem_mem hlt
    exact absurd hx ((findOption_eq_none_iff options k).mp hf x hmem)
  | some r =>
    obtain ⟨i, d⟩ := r
    exact ⟨i, d, rfl, (findOption_some options k i d hf).2.2 j x hj hx⟩

/-- C6: whenever `parse` runs to its outcome decision, the outcome is failure exactly
when the accumulated diagnostic list is not empty, help shown exactly when the list
is empty and help was requested, and success exactly when the list is empty and help
was not requested; a help request with a scan-time diagnostic gives failure. -/
theorem outcome_decided_in_order (p : Parser V) (args : List Str) (r : Result V)
    (h : parse p args = .ok r) :
    (r.outcome = Outcome.failure ↔ r.errors ≠ []) ∧
    (r.outcome = Outcome.helpShown ↔ r.errors = [] ∧ r.helpRequested = true) ∧
    (r.outcome = Outcome.success ↔ r.errors = [] ∧ r.helpRequested = false) ∧
    (∀ s, scan args { parser := p } = .ok s → s.helpRequested = true → s.errors ≠ [] →
      r.helpRequested = true ∧ r.errors = s.errors ∧ r.outcome = Outcome.failure) := by
  obtain ⟨s, hs, hreq, _, hhelp, hout⟩ := parse_ok_inv p args r h
  refine ⟨?_, ?_, ?_, ?_⟩
  · rw [hout]; exact decideOutcome_failure_iff _ _
  · rw [hout]; cases r.errors <;> cases r.helpRequested <;> simp [decideOutcome]
  · rw [hout]; cases r.errors <;> cases r.helpRequested <;> simp [decideOutcome]
  · intro s1 hs1 hh hne
    rw [hs] at hs1
    simp only [Except.ok.injEq] at hs1
    subst hs1
    have he : r.errors = s.errors := by
      simp [requiredChecks, hh] at hreq
      exact hreq.symm
    refine ⟨by rw [hhelp, hh], he, ?_⟩
    rw [hout, decideOutcome_failure_iff, he]
    exact hne

/-- C6, witness: required option `--value`, help key `-h`, tokens `-h x`: help is
requested, `x` is an unexpected argument, and the outcome is failure. -/
theorem outcome_decided_in_order_witness :
    parse exRequired ["-h".toList, "x".toList] = .ok exHelpAndError ∧
    (exHelpAndError.outcome = Outcome.failure ↔ exHelpAndError.errors ≠ []) ∧
    exHelpAndError.helpRequested = true ∧
    exHelpAndError.errors = [.UnexpectedArgument "x".toList] :=
  ⟨rfl,
   (outcome_decided_in_order exRequired ["-h".toList, "x".toList] exHelpAndError rfl).1,
   rfl, rfl⟩

/-- C7: when the scan ends with the help flag set (the flag is set by the help
branch, at a token classified as a help key, and never cleared), finalization
appends nothing: the final diagnostics are the scan-time ones, and with none of them
the outcome is help shown, whatever is required and unset. -/
theorem help_suppresses_required_checks (p : Parser V) (args : List Str) (s : Scan V)
    (hscan : scan args { parser := p } = .ok s) (hhelp : s.helpRequested = true) :
    ∃ r, parse p args = .ok r ∧ r.errors = s.errors ∧ r.helpRequested = true ∧
      (s.errors = [] → r.outcome = Outcome.helpShown) ∧
      (s.errors ≠ [] → r.outcome = Outcome.failure) := by
  refine ⟨{ parser := s.parser, errors := s.errors, helpRequested := true,
            outcome := decideOutcome s.errors true }, ?_, rfl, rfl, ?_, ?_⟩
  · simp [parse, hscan, requiredChecks, hhelp]
  · intro h; simp [decideOutcome, h]
  · intro h; exact (decideOutcome_failure_iff _ _).mpr h

/-- C7, witness: required option `--value`, help key `-h`, tokens `-h`: the outcome
is help shown although `--value` is unset. -/
theorem help_suppresses_required_checks_witness :
    missingOptions exRequired.options = [.RequiredOptionNotSet "--value".toList] ∧
    ∃ r, parse exRequired ["-h".toList] = .ok r ∧ r.errors = [] ∧
      r.outcome = Outcome.helpShown := by
  obtain ⟨r, h1, h2, _, h4, _⟩ :=
    help_suppresses_required_checks exRequired ["-h".toList]
      { parser := exRequired, errors := [], helpRequested := true } rfl rfl
  exact ⟨rfl, r, h1, h2, h4 rfl⟩

/-- C8: when the scan ends without a help request (and no multi positional is marked
required, for which `isSet` is not defined), the final diagnostics are the scan-time
ones, then one `RequiredOptionNotSet` with the joined key string for each keyed
declaration required and not set, then one with the metavar for each positional
required and not set, both in registration order; the outcome is failure exactly
when that list is not empty. -/
theorem required_checks_without_help (p : Parser V) (args : List Str) (s : Scan V)
    (hscan : scan args { parser := p } = .ok s) (hhelp : s.helpRequested = false)
    (hmulti : ∀ a ∈ s.parser.arguments, a.multi = true → a.isRequired = false) :
    ∃ r, parse p args = .ok r ∧
      r.errors = s.errors ++ missingOptions s.parser.options
        ++ missingArguments s.parser.arguments ∧
      (r.outcome = Outcome.failure ↔ r.errors ≠ []) := by
  refine ⟨{ parser := s.parser,
            errors := s.errors ++ missingOptions s.parser.options
              ++ missingArguments s.parser.arguments,
            helpRequested := false,
            outcome := decideOutcome (s.errors ++ missingOptions s.parser.options
              ++ missingArguments s.parser.arguments) false }, ?_, rfl, ?_⟩
  · simp [parse, hscan, requiredChecks, hhelp, requiredOptions_eq,
      requiredArguments_eq _ _ hmulti]
  · exact decideOutcome_failure_iff _ _

/-- C8, witness: a single required option `--value` and no token: the diagnostics
are exactly one `RequiredOptionNotSet` for `--value` and the outcome is failure. -/
theorem required_checks_without_help_witness :
    ∃ r, parse exRequired [] = .ok r ∧
      r.errors = [.RequiredOptionNotSet "--value".toList] ∧
      r.outcome = Outcome.failure := by
  obtain ⟨r, h1, h2, h3⟩ :=
    required_checks_without_help exRequired [] { parser := exRequired } rfl rfl
      (by intro a ha; cases ha)
  have h4 : r.errors = [.RequiredOptionNotSet "--value".toList] := by rw [h2]; rfl
  exact ⟨r, h1, h4, h3.mpr (by rw [h4]; simp)⟩

/-- C9: `parseKeyValue` takes the value from one character after the index of the
separator, whatever the separator's length. With the separator `==`, the option `-n`
and the token `-n==7`, the separator first occurs at index 2 and the text after it
is `7`, which converts; the value offered to the reader is `=7`, so `-n` stays unset
(and, the result of `addValue` being dropped, nothing is reported). -/
theorem keyValue_long_separator_value :
    find "-n==7".toList exSeparator.config.keyValueSeparator = some 2 ∧
    (findOption exSeparator.options ("-n==7".toList.take 2)).map
        (fun r => (r.1, r.2.hasArgument)) = some (0, true) ∧
    "-n==7".toList.drop (2 + exSeparator.config.keyValueSeparator.length) = "7".toList ∧
    readDigits "7".toList = some 7 ∧
    parseKeyValue exSeparator.config "-n==7".toList
      = some { key := "-n".toList, value := "=7".toList } ∧
    Except.map (fun r => (r.parser.options.map KeyAdapter.isSet, r.errors, r.outcome))
        (parse exSeparator ["-n==7".toList])
      = .ok ([.ok false], [], Outcome.success) := by
  refine ⟨rfl, rfl, rfl, rfl, rfl, rfl⟩

/-- C10: the diagnostic of the key=value rule at a key taking no argument carries
the value `parseKeyValue` computed, the text from one character after the index of
the separator, whatever the separator's length. With the separator `==`, the flag
`-a` and the token `-a==x`, the separator first occurs at index 2 and the value
part, the text after it, is `x`; the engine appends `UnexpectedOptionValueGiven`
with the key `-a` and the value `=x`. The flag is not raised, one token is consumed
and the run ends in failure. -/
theorem keyValue_flag_long_separator :
    find "-a==x".toList exFlagSeparator.config.keyValueSeparator = some 2 ∧
    "-a==x".toList.drop (2 + exFlagSeparator.config.keyValueSeparator.length)
      = "x".toList ∧
    parseKeyValue exFlagSeparator.config "-a==x".toList
      = some { key := "-a".toList, value := "=x".toList } ∧
    Except.map (fun r => (r.1.parser.options, r.1.errors, r.2))
        (step { parser := exFlagSeparator } "-a==x".toList [])
      = .ok ([.FlagAdapter ["-a".toList] [] false],
             [.UnexpectedOptionValueGiven "-a".toList "=x".toList], Advance.one) ∧
    Except.map (fun r => (r.errors, r.outcome)) (parse exFlagSeparator ["-a==x".toList])
      = .ok ([.UnexpectedOptionValueGiven "-a".toList "=x".toList], Outcome.failure) := by
  refine ⟨rfl, rfl, rfl, rfl, rfl⟩

/-- C11: with packing enabled, a token made of the pack prefix and one or more
characters that each make, after the prefix, a declared key taking no argument, and
that is no help key, no declared key and not claimed by the key=value rule: the pass
advances one token and changes nothing but the keyed declarations (no diagnostic);
every declaration found for one of the characters is raised, a flag then holding
`true` and a multi-flag the count 1, and the declarations found for none of them are
as they were. -/
theorem pack_of_flags_raises_all (s : Scan V) (cs : List Char) (rest : List Str)
    (hpacking : s.parser.config.allowArgumentPacking = true)
    (hne : cs ≠ [])
    (hflags : AllFlags s.parser.options s.parser.config.packPrefix cs)
    (hhelp : s.parser.config.packPrefix ++ cs ∉ s.parser.helpKeys)
    (hkey : findOption s.parser.options (s.parser.config.packPrefix ++ cs) = none)
    (hkv : claimsKeyValue s.parser.config s.parser.options
      (s.parser.config.packPrefix ++ cs) = false) :
    ∃ o', step s (s.parser.config.packPrefix ++ cs) rest
        = .ok ({ s with parser := { s.parser with options := o' } }, Advance.one) ∧
      scan ((s.parser.config.packPrefix ++ cs) :: rest) s
        = scan rest { s with parser := { s.parser with options := o' } } ∧
      (∀ c ∈ cs, ∀ i d,
        findOption s.parser.options (s.parser.config.packPrefix ++ [c]) = some (i, d) →
        ∃ raised, d.raise = .ok raised ∧ o'[i]? = some raised ∧
          findOption o' (s.parser.config.packPrefix ++ [c]) = some (i, raised) ∧
          (∀ ks h v, d = .FlagAdapter ks h v → raised = .FlagAdapter ks h true) ∧
          (∀ ks h n, d = .MultiFlagAdapter ks h n → raised = .MultiFlagAdapter ks h 1)) ∧
      (∀ j : Nat,
        (∀ c ∈ cs, ∀ i d,
          findOption s.parser.options (s.parser.config.packPrefix ++ [c]) = some (i, d) →
          i ≠ j) →
        o'[j]? = s.parser.options[j]?) := by
  obtain ⟨o', hstep, hp⟩ := step_pack_flags s cs rest hpacking hne hflags hhelp hkey hkv
  obtain ⟨ha, hb⟩ := raisedAt_props _ _ _ hp
  refine ⟨o', hstep, by rw [scan, hstep], ?_, ?_⟩
  · intro c hc i d hf
    obtain ⟨i1, d1, hf1, hd1⟩ := hflags c hc
    rw [hf] at hf1
    simp only [Option.some.injEq, Prod.mk.injEq] at hf1
    have hd : d.hasArgument = false := by rw [hf1.2]; exact hd1
    obtain ⟨h1, h2⟩ := ha _ (List.mem_map.mpr ⟨c, hc, rfl⟩) i d hf
    refine ⟨d.raised, raise_eq_raised d hd, h1, h2, ?_, ?_⟩
    · intro ks h v ho
      subst ho
      simp only [KeyAdapter.raised, KeyAdapter.raise]
    · intro ks h n ho
      subst ho
      simp only [KeyAdapter.raised, KeyAdapter.raise]
  · intro j hj
    apply hb
    intro hmem
    obtain ⟨k, hk, d0, hf0⟩ := (mem_foundIndices _ _ j).mp hmem
    obtain ⟨c, hc, rfl⟩ := List.mem_map.mp hk
    exact hj c hc j d0 hf0 rfl

/-- C11, witness: flags `-a` and `-b`, option `-n`; after the token `-ab` both flags
hold `true` and `-n` is as it was. -/
theorem pack_of_flags_raises_all_witness :
    (∃ o', step { parser := exPack } "-ab".toList []
        = .ok ({ parser := { exPack with options := o' } }, Advance.one) ∧
      o'[0]? = some (.FlagAdapter ["-a".toList] [] true) ∧
      o'[1]? = some (.FlagAdapter ["-b".toList] [] true) ∧
      o'[2]? = exPack.options[2]?) ∧
    Except.map (fun r => (r.1.parser.options, r.1.errors, r.2))
        (step { parser := exPack } "-ab".toList [])
      = .ok ([.FlagAdapter ["-a".toList] [] true, .FlagAdapter ["-b".toList] [] true,
              .OptionAdapter ["-n".toList] [] "VALUE".toList false 0 false readDigits],
             [], Advance.one) := by
  have hflags : AllFlags exPack.options exPack.config.packPrefix "ab".toList := by
    intro c hc
    have hc2 : c = 'a' ∨ c = 'b' := by simpa using hc
    rcases hc2 with rfl | rfl
    · exact ⟨0, _, rfl, rfl⟩
    · exact ⟨1, _, rfl, rfl⟩
  obtain ⟨o', hstep, _, hraised, hframe⟩ :=
    pack_of_flags_raises_all { parser := exPack } "ab".toList [] rfl (by decide) hflags
      (by decide) rfl rfl
  refine ⟨⟨o', hstep, ?_, ?_, ?_⟩, rfl⟩
  · obtain ⟨r, _, h2, _, h4, _⟩ := hraised 'a' (by decide) 0 _ rfl
    rw [h2, h4 _ _ _ rfl]
  · obtain ⟨r, _, h2, _, h4, _⟩ := hraised 'b' (by decide) 1 _ rfl
    rw [h2, h4 _ _ _ rfl]
  · apply hframe
    intro c hc i d hf
    have hc2 : c = 'a' ∨ c = 'b' := by simpa using hc
    rcases hc2 with rfl | rfl
    · have h0 : findOption exPack.options (exPack.config.packPrefix ++ ['a'])
          = some (0, .FlagAdapter ["-a".toList] [] false) := rfl
      have hf' : findOption exPack.options (exPack.config.packPrefix ++ ['a']) = some (i, d) :=
        hf
      rw [h0] at hf'
      simp only [Option.some.injEq, Prod.mk.injEq] at hf'
      omega
    · have h0 : findOption exPack.options (exPack.config.packPrefix ++ ['b'])
          = some (1, .FlagAdapter ["-b".toList] [] false) := rfl
      have hf' : findOption exPack.options (exPack.config.packPrefix ++ ['b']) = some (i, d) :=
        hf
      rw [h0] at hf'
      simp only [Option.some.injEq, Prod.mk.injEq] at hf'
      omega

/-- C12: for a token made of the prefix, characters of keys taking no argument, the
character of an argument-bearing key and a non-empty tail, `parsePack` returns the
keys of these characters with the tail as inline value, whatever the tail holds. The
pack branch on that pack raises the declarations of the first keys (a flag then
holds `true`, a multi-flag the count 1) and offers the tail to the last one: a tail
its reader converts is stored (as the value of an option, marked set; after the
values of a multi-option), a tail it does not convert changes nothing and is
reported with `InvalidValueGiven` carrying the last key and the tail. One token is
consumed; and the pass at a token that reaches the pack rule is that pack branch. -/
theorem pack_inline_value (s : Scan V) (pre : List Char) (c : Char) (tail : Str)
    (rest : List Str) (i : Nat) (d : KeyAdapter V)
    (hpacking : s.parser.config.allowArgumentPacking = true)
    (hpre : AllFlags s.parser.options s.parser.config.packPrefix pre)
    (hlast : findOption s.parser.options (s.parser.config.packPrefix ++ [c]) = some (i, d))
    (harg : d.hasArgument = true)
    (htail : tail ≠ []) :
    parsePack s.parser.config s.parser.options
        (s.parser.config.packPrefix ++ (pre ++ c :: tail))
      = some { keys := (pre ++ [c]).map fun x => s.parser.config.packPrefix ++ [x],
               leftover := tail } ∧
    (∃ o' written b, d.addValue tail = .ok (written, b) ∧
      packBranch s rest
          { keys := (pre ++ [c]).map fun x => s.parser.config.packPrefix ++ [x],
            leftover := tail }
        = .ok (if b then { s with parser := { s.parser with options := o' } }
               else Scan.pushError { s with parser := { s.parser with options := o' } }
                 (.InvalidValueGiven (s.parser.config.packPrefix ++ [c]) tail),
               Advance.one) ∧
      o'[i]? = some written ∧
      (b = false → written = d) ∧
      (∀ ks h m r v set rd, d = .OptionAdapter ks h m r v set rd →
        (b = true ↔ (rd tail).isSome = true) ∧
        ∀ x, rd tail = some x → written = .OptionAdapter ks h m r x true rd) ∧
      (∀ ks h m vs rd, d = .MultiOptionAdapter ks h m vs rd →
        (b = true ↔ (rd tail).isSome = true) ∧
        ∀ x, rd tail = some x → written = .MultiOptionAdapter ks h m (vs ++ [x]) rd) ∧
      (∀ x ∈ pre, ∀ i0 d0,
        findOption s.parser.options (s.parser.config.packPrefix ++ [x]) = some (i0, d0) →
        ∃ raised, d0.raise = .ok raised ∧ o'[i0]? = some raised ∧
          (∀ ks h v, d0 = .FlagAdapter ks h v → raised = .FlagAdapter ks h true) ∧
          (∀ ks h n, d0 = .MultiFlagAdapter ks h n → raised = .MultiFlagAdapter ks h 1)) ∧
      (∀ j : Nat, j ≠ i →
        (∀ x ∈ pre, ∀ i0 d0,
          findOption s.parser.options (s.parser.config.packPrefix ++ [x]) = some (i0, d0) →
          i0 ≠ j) →
        o'[j]? = s.parser.options[j]?)) ∧
    (s.parser.config.packPrefix ++ (pre ++ c :: tail) ∉ s.parser.helpKeys →
      findOption s.parser.options (s.parser.config.packPrefix ++ (pre ++ c :: tail)) = none →
      claimsKeyValue s.parser.config s.parser.options
        (s.parser.config.packPrefix ++ (pre ++ c :: tail)) = false →
      step s (s.parser.config.packPrefix ++ (pre ++ c :: tail)) rest
        = packBranch s rest
            { keys := (pre ++ [c]).map fun x => s.parser.config.packPrefix ++ [x],
              leftover := tail }) := by
  have hpack : parsePack s.parser.config s.parser.options
        (s.parser.config.packPrefix ++ (pre ++ c :: tail))
      = some { keys := (pre ++ [c]).map fun x => s.parser.config.packPrefix ++ [x],
               leftover := tail } := by
    rw [parsePack_eq _ _ _ hpacking, parsePackLoop_value _ _ pre c tail i d hpre hlast harg]
  refine ⟨hpack, ?_, fun hhelp hkey hkv => step_reaches_pack s _ rest _ hhelp hkey hkv hpack⟩
  obtain ⟨o1, hpb, hf1, _, hlt, hraised, hframe⟩ :=
    packBranch_value_decls s pre c tail rest i d hpre hlast harg
  obtain ⟨written, b, hw⟩ := addValue_ok_of_argument d tail harg
  obtain ⟨hv1, hv2, hv3⟩ := addValue_value d written tail b hw
  have hte : tail.isEmpty = false := by cases tail <;> simp_all
  refine ⟨o1.set i written, written, b, hw, ?_, List.getElem?_set_self hlt, hv1, hv2, hv3,
    ?_, ?_⟩
  · rw [hpb, packBranch_single_value _ rest _ _ i d hf1 harg]
    cases b <;> simp [hte, hw, Scan.setOption, Scan.pushError]
  · intro x hx i0 d0 hf0
    obtain ⟨hne, raised, hr, hg⟩ := hraised x hx i0 d0 hf0
    refine ⟨raised, hr, by rw [List.getElem?_set_ne (Ne.symm hne)]; exact hg, ?_, ?_⟩
    · intro ks h v ho
      subst ho
      simp only [KeyAdapter.raise, Except.ok.injEq] at hr
      exact hr.symm
    · intro ks h n ho
      subst ho
      simp only [KeyAdapter.raise, Except.ok.injEq] at hr
      exact hr.symm
  · intro j hj hfr
    rw [List.getElem?_set_ne (Ne.symm hj)]
    exact hframe j hfr

/-- C12, witness: flags `-a` and `-b`, option `-n`; the token `-an7` is the pack of
`-a` and `-n` with the inline value `7`: after the pass `-a` holds `true`, `-b` is
as it was and `-n` holds 7 and is marked set; one token is consumed. -/
theorem pack_inline_value_witness :
    parsePack exPack.config exPack.options "-an7".toList
      = some { keys := ["-a".toList, "-n".toList], leftover := "7".toList } ∧
    (∃ o', packBranch { parser := exPack } ["8".toList]
          { keys := ["-a".toList, "-n".toList], leftover := "7".toList }
        = .ok ({ parser := { exPack with options := o' } }, Advance.one) ∧
      o'[0]? = some (.FlagAdapter ["-a".toList] [] true) ∧
      o'[2]? = some (.OptionAdapter ["-n".toList] [] "VALUE".toList false 7 true readDigits)) ∧
    Except.map (fun r => (r.1.parser.options, r.1.errors, r.2))
        (step { parser := exPack } "-an7".toList ["8".toList])
      = .ok ([.FlagAdapter ["-a".toList] [] true, .FlagAdapter ["-b".toList] [] false,
              .OptionAdapter ["-n".toList] [] "VALUE".toList false 7 true readDigits],
             [], Advance.one) := by
  obtain ⟨hpack, ⟨o', written, b, _, hpb, hw, _, hopt, _, hraised, _⟩, _⟩ :=
    pack_inline_value { parser := exPack } ['a'] 'n' "7".toList ["8".toList] 2
      (.OptionAdapter ["-n".toList] [] "VALUE".toList false 0 false readDigits) rfl
      (fun c hc => by
        have hc2 : c = 'a' := by simpa using hc
        subst hc2
        exact ⟨0, _, rfl, rfl⟩)
      rfl rfl (by decide)
  obtain ⟨hb, hval⟩ := hopt _ _ _ _ _ _ _ rfl
  have hb1 : b = true := hb.mpr rfl
  subst hb1
  refine ⟨hpack, ⟨o', hpb, ?_, ?_⟩, rfl⟩
  · obtain ⟨r, _, h2, h3, _⟩ := hraised 'a' (by decide) 0 _ rfl
    rw [h2, h3 _ _ _ rfl]
  · rw [hw, hval 7 rfl]

/-- C13: for an accepted pack whose last character makes an argument-bearing key,
with nothing after it, followed by another token: the string offered to the reader
of that key's declaration is the whole next token, and the declarations of the
earlier keys are raised (a flag then holds `true`, a multi-flag the count 1),
whether or not the token converts. When it converts it is stored (as the value of an
option, marked set; after the values of a multi-option), two tokens are consumed and
the scan goes on after the value token; when it does not, nothing is stored,
`InvalidValueGiven` with the last key and the token is appended and one token is
consumed, as for a stand-alone option key. Nothing else changes. -/
theorem pack_last_key_takes_next_token (s : Scan V) (pre : List Char) (c : Char)
    (next : Str) (more : List Str) (i : Nat) (d : KeyAdapter V)
    (hpacking : s.parser.config.allowArgumentPacking = true)
    (hpre : AllFlags s.parser.options s.parser.config.packPrefix pre)
    (hlast : findOption s.parser.options (s.parser.config.packPrefix ++ [c]) = some (i, d))
    (harg : d.hasArgument = true)
    (hhelp : s.parser.config.packPrefix ++ (pre ++ [c]) ∉ s.parser.helpKeys)
    (hkey : findOption s.parser.options (s.parser.config.packPrefix ++ (pre ++ [c])) = none)
    (hkv : claimsKeyValue s.parser.config s.parser.options
      (s.parser.config.packPrefix ++ (pre ++ [c])) = false) :
    ∃ o' written b, d.addValue next = .ok (written, b) ∧
      step s (s.parser.config.packPrefix ++ (pre ++ [c])) (next :: more)
        = .ok (if b then ({ s with parser := { s.parser with options := o' } }, Advance.two)
               else (Scan.pushError { s with parser := { s.parser with options := o' } }
                      (.InvalidValueGiven (s.parser.config.packPrefix ++ [c]) next),
                     Advance.one)) ∧
      (b = true →
        scan ((s.parser.config.packPrefix ++ (pre ++ [c])) :: next :: more) s
          = scan more { s with parser := { s.parser with options := o' } }) ∧
      o'[i]? = some written ∧
      (b = false → written = d) ∧
      (∀ ks h m r v set rd, d = .OptionAdapter ks h m r v set rd →
        (b = true ↔ (rd next).isSome = true) ∧
        ∀ x, rd next = some x → written = .OptionAdapter ks h m r x true rd) ∧
      (∀ ks h m vs rd, d = .MultiOptionAdapter ks h m vs rd →
        (b = true ↔ (rd next).isSome = true) ∧
        ∀ x, rd next = some x → written = .MultiOptionAdapter ks h m (vs ++ [x]) rd) ∧
      (∀ x ∈ pre, ∀ i0 d0,
        findOption s.parser.options (s.parser.config.packPrefix ++ [x]) = some (i0, d0) →
        ∃ raised, d0.raise = .ok raised ∧ o'[i0]? = some raised ∧
          (∀ ks h v, d0 = .FlagAdapter ks h v → raised = .FlagAdapter ks h true) ∧
          (∀ ks h n, d0 = .MultiFlagAdapter ks h n → raised = .MultiFlagAdapter ks h 1)) ∧
      (∀ j : Nat, j ≠ i →
        (∀ x ∈ pre, ∀ i0 d0,
          findOption s.parser.options (s.parser.config.packPrefix ++ [x]) = some (i0, d0) →
          i0 ≠ j) →
        o'[j]? = s.parser.options[j]?) := by
  obtain ⟨o1, hstep, hf1, _, hlt, hraised, hframe⟩ :=
    step_pack_value_decls s pre c [] (next :: more) i d hpacking hpre hlast harg hhelp hkey hkv
  obtain ⟨written, b, hw⟩ := addValue_ok_of_argument d next harg
  obtain ⟨hv1, hv2, hv3⟩ := addValue_value d written next b hw
  have hstep2 : step s (s.parser.config.packPrefix ++ (pre ++ [c])) (next :: more)
      = .ok (if b then ({ s with parser := { s.parser with options := o1.set i written } },
                        Advance.two)
             else (Scan.pushError
                    { s with parser := { s.parser with options := o1.set i written } }
                    (.InvalidValueGiven (s.parser.config.packPrefix ++ [c]) next),
                   Advance.one)) := by
    rw [hstep, packBranch_single_value _ _ _ _ i d hf1 harg]
    cases b <;> simp [hw, Scan.setOption, Scan.pushError]
  refine ⟨o1.set i written, written, b, hw, hstep2, ?_, List.getElem?_set_self hlt,
    hv1, hv2, hv3, ?_, ?_⟩
  · intro hb
    subst hb
    rw [scan, hstep2]
    rfl
  · intro x hx i0 d0 hf0
    obtain ⟨hne, raised, hr, hg⟩ := hraised x hx i0 d0 hf0
    refine ⟨raised, hr, by rw [List.getElem?_set_ne (Ne.symm hne)]; exact hg, ?_, ?_⟩
    · intro ks h v ho
      subst ho
      simp only [KeyAdapter.raise, Except.ok.injEq] at hr
      exact hr.symm
    · intro ks h n ho
      subst ho
      simp only [KeyAdapter.raise, Except.ok.injEq] at hr
      exact hr.symm
  · intro j hj hfr
    rw [List.getElem?_set_ne (Ne.symm hj)]
    exact hframe j hfr

/-- C13, witness: flags `-a` and `-b`, option `-n`; the tokens `-an 7 x`: the pass at
`-an` raises `-a`, writes 7 to `-n` and consumes two tokens; with `y` in place of
`7` the pass raises `-a`, leaves `-n` as it was and consumes one token. -/
theorem pack_last_key_takes_next_token_witness :
    (∃ o', step { parser := exPack } "-an".toList ["7".toList, "x".toList]
        = .ok ({ parser := { exPack with options := o' } }, Advance.two) ∧
      o'[0]? = some (.FlagAdapter ["-a".toList] [] true) ∧
      o'[2]? = some (.OptionAdapter ["-n".toList] [] "VALUE".toList false 7 true readDigits)) ∧
    Except.map (fun r => (r.1.parser.options, r.1.errors, r.2))
        (step { parser := exPack } "-an".toList ["7".toList, "x".toList])
      = .ok ([.FlagAdapter ["-a".toList] [] true, .FlagAdapter ["-b".toList] [] false,
              .OptionAdapter ["-n".toList] [] "VALUE".toList false 7 true readDigits],
             [], Advance.two) ∧
    Except.map (fun r => (r.1.parser.options, r.1.errors, r.2))
        (step { parser := exPack } "-an".toList ["y".toList, "x".toList])
      = .ok ([.FlagAdapter ["-a".toList] [] true, .FlagAdapter ["-b".toList] [] false,
              .OptionAdapter ["-n".toList] [] "VALUE".toList false 0 false readDigits],
             [.InvalidValueGiven "-n".toList "y".toList], Advance.one) := by
  obtain ⟨o', written, b, _, hstep, _, hw, _, hopt, _, hraised, _⟩ :=
    pack_last_key_takes_next_token { parser := exPack } ['a'] 'n' "7".toList ["x".toList] 2
      (.OptionAdapter ["-n".toList] [] "VALUE".toList false 0 false readDigits) rfl
      (fun c hc => by
        have hc2 : c = 'a' := by simpa using hc
        subst hc2
        exact ⟨0, _, rfl, rfl⟩)
      rfl rfl (by decide) rfl rfl
  obtain ⟨hb, hval⟩ := hopt _ _ _ _ _ _ _ rfl
  have hb1 : b = true := hb.mpr rfl
  subst hb1
  refine ⟨⟨o', hstep, ?_, ?_⟩, rfl, rfl⟩
  · obtain ⟨r, _, h2, h3, _⟩ := hraised 'a' (by decide) 0 _ rfl
    rw [h2, h3 _ _ _ rfl]
  · rw [hw, hval 7 rfl]

/-- C14: for a token made of the prefix, characters of keys taking no argument and
then a character that makes no declared key, `parsePack` returns nothing; a pass at
such a token that reaches the pack rule is the positional branch when a positional
is pending and the leftover branch otherwise: it changes no keyed declaration,
advances one token, and appends no diagnostic but those of these two rules. -/
theorem failed_pack_falls_through (s : Scan V) (pre : List Char) (c : Char) (tail : Str)
    (rest : List Str)
    (hpre : AllFlags s.parser.options s.parser.config.packPrefix pre)
    (hc : findOption s.parser.options (s.parser.config.packPrefix ++ [c]) = none) :
    parsePack s.parser.config s.parser.options
      (s.parser.config.packPrefix ++ (pre ++ c :: tail)) = none ∧
    (s.parser.config.packPrefix ++ (pre ++ c :: tail) ∉ s.parser.helpKeys →
      findOption s.parser.options (s.parser.config.packPrefix ++ (pre ++ c :: tail)) = none →
      claimsKeyValue s.parser.config s.parser.options
        (s.parser.config.packPrefix ++ (pre ++ c :: tail)) = false →
      step s (s.parser.config.packPrefix ++ (pre ++ c :: tail)) rest
        = (match s.parser.arguments[s.parser.position]? with
           | some argument =>
             .ok (positionalBranch s (s.parser.config.packPrefix ++ (pre ++ c :: tail))
                   argument)
           | none =>
             .ok (leftoverBranch s (s.parser.config.packPrefix ++ (pre ++ c :: tail)))) ∧
      ∀ s1 adv, step s (s.parser.config.packPrefix ++ (pre ++ c :: tail)) rest
          = .ok (s1, adv) →
        s1.parser.options = s.parser.options ∧ adv = Advance.one ∧
        (s1.errors = s.errors ∨
          (∃ a, s.parser.arguments[s.parser.position]? = some a ∧
            s1.errors = s.errors ++
              [.InvalidValueGiven a.metavar
                (s.parser.config.packPrefix ++ (pre ++ c :: tail))]) ∨
          (s.parser.arguments[s.parser.position]? = none ∧
            s1.errors = s.errors ++
              [.UnexpectedArgument (s.parser.config.packPrefix ++ (pre ++ c :: tail))]))) := by
  have hpack : parsePack s.parser.config s.parser.options
      (s.parser.config.packPrefix ++ (pre ++ c :: tail)) = none := by
    cases hp : s.parser.config.allowArgumentPacking with
    | false => simp [parsePack, hp]
    | true => rw [parsePack_eq _ _ _ hp, parsePackLoop_unknown _ _ pre c tail hpre hc]
  refine ⟨hpack, ?_⟩
  intro hhelp hkey hkv
  have hstep : step s (s.parser.config.packPrefix ++ (pre ++ c :: tail)) rest
      = (match s.parser.arguments[s.parser.position]? with
         | some argument =>
           .ok (positionalBranch s (s.parser.config.packPrefix ++ (pre ++ c :: tail))
                 argument)
         | none =>
           .ok (leftoverBranch s (s.parser.config.packPrefix ++ (pre ++ c :: tail)))) := by
    simp only [step_unclaimed s _ rest hhelp hkey hkv, packOrLater, hpack]
  refine ⟨hstep, ?_⟩
  intro s1 adv h
  rw [hstep] at h
  cases ha : s.parser.arguments[s.parser.position]? with
  | some a =>
    simp only [ha, positionalBranch, Except.ok.injEq, Prod.mk.injEq] at h
    obtain ⟨h1, h2⟩ := h
    subst h1
    refine ⟨?_, h2.symm, ?_⟩
    · cases hm : a.multi <;> cases hw : (a.addValue _).2 <;> simp [hm, hw, Scan.pushError]
    · cases hm : a.multi <;> cases hw : (a.addValue _).2 <;> simp [hm, hw, Scan.pushError]
  | none =>
    simp only [ha, leftoverBranch, Except.ok.injEq] at h
    split at h <;> simp only [Prod.mk.injEq] at h <;> obtain ⟨h1, h2⟩ := h <;> subst h1 <;>
      simp [Scan.pushError, h2.symm]

/-- C14, witness: flags `-a` and `-b`, option `-n`; the token `-ax` is no pack, no flag
is raised, and the token is reported by the leftover rule. -/
theorem failed_pack_falls_through_witness :
    parsePack exPack.config exPack.options "-ax".toList = none ∧
    Except.map (fun r => (r.1.parser.options.map
          (fun d => match d with
            | .FlagAdapter _ _ value => value
            | _ => false), r.1.errors, r.2))
        (step { parser := exPack } "-ax".toList [])
      = .ok ([false, false, false], [.UnexpectedArgument "-ax".toList], Advance.one) :=
  ⟨(failed_pack_falls_through { parser := exPack } ['a'] 'x' [] []
      (fun c hc => by
        have hc2 : c = 'a' := by simpa using hc
        subst hc2
        exact ⟨0, _, rfl, rfl⟩)
      rfl).1, rfl⟩

/-- C15: when the last token is an argument-bearing key with no token after it,
the scan ends with one `RequiredOptionValueNotGiven` appended, carrying the token
itself when the key is the whole token and the prefix with the last character when
the key ends an accepted pack; the declaration of the key is as it was (in the pack
case the declarations of the earlier keys are raised, and no other changes). -/
theorem missing_value_reported :
    (∀ (s : Scan V) (arg : Str) (i : Nat) (option : KeyAdapter V),
      arg ∉ s.parser.helpKeys →
      findOption s.parser.options arg = some (i, option) →
      option.hasArgument = true →
      step s arg [] = .ok (s.pushError (.RequiredOptionValueNotGiven arg), Advance.one) ∧
      scan [arg] s = .ok { s with errors := s.errors ++ [.RequiredOptionValueNotGiven arg] }) ∧
    (∀ (s : Scan V) (pre : List Char) (c : Char) (i : Nat) (d : KeyAdapter V),
      s.parser.config.allowArgumentPacking = true →
      AllFlags s.parser.options s.parser.config.packPrefix pre →
      findOption s.parser.options (s.parser.config.packPrefix ++ [c]) = some (i, d) →
      d.hasArgument = true →
      s.parser.config.packPrefix ++ (pre ++ [c]) ∉ s.parser.helpKeys →
      findOption s.parser.options (s.parser.config.packPrefix ++ (pre ++ [c])) = none →
      claimsKeyValue s.parser.config s.parser.options
        (s.parser.config.packPrefix ++ (pre ++ [c])) = false →
      ∃ o', scan [s.parser.config.packPrefix ++ (pre ++ [c])] s
          = .ok { s with parser := { s.parser with options := o' },
                         errors := s.errors ++
                           [.RequiredOptionValueNotGiven (s.parser.config.packPrefix ++ [c])] } ∧
        o'[i]? = some d ∧
        (∀ j : Nat,
          (∀ x ∈ pre, ∀ i0 d0,
            findOption s.parser.options (s.parser.config.packPrefix ++ [x]) = some (i0, d0) →
            i0 ≠ j) →
          o'[j]? = s.parser.options[j]?)) := by
  constructor
  · intro s arg i option hhelp hfind harg
    have hstep : step s arg []
        = .ok (s.pushError (.RequiredOptionValueNotGiven arg), Advance.one) := by
      simp [step, hhelp, hfind, exactKeyBranch, harg]
    exact ⟨hstep, by rw [scan, hstep]; rfl⟩
  · intro s pre c i d hpacking hpre hlast harg hhelp hkey hkv
    obtain ⟨o1, hstep, hf1, hget, _, _, hframe⟩ :=
      step_pack_value_decls s pre c [] [] i d hpacking hpre hlast harg hhelp hkey hkv
    refine ⟨o1, ?_, hget, hframe⟩
    rw [scan, hstep, packBranch_single_value _ _ _ _ i d hf1 harg]
    simp [Scan.pushError, scan]

/-- C15, witness: the token `-n` alone, and the pack `-an` alone. -/
theorem missing_value_reported_witness :
    scan ["-n".toList] { parser := exOption }
      = .ok { parser := exOption, errors := [.RequiredOptionValueNotGiven "-n".toList] } ∧
    ∃ o', scan ["-an".toList] { parser := exPack }
        = .ok { parser := { exPack with options := o' },
                errors := [.RequiredOptionValueNotGiven "-n".toList] } ∧
      o'[2]? = exPack.options[2]? := by
  refine ⟨((@missing_value_reported Nat).1 { parser := exOption } "-n".toList 0
      (.OptionAdapter ["-n".toList] [] "VALUE".toList false 0 false readDigits)
      (by decide) rfl rfl).2, ?_⟩
  obtain ⟨o', hscan, hd, _⟩ := (@missing_value_reported Nat).2 { parser := exPack } ['a'] 'n' 2
      (.OptionAdapter ["-n".toList] [] "VALUE".toList false 0 false readDigits) rfl
      (fun c hc => by
        have hc2 : c = 'a' := by simpa using hc
        subst hc2
        exact ⟨0, _, rfl, rfl⟩)
      rfl rfl (by decide) rfl rfl
  exact ⟨o', hscan, hd⟩

/-- C16: over the passes of any scan the positional cursor never decreases; a pass
writes a positional only under the positional rule, and then the one at the cursor;
each non-multi positional is offered at most one token; and once the cursor is at a
multi positional every later pass finds it there, every later offer goes to that
positional, and the scan ends with the cursor there. -/
theorem positional_cursor_monotone (args : List Str) (s : Scan V) :
    List.Pairwise (fun e1 e2 => e1.2.2 ≤ e2.2.2) (trace args s) ∧
    (∀ e ∈ trace args s, s.parser.position ≤ e.2.2) ∧
    (∀ s1, scan args s = .ok s1 → s.parser.position ≤ s1.parser.position) ∧
    (∀ j a, s.parser.arguments[j]? = some a → a.multi = false →
      (offers (trace args s)).count j ≤ 1) ∧
    (∀ a, s.parser.arguments[s.parser.position]? = some a → a.multi = true →
      (∀ e ∈ trace args s, e.2.2 = s.parser.position) ∧
      (∀ j ∈ offers (trace args s), j = s.parser.position) ∧
      (∀ s1, scan args s = .ok s1 → s1.parser.position = s.parser.position)) ∧
    (∀ arg rest s1 adv, step s arg rest = .ok (s1, adv) →
      (classify s arg ≠ Rule.positional → s1.parser.arguments = s.parser.arguments) ∧
      (classify s arg = Rule.positional →
        ∃ a, s.parser.arguments[s.parser.position]? = some a ∧
          s1.parser.arguments
            = s.parser.arguments.set s.parser.position (a.addValue arg).1)) := by
  refine ⟨trace_positions_sorted args s, trace_position_ge args s,
    fun s1 h => scan_position_ge args s s1 h, offers_count_le_one args s, ?_, ?_⟩
  · intro a ha hm
    obtain ⟨h1, h2⟩ := multi_positional_absorbs args s a ha hm
    refine ⟨h1, ?_, h2⟩
    intro j hj
    obtain ⟨e, he, _, hej⟩ := mem_offers _ _ hj
    rw [← hej]; exact h1 e he
  · intro arg rest s1 adv hstep
    obtain ⟨h1, h2⟩ := step_arguments s s1 arg rest adv hstep
    refine ⟨h1, fun hc => ?_⟩
    obtain ⟨a, ha, hargs, _⟩ := h2 hc
    exact ⟨a, ha, hargs⟩

/-- C16, witness: a positional `N` and a multi positional `REST`; of the tokens
`1 2 3` the first goes to `N` and the others to `REST`. -/
theorem positional_cursor_monotone_witness :
    offers (trace ["1".toList, "2".toList, "3".toList] { parser := exPositional })
      = [0, 1, 1] ∧
    (offers (trace ["1".toList, "2".toList, "3".toList]
      { parser := exPositional })).count 0 ≤ 1 :=
  ⟨rfl, (positional_cursor_monotone ["1".toList, "2".toList, "3".toList]
      { parser := exPositional }).2.2.2.1 0
      (.ValueAdapter [] "N".toList false 0 false readDigits) rfl rfl⟩

/-- C17 (as amended): in a scan started with every non-multi positional before the
cursor set or refused a value (as with the cursor at 0), this holds at the end: each
non-multi positional the cursor has advanced past is set, or an `InvalidValueGiven`
carrying its metavar was appended. The cursor moves only in a pass of the positional
rule at a non-multi positional, by one, after that positional was offered the token:
it is set when the token converted, and otherwise it is unchanged and the diagnostic
is appended. -/
theorem passed_positional_set_or_refused (args : List Str) (s s1 : Scan V)
    (hscan : scan args s = .ok s1) (hinv : PassedAccounted s) :
    PassedAccounted s1 ∧
    (∀ arg rest s2 adv, step s arg rest = .ok (s2, adv) →
      s2.parser.position ≠ s.parser.position →
      ∃ a, s.parser.arguments[s.parser.position]? = some a ∧ a.multi = false ∧
        classify s arg = Rule.positional ∧
        s2.parser.position = s.parser.position + 1 ∧
        s2.parser.arguments[s.parser.position]? = some (a.addValue arg).1 ∧
        ((a.addValue arg).2 = true → (a.addValue arg).1.isSet = .ok true) ∧
        ((a.addValue arg).2 = false →
          (a.addValue arg).1 = a ∧ Error.InvalidValueGiven a.metavar arg ∈ s2.errors)) := by
  refine ⟨scan_passedAccounted args s s1 hscan hinv, ?_⟩
  intro arg rest s2 adv hstep hne
  obtain ⟨_, hc2, hc3⟩ := step_cursor s s2 arg rest adv hstep
  obtain ⟨_, ha3⟩ := step_arguments s s2 arg rest adv hstep
  have hc : classify s arg = Rule.positional := by
    by_contra hc
    exact hne (hc2 hc)
  obtain ⟨a, ha, hpos⟩ := hc3 hc
  obtain ⟨a', ha', hargs, herr⟩ := ha3 hc
  rw [ha] at ha'
  simp only [Option.some.injEq] at ha'
  subst ha'
  have hm : a.multi = false := by
    cases hm : a.multi with
    | false => rfl
    | true => rw [hm] at hpos; exact absurd hpos hne
  rw [hm] at hpos
  have hlt := (List.getElem?_eq_some.mp ha).1
  refine ⟨a, ha, hm, hc, by simpa using hpos, by rw [hargs, List.getElem?_set_self hlt],
    argument_addValue_isSet a arg hm, fun hw => ⟨?_, herr hw⟩⟩
  cases a with
  | ValueAdapter hl m r val set rd =>
    simp only [ArgumentAdapter.addValue] at hw ⊢
    split at hw <;> simp_all
  | MultiValueAdapter hl m r vs rd => simp [ArgumentAdapter.multi] at hm

/-- C17, witness: the positional `N` and the token `x`. -/
theorem passed_positional_set_or_refused_witness :
    scan ["x".toList] { parser := exPositional } = .ok exRefused ∧
    PassedAccounted exRefused :=
  ⟨rfl, (passed_positional_set_or_refused ["x".toList] { parser := exPositional } exRefused
      rfl (fun j _ hj => absurd hj (Nat.not_lt_zero j))).1⟩

/-- C17, counterexample: with the positional `N` holding a number and the token `x`,
the scan ends with the cursor past `N`, at 1, and `N` not set. -/
theorem positional_passed_unset :
    Except.map (fun s => (s.parser.position,
        s.parser.arguments.head?.map ArgumentAdapter.isSet, s.errors))
      (scan ["x".toList] { parser := exPositional })
      = .ok (1, some (.ok false), [.InvalidValueGiven "N".toList "x".toList]) := rfl

/-- C18: a token that is no help key, no declared key, not claimed by the key=value
rule, no pack, and arrives with no positional pending is claimed by the leftover
rule: the pass advances one token and appends the token to the leftovers when
unspecified arguments are allowed, and otherwise appends one `UnexpectedArgument`
with the token. With unspecified arguments allowed, a scan emits no
`UnexpectedArgument` and appends to the leftovers exactly the tokens the leftover
rule claimed, in input order. -/
theorem leftover_rule :
    (∀ (s : Scan V) (arg : Str) (rest : List Str),
      arg ∉ s.parser.helpKeys →
      findOption s.parser.options arg = none →
      claimsKeyValue s.parser.config s.parser.options arg = false →
      parsePack s.parser.config s.parser.options arg = none →
      s.parser.arguments.length ≤ s.parser.position →
      classify s arg = Rule.leftover ∧
      step s arg rest =
        .ok (if s.parser.config.allowUnspecifiedArguments then
               { s with parser := { s.parser with leftovers := s.parser.leftovers ++ [arg] } }
             else { s with errors := s.errors ++ [.UnexpectedArgument arg] },
             Advance.one)) ∧
    (∀ (args : List Str) (s s1 : Scan V),
      s.parser.config.allowUnspecifiedArguments = true →
      scan args s = .ok s1 →
      s1.parser.leftovers = s.parser.leftovers ++ leftoverTokens (trace args s) ∧
      ∀ a, Error.UnexpectedArgument a ∈ s1.errors →
        Error.UnexpectedArgument a ∈ s.errors) := by
  constructor
  · intro s arg rest hhelp hkey hkv hpack hpos
    constructor
    · simp [classify, hhelp, hkey, hkv, hpack, Nat.not_lt.mpr hpos]
    · rw [step_unclaimed s arg rest hhelp hkey hkv, packOrLater, hpack]
      simp only [List.getElem?_eq_none_iff.mpr hpos, leftoverBranch, Scan.pushError]
      split <;> rfl
  · intro args s s1 hallow h
    exact scan_leftovers args s s1 hallow h

/-- C18, witness: no declaration, unspecified arguments allowed, tokens `x y`. -/
theorem leftover_rule_witness :
    Except.map (fun s => (s.parser.leftovers, s.errors))
        (scan ["x".toList, "y".toList] { parser := exLeftovers })
      = .ok (["x".toList, "y".toList], []) ∧
    leftoverTokens (trace ["x".toList, "y".toList] { parser := exLeftovers })
      = ["x".toList, "y".toList] ∧
    (step { parser := exLeftovers } "x".toList []
      = .ok ({ parser := { exLeftovers with leftovers := ["x".toList] } }, Advance.one)) :=
  ⟨rfl, rfl,
   ((@leftover_rule Nat).1 { parser := exLeftovers } "x".toList [] (by decide) rfl rfl rfl
      (Nat.le_refl 0)).2⟩

/-- C19: when the scan of `pre` ends exactly at the end of `pre` whatever follows
(no key of `pre` is left waiting for its value), scanning `pre`, a help key and `post`
gives what scanning `pre` and `post` gives, diagnostics, declarations, leftovers and
cursor, with the help flag set. -/
theorem help_key_does_not_stop_scan (s0 sMid : Scan V) (pre post : List Str) (h : Str)
    (hkey : h ∈ s0.parser.helpKeys)
    (hpre : ∀ tail, scan (pre ++ tail) s0 = scan tail sMid) :
    scan (pre ++ h :: post) s0
      = Except.map (fun r => { r with helpRequested := true }) (scan (pre ++ post) s0) := by
  have hmid : scan pre s0 = .ok sMid := by
    have := hpre []
    simpa [scan] using this
  have hkeys := scan_helpKeys pre s0 sMid hmid
  have hstep : step sMid h post = .ok ({ sMid with helpRequested := true }, Advance.one) := by
    simp [step, hkeys, hkey]
  rw [hpre (h :: post), hpre post, scan, hstep]
  exact scan_setHelp post sMid

/-- C19, witness: help key `-h`, tokens `x -h y`. -/
theorem help_key_does_not_stop_scan_witness :
    scan ["x".toList, "-h".toList, "y".toList] { parser := exRequired }
      = Except.map (fun r => { r with helpRequested := true })
          (scan ["x".toList, "y".toList] { parser := exRequired }) ∧
    Except.map (fun s => (s.errors, s.helpRequested))
        (scan ["x".toList, "-h".toList, "y".toList] { parser := exRequired })
      = .ok ([.UnexpectedArgument "x".toList, .UnexpectedArgument "y".toList], true) :=
  ⟨help_key_does_not_stop_scan { parser := exRequired }
      { parser := exRequired, errors := [.UnexpectedArgument "x".toList] }
      ["x".toList] ["y".toList] "-h".toList (by decide) (fun _ => rfl), rfl⟩

/-- C20: a token that is not a help key and is a key of a declaration taking no
argument raises that declaration (a flag holds `true`, a multi-flag holds 1), appends
no diagnostic and advances one token, so that the scan goes on at the following
token. -/
theorem flag_key_raises (s : Scan V) (arg : Str) (rest : List Str) (i : Nat)
    (option : KeyAdapter V)
    (hhelp : arg ∉ s.parser.helpKeys)
    (hfind : findOption s.parser.options arg = some (i, option))
    (hflag : option.hasArgument = false) :
    ∃ raised, option.raise = .ok raised ∧
      step s arg rest = .ok (s.setOption i raised, Advance.one) ∧
      scan (arg :: rest) s = scan rest (s.setOption i raised) ∧
      (s.setOption i raised).errors = s.errors ∧
      findOption (s.setOption i raised).parser.options arg = some (i, raised) ∧
      (∀ ks h v, option = .FlagAdapter ks h v → raised = .FlagAdapter ks h true) ∧
      (∀ ks h c, option = .MultiFlagAdapter ks h c → raised = .MultiFlagAdapter ks h 1) := by
  obtain ⟨raised, hr⟩ := raise_ok_of_no_argument option hflag
  have hstep : step s arg rest = .ok (s.setOption i raised, Advance.one) := by
    simp [step, hhelp, hfind, exactKeyBranch, hflag, hr]
  refine ⟨raised, hr, hstep, ?_, rfl, ?_, ?_, ?_⟩
  · rw [scan, hstep]
  · exact findOption_set_self _ arg i option raised hfind (raise_keys _ _ hr)
  · intro ks h v ho
    subst ho
    simp only [KeyAdapter.raise, Except.ok.injEq] at hr
    exact hr.symm
  · intro ks h c ho
    subst ho
    simp only [KeyAdapter.raise, Except.ok.injEq] at hr
    exact hr.symm

/-- C20, witness: flag `-a`, tokens `-a x`. -/
theorem flag_key_raises_witness :
    ∃ raised, KeyAdapter.raise (.FlagAdapter ["-a".toList] [] false : KeyAdapter Nat)
        = .ok raised ∧
      step { parser := exFlag } "-a".toList ["x".toList]
        = .ok (Scan.setOption { parser := exFlag } 0 raised, Advance.one) ∧
      scan ["-a".toList, "x".toList] { parser := exFlag }
        = scan ["x".toList] (Scan.setOption { parser := exFlag } 0 raised) ∧
      raised = .FlagAdapter ["-a".toList] [] true := by
  obtain ⟨raised, hr, hstep, hscan, _, _, hflag, _⟩ :=
    flag_key_raises { parser := exFlag } "-a".toList ["x".toList] 0
      (.FlagAdapter ["-a".toList] [] false) (by decide) rfl rfl
  exact ⟨raised, hr, hstep, hscan, hflag _ _ _ rfl⟩

/-- C21: at a token that is no help key and is a key of an argument-bearing
declaration, followed by a token that converts, the pass writes what `addValue` left
at the index found (an option then holds the converted value and is marked set),
steps over both tokens and appends no diagnostic; the scan goes on after the value
token, which no pass looks at as a token of its own, whatever it is (no hypothesis
is made on it but that it converts, so it may be a help key or a declared key). -/
theorem option_takes_next_token (s : Scan V) (arg next : Str) (rest : List Str) (i : Nat)
    (option written : KeyAdapter V)
    (hhelp : arg ∉ s.parser.helpKeys)
    (hfind : findOption s.parser.options arg = some (i, option))
    (harg : option.hasArgument = true)
    (hconv : option.addValue next = .ok (written, true)) :
    step s arg (next :: rest) = .ok (s.setOption i written, Advance.two) ∧
    scan (arg :: next :: rest) s = scan rest (s.setOption i written) ∧
    trace (arg :: next :: rest) s
      = (Rule.exactKey, arg, s.parser.position) :: trace rest (s.setOption i written) ∧
    (s.setOption i written).errors = s.errors ∧
    findOption (s.setOption i written).parser.options arg = some (i, written) ∧
    (∀ ks h m r v set rd, option = .OptionAdapter ks h m r v set rd →
      ∃ x, rd next = some x ∧ written = .OptionAdapter ks h m r x true rd) := by
  have hstep : step s arg (next :: rest) = .ok (s.setOption i written, Advance.two) := by
    simp [step, hhelp, hfind, exactKeyBranch, harg, hconv]
  refine ⟨hstep, by rw [scan, hstep], ?_, rfl, ?_, ?_⟩
  · rw [trace_cons_two s _ arg next rest hstep, classify_exactKey s arg i option hhelp hfind]
  · exact findOption_set_self _ arg i option written hfind
      (addValue_written_keys option written next true hconv)
  · intro ks h m r v set rd ho
    subst ho
    simp only [KeyAdapter.addValue] at hconv
    cases hx : rd next with
    | none => simp [hx] at hconv
    | some x =>
      simp only [hx, Except.ok.injEq, Prod.mk.injEq, and_true] at hconv
      exact ⟨x, rfl, hconv.symm⟩

/-- C21, witness: the option `--value` and the tokens `--value 5`: the pass writes 5,
marks the option set and steps over both tokens; the run ends in success without a
diagnostic. -/
theorem option_takes_next_token_witness :
    step { parser := exRequired } "--value".toList ["5".toList]
      = .ok (Scan.setOption { parser := exRequired } 0
          (.OptionAdapter ["--value".toList] [] "VALUE".toList true 5 true readDigits),
          Advance.two) ∧
    Except.map (fun r => (r.errors, r.outcome))
        (parse exRequired ["--value".toList, "5".toList])
      = .ok ([], Outcome.success) :=
  ⟨(option_takes_next_token { parser := exRequired } "--value".toList "5".toList [] 0
      (.OptionAdapter ["--value".toList] [] "VALUE".toList true 0 false readDigits)
      (.OptionAdapter ["--value".toList] [] "VALUE".toList true 5 true readDigits)
      (by decide) rfl rfl rfl).1, rfl⟩

/-- C22, counterexample: `parse` resets neither `_position` nor what the multi
declarations hold. With the single positional `N`, the tokens `5` give success with
no diagnostic; the same tokens run again on the parser the first run left find the
cursor past `N` and are refused with `UnexpectedArgument`, outcome failure. With the
multi-option `-m`, the tokens `-m 1` leave the values `[1]` and, run again on the
parser the first run left, the values `[1, 1]`. -/
theorem rerun_differs :
    Except.map (fun r => (r.errors, r.outcome)) (parse exSingle ["5".toList])
      = .ok ([], Outcome.success) ∧
    Except.map (fun r => (r.errors, r.outcome))
        ((parse exSingle ["5".toList]).bind fun r => parse r.parser ["5".toList])
      = .ok ([.UnexpectedArgument "5".toList], Outcome.failure) ∧
    Except.map (fun r => (r.parser.options.map
          (fun d => match d with
            | .MultiOptionAdapter _ _ _ values _ => values
            | _ => []), r.errors, r.outcome))
        (parse exMultiOption ["-m".toList, "1".toList])
      = .ok ([[], [1], []], [], Outcome.success) ∧
    Except.map (fun r => (r.parser.options.map
          (fun d => match d with
            | .MultiOptionAdapter _ _ _ values _ => values
            | _ => []), r.errors, r.outcome))
        ((parse exMultiOption ["-m".toList, "1".toList]).bind
          fun r => parse r.parser ["-m".toList, "1".toList])
      = .ok ([[], [1, 1], []], [], Outcome.success) := by
  refine ⟨rfl, rfl, rfl, rfl⟩

/-- C22, as amended: over non-multi keyed declarations (flags and options) and no
positional, running `parse` again with the same tokens on the parser a first run
left returns, with the same diagnostics, the same final declarations, the same help
flag and the same outcome as the first run; this holds after every first run that
returned, a successful one in particular. -/
theorem rerun_keeps_result (p : Parser V) (args : List Str) (r1 : Result V)
    (hscalar : ∀ d ∈ p.options, d.isMulti = false) (hpos : p.arguments = [])
    (h1 : parse p args = .ok r1) :
    ∃ r2, parse r1.parser args = .ok r2 ∧ r2.errors = r1.errors ∧
      r2.parser.options = r1.parser.options ∧ r2.outcome = r1.outcome ∧
      r2.helpRequested = r1.helpRequested := by
  obtain ⟨sF, hscan, hchk, hpar, hhelp, hout⟩ := parse_ok_inv p args r1 h1
  have hsim0 : Sim ({ parser := p } : Scan V) { parser := p } := by
    refine ⟨rfl, rfl, hpos, hpos, rfl, rfl, rfl, ?_⟩
    intro j a b ha hb
    rw [ha] at hb
    simp only [Option.some.injEq] at hb
    subst hb
    exact sameDecl_of_not_multi a (hscalar a (List.getElem?_mem ha))
  obtain ⟨_, _, hag⟩ := scan_sim args _ _ sF hsim0 hscan
  have hargsF : sF.parser.arguments = [] := scan_arguments_nil args _ sF hpos hscan
  have hsim : Sim ({ parser := p } : Scan V) { parser := r1.parser } := by
    refine ⟨?_, ?_, hpos, ?_, rfl, rfl, ?_⟩
    · rw [hpar]; exact scan_config args _ sF hscan
    · rw [hpar]; exact scan_helpKeys args _ sF hscan
    · rw [hpar]; exact hargsF
    · rw [hpar]; exact hag.2.1
  obtain ⟨tF, htF, hag2⟩ := scan_sim args _ _ sF hsim hscan
  have hopt : tF.parser.options = sF.parser.options := by
    apply List.ext_getElem?
    intro j
    rcases hag2.2.2.2 j with h | ⟨_, h⟩
    · exact h
    · rw [h]
      show r1.parser.options[j]? = _
      rw [hpar]
  obtain ⟨_, _, _, hargtF, herr, hhelp2, _⟩ := hag2.1
  have hchk2 : requiredChecks tF = .ok r1.errors := by
    rw [← hchk]
    simp only [requiredChecks, hopt, herr, hhelp2, hargtF, hargsF]
  refine ⟨{ parser := tF.parser, errors := r1.errors, helpRequested := tF.helpRequested,
            outcome := decideOutcome r1.errors tF.helpRequested }, ?_, rfl, ?_, ?_, ?_⟩
  · simp only [parse, htF, hchk2]
  · show tF.parser.options = r1.parser.options
    rw [hopt, hpar]
  · show decideOutcome r1.errors tF.helpRequested = r1.outcome
    rw [hout, hhelp2, hhelp]
  · show tF.helpRequested = r1.helpRequested
    rw [hhelp2, hhelp]

/-- C22 as amended, witness: the flags `-a`, `-b` and the option `-n` with the tokens
`-ab -n 7`: the first run leaves both flags raised and `-n` holding 7, and the
second run on that parser returns the same. -/
theorem rerun_keeps_result_witness :
    parse exPack ["-ab".toList, "-n".toList, "7".toList] = .ok exPackParsed ∧
    ∃ r2, parse exPackParsed.parser ["-ab".toList, "-n".toList, "7".toList] = .ok r2 ∧
      r2.errors = exPackParsed.errors ∧
      r2.parser.options = exPackParsed.parser.options ∧ r2.outcome = exPackParsed.outcome ∧
      r2.helpRequested = exPackParsed.helpRequested :=
  ⟨rfl, rerun_keeps_result exPack ["-ab".toList, "-n".toList, "7".toList] exPackParsed
    (by
      intro d hd
      simp only [exPack, List.mem_cons, List.mem_singleton, List.not_mem_nil, or_false] at hd
      rcases hd with rfl | rfl | rfl <;> rfl)
    rfl rfl⟩

/-- C23: `MultiFlagAdapter::raise` assigns `true` to the multi-flag, which stores the
count 1 whatever the count was. With the multi-flag `-v`, the tokens `-v -v -v`
are three passes of the exact-key rule, each raising `-v`, and the count left is 1,
not 3; the pack `-vvv` raises it three times as well and leaves 1. -/
theorem multiFlag_raise_sets_one :
    Except.map (fun r => (r.parser.options.map
          (fun d => match d with
            | .MultiFlagAdapter _ _ count => count
            | _ => 0), r.errors, r.outcome))
        (parse exMultiFlag ["-v".toList, "-v".toList, "-v".toList])
      = .ok ([1], [], Outcome.success) ∧
    Except.map (fun r => (r.parser.options.map
          (fun d => match d with
            | .MultiFlagAdapter _ _ count => count
            | _ => 0), r.errors, r.outcome))
        (parse exMultiFlag ["-vvv".toList])
      = .ok ([1], [], Outcome.success) ∧
    (trace ["-v".toList, "-v".toList, "-v".toList] { parser := exMultiFlag }).map
        (fun e => e.1) = [Rule.exactKey, Rule.exactKey, Rule.exactKey] ∧
    (∀ (ks : List Str) (h : Str) (count : Nat),
      KeyAdapter.raise (.MultiFlagAdapter ks h count : KeyAdapter Nat)
        = .ok (.MultiFlagAdapter ks h 1)) := by
  refine ⟨rfl, rfl, rfl, fun _ _ _ => rfl⟩

/-- C25: a pass at the bare pack prefix does not advance: `parsePack` returns a pack
without keys and the assertion of the pack branch fails. With no declaration,
unspecified arguments collected and the tokens `a - b`, the scan makes two passes,
the leftover rule at `a` and the pack rule at `-`, and stops there at the failed
assertion: the token `b` is never reached. The tokens `a b` run to the end. -/
theorem scan_stops_at_bare_prefix :
    (trace ["a".toList, "-".toList, "b".toList] { parser := exLeftovers }).map
        (fun e => (e.1, e.2.1))
      = [(Rule.leftover, "a".toList), (Rule.pack, "-".toList)] ∧
    Except.map (fun r => r.2)
        (step { parser := { exLeftovers with leftovers := ["a".toList] } } "-".toList
          ["b".toList])
      = .error Fault.assertion ∧
    Except.map (fun r => r.parser.leftovers)
        (scan ["a".toList, "-".toList, "b".toList] { parser := exLeftovers })
      = .error Fault.assertion ∧
    Except.map (fun r => r.parser.leftovers)
        (scan ["a".toList, "b".toList] { parser := exLeftovers })
      = .ok ["a".toList, "b".toList] := by
  refine ⟨rfl, rfl, rfl, rfl⟩

/-- C26: over keyed declarations only (flags, multi-flags, options, multi-options),
`parse` returns or stops at the failed assertion of the pack branch: no call of
`raise`, `addValue` or `isSet` throws. The same holds of every scan and every pass
from any state, a pass failing only at a token for which `parsePack` gives a pack
without keys; and the loop over the keyed declarations after the scan always
returns, asking `isSet` of the required ones only. -/
theorem no_logic_error (p : Parser V) (args : List Str) (hkeyed : p.arguments = []) :
    (parse p args = .error Fault.assertion ∨ ∃ r, parse p args = .ok r) ∧
    (∀ (s : Scan V) (f : Fault), scan args s = .error f → f = Fault.assertion) ∧
    (∀ (s : Scan V) (arg : Str) (rest : List Str) (f : Fault),
      step s arg rest = .error f →
      f = Fault.assertion ∧
        ∃ pack, parsePack s.parser.config s.parser.options arg = some pack ∧
          pack.keys = []) ∧
    (∀ (o : List (KeyAdapter V)) (errors : List Error),
      requiredOptions o errors = .ok (errors ++ missingOptions o)) := by
  refine ⟨?_, fun s f h => scan_fault args s f h,
    fun s arg rest f h => step_fault s arg rest f h,
    fun o errors => requiredOptions_eq o errors⟩
  unfold parse
  cases hs : scan args { parser := p, errors := [], helpRequested := false } with
  | error f1 =>
    left
    rw [scan_fault args _ _ hs]
  | ok s1 =>
    right
    have hargs := scan_arguments_nil args _ s1 hkeyed hs
    have hreq : requiredChecks s1 = .ok (if s1.helpRequested then s1.errors
        else s1.errors ++ missingOptions s1.parser.options) := by
      unfold requiredChecks
      cases s1.helpRequested <;> simp [requiredOptions_eq, hargs, requiredArguments]
    simp only [hreq]
    exact ⟨_, rfl⟩

/-- C26, witness: the flags `-a`, `-b` and the option `-n`: the token `-` stops at
the assertion and not at a thrown `logic_error`; the tokens
`-ab -n 7 -n=8 -an9`, which go through the three keyed branches, end in success. -/
theorem no_logic_error_witness :
    (parse exPack ["-".toList] = .error Fault.assertion ∨
      ∃ r, parse exPack ["-".toList] = .ok r) ∧
    Except.map (fun r => (r.errors, r.outcome))
        (parse exPack ["-ab".toList, "-n".toList, "7".toList, "-n=8".toList, "-an9".toList])
      = .ok ([], Outcome.success) :=
  ⟨(no_logic_error exPack ["-".toList] rfl).1, rfl⟩

/-- C27: when `parsePack` returns a pack with at least one key, every key of
the pack is found by `findOption`, every key but the last is found with a
declaration that takes no argument, and the inline tail is non-empty only if the
declaration found for the last key takes an argument. So the loop over the keys but
the last, with its two assertions, runs through, and the last key is found
afterwards. -/
theorem pack_assertions_hold (config : Config) (o : List (KeyAdapter V)) (arg : Str)
    (pack : KeyPack) (h : parsePack config o arg = some pack) (hne : pack.keys ≠ []) :
    (∀ key ∈ pack.keys, ∃ i d, findOption o key = some (i, d)) ∧
    (∀ key ∈ pack.keys.dropLast, ∃ i d, findOption o key = some (i, d) ∧
      d.hasArgument = false) ∧
    (pack.leftover ≠ [] →
      ∃ key i d, pack.keys.getLast? = some key ∧ findOption o key = some (i, d) ∧
        d.hasArgument = true) ∧
    (∃ o', raiseKeys o pack.keys.dropLast = .ok o' ∧
      ∃ i d, findOption o' (pack.keys.getLastD []) = some (i, d)) := by
  obtain ⟨h1, h2, h3⟩ := parsePack_some config o arg pack h
  refine ⟨h1, h2, h3, ?_⟩
  obtain ⟨last, hlast⟩ : ∃ last, pack.keys.getLast? = some last := by
    cases hl : pack.keys.getLast? with
    | none => exact absurd (List.getLast?_eq_none_iff.mp hl) hne
    | some last => exact ⟨last, rfl⟩
  obtain ⟨i, d, hf⟩ := h1 last (List.mem_of_getLast?_eq_some hlast)
  obtain ⟨o', d', hr, _, hf', _, _⟩ :=
    packBranch_nonempty { parser := { options := o } } [] pack last i d h2 hlast hf
  refine ⟨o', hr, i, d', ?_⟩
  rw [List.getLastD_eq_getLast?, hlast]
  exact hf'

/-- C27, witness: the flags `-a`, `-b` and the option `-n` with the token `-an7`:
the pack has the keys `-a` and `-n` and the tail `7`, and `-a` is found with a
declaration that takes no argument. -/
theorem pack_assertions_hold_witness :
    parsePack exPack.config exPack.options "-an7".toList
      = some { keys := ["-a".toList, "-n".toList], leftover := "7".toList } ∧
    ∀ key ∈ ["-a".toList, "-n".toList].dropLast,
      ∃ i d, findOption exPack.options key = some (i, d) ∧ d.hasArgument = false :=
  ⟨rfl, (pack_assertions_hold exPack.config exPack.options "-an7".toList
    { keys := ["-a".toList, "-n".toList], leftover := "7".toList } rfl (by simp)).2.1⟩

/-- C28: a required option that holds a default value and is not marked set. If no
string handed to its `addValue` during the scan converts, the option holds the
default value and is not marked set after the scan, and, without a help request,
the loop over the keyed declarations emits `RequiredOptionNotSet` with its key
string; a run that returns ends in failure with that diagnostic. No string at all is
handed to it when none of its keys starts a token or is the pack prefix followed by
a character of a token. After the scan the option is marked set exactly when one of
the strings handed to it converted. -/
theorem default_value_is_not_set (p : Parser V) (args : List Str) (s1 : Scan V) (j : Nat)
    (ks : List Str) (hl m : Str) (v : V) (rd : Str → Option V)
    (hscan : scan args { parser := p } = .ok s1)
    (hj : p.options[j]? = some (.OptionAdapter ks hl m true v false rd)) :
    ((offeredTo j (valueOffers args { parser := p })).filterMap rd = [] →
      s1.parser.options[j]? = some (.OptionAdapter ks hl m true v false rd) ∧
      (s1.helpRequested = false →
        (∃ errors, requiredOptions s1.parser.options s1.errors = .ok errors ∧
          Error.RequiredOptionNotSet
            (KeyAdapter.OptionAdapter ks hl m true v false rd).keyString ∈ errors) ∧
        ∀ r, parse p args = .ok r →
          Error.RequiredOptionNotSet
            (KeyAdapter.OptionAdapter ks hl m true v false rd).keyString ∈ r.errors ∧
          r.outcome = Outcome.failure)) ∧
    ((∀ tok ∈ args, ∀ k ∈ ks, ¬ k <+: tok ∧ ∀ c ∈ tok, k ≠ p.config.packPrefix ++ [c]) →
      offeredTo j (valueOffers args { parser := p }) = []) ∧
    (∀ d1, s1.parser.options[j]? = some d1 →
      (d1.isSet = .ok true ↔
        (offeredTo j (valueOffers args { parser := p })).filterMap rd ≠ [])) := by
  have hw := scan_written args { parser := p } s1 j _ hscan hj rfl
  rw [writtenAll_option] at hw
  refine ⟨?_, ?_, ?_⟩
  · intro hnone
    rw [hnone] at hw
    simp only [List.getLastD_nil, List.isEmpty_nil, Bool.not_true, Bool.or_false] at hw
    refine ⟨hw, ?_⟩
    intro hhelp
    have hmem := mem_missingOptions s1.parser.options j _ hw rfl rfl
    refine ⟨⟨_, requiredOptions_eq _ _, List.mem_append.mpr (Or.inr hmem)⟩, ?_⟩
    intro r hr
    obtain ⟨s, hs, hchk, _, hh, hout⟩ := parse_ok_inv p args r hr
    rw [hscan] at hs
    simp only [Except.ok.injEq] at hs
    subst hs
    simp only [requiredChecks, hhelp, Bool.not_false, if_true, requiredOptions_eq] at hchk
    have hin := requiredArguments_keeps _ _ _ hchk _ (List.mem_append.mpr (Or.inr hmem))
    refine ⟨hin, ?_⟩
    rw [hout]
    exact (decideOutcome_failure_iff _ _).mpr (List.ne_nil_of_mem hin)
  · intro habs
    exact valueOffers_absent args { parser := p } j _ hj rfl habs
  · intro d1 hd1
    rw [hw] at hd1
    simp only [Option.some.injEq] at hd1
    subst hd1
    simp [KeyAdapter.isSet, List.isEmpty_iff]

/-- C28, witness: the flag `-a` and the required option `-n` with the default value
3, and the token `-a`: no string is handed to `-n`, which holds 3 and is not marked
set after the scan; the run ends in failure with `RequiredOptionNotSet` for `-n`. -/
theorem default_value_is_not_set_witness :
    Except.map (fun r => (r.errors, r.outcome)) (parse exDefault ["-a".toList])
      = .ok ([.RequiredOptionNotSet "-n".toList], Outcome.failure) ∧
    offeredTo 1 (valueOffers ["-a".toList] { parser := exDefault }) = [] ∧
    exDefaultScanned.parser.options[1]?
      = some (.OptionAdapter ["-n".toList] [] "VALUE".toList true 3 false readDigits) :=
  ⟨rfl, rfl,
    ((default_value_is_not_set exDefault ["-a".toList] exDefaultScanned 1 ["-n".toList] []
      "VALUE".toList 3 readDigits rfl rfl).1 rfl).1⟩

end Claims

end arg
